import Mathlib

/-!
Verification of the collection/deduplication pipeline of the daily-reporter
repository.  The TypeScript sources are shallowly embedded: JavaScript
`Date` values become milliseconds since the Unix epoch (`Int`), strings are
Lean `String`s over Unicode scalar values, nullable/optional values become
`Option`, and host boundaries (the engine's `Date`-string parser, `JSON.parse`,
caller-supplied `RegExp`s) become explicit function parameters.  The runtime is
assumed to run in the UTC zone (the cron environment), so `Date.prototype.getDay`
is the UTC day of week.
-/

namespace DailyReporter

/-- Milliseconds since the Unix epoch, the value of a JavaScript `Date`. -/
abbrev EpochMs := Int

/-- One hour in milliseconds. -/
def hourMs : Int := 3600000

/-- Day of week (0 = Sunday .. 6 = Saturday) of a timestamp, as
`Date.prototype.getDay` yields in a UTC runtime; 1970-01-01 was a Thursday. -/
def getDay (t : EpochMs) : Int := (Int.fdiv t 86400000 + 4) % 7

/-- JavaScript truthiness of an optional string (`undefined`/`null` and the
empty string are falsy). -/
def truthy : Option String → Bool
  | none => false
  | some s => !(s == "")

/-- Lowercasing of one character as `String.prototype.toLowerCase` maps it,
restricted to the ranges the pipeline meets: ASCII `A`-`Z` and the fullwidth
letters `Ａ`-`Ｚ` (U+FF21..U+FF3A).  Other Unicode simple case mappings are
outside the modelled character range. -/
def jsToLowerChar (c : Char) : Char :=
  if 0x41 ≤ c.toNat ∧ c.toNat ≤ 0x5A then Char.ofNat (c.toNat + 0x20)
  else if 0xFF21 ≤ c.toNat ∧ c.toNat ≤ 0xFF3A then Char.ofNat (c.toNat + 0x20)
  else c

/-- `String.prototype.toLowerCase` over the modelled character range. -/
def jsToLower (s : String) : String := String.mk (s.data.map jsToLowerChar)

/-- Does `hay` start with `needle`? -/
def listStartsWith {α} [DecidableEq α] : List α → List α → Bool
  | [], _ => true
  | _ :: _, [] => false
  | a :: as, b :: bs => if a = b then listStartsWith as bs else false

/-- Does `hay` contain `needle` as a contiguous run?  This is
`String.prototype.includes` on the underlying characters. -/
def listIncludes {α} [DecidableEq α] (hay needle : List α) : Bool :=
  match hay with
  | [] => needle.isEmpty
  | _ :: t => listStartsWith needle hay || listIncludes t needle

/-- `String.prototype.includes`. -/
def strIncludes (hay needle : String) : Bool := listIncludes hay.data needle.data

/- ============================================================
   date-parser.ts — freshness window (`calculateWindowStart`)
   ============================================================ -/

/-- Embedding of `calculateWindowStart(lastSuccessAt, now)`.  The
`lastSuccessAt` string is carried as its parsed timestamp (`new Date` on an
ISO string); `none` is the absent (`null`) case. -/
def calculateWindowStart (lastSuccessAt : Option EpochMs) (now : EpochMs) : EpochMs :=
  let isMonday := getDay now == 1
  match lastSuccessAt with
  | some lastSuccess =>
    if isMonday then
      let threeDaysAgo := now - 72 * hourMs
      if lastSuccess > threeDaysAgo then lastSuccess else threeDaysAgo
    else lastSuccess
  | none =>
    if isMonday then now - 72 * hourMs
    else now - 24 * hourMs

/- ============================================================
   SKILL.md fetch executor — `getRetriesByTier`
   ============================================================ -/

/-- The `SourceTier` union type `1 | 2 | 3`. -/
inductive SourceTier where
  | one
  | two
  | three
deriving DecidableEq, Repr

/-- Embedding of `getRetriesByTier(tier, configuredRetries)`. -/
def getRetriesByTier (tier : SourceTier) (configuredRetries : Nat) : Nat :=
  match tier with
  | .one => Nat.max configuredRetries 3
  | .two => Nat.max configuredRetries 1
  | .three => 0

/- ============================================================
   orchestrator — `findAbortHeavySourceIds`
   ============================================================ -/

/-- The error record carried by collection failures (`CollectionError`);
fields not inspected by `findAbortHeavySourceIds` are kept as plain data. -/
structure CollectionError where
  sourceId : String
  errorType : String
  message : String
  timestamp : String
  retryCount : Int
deriving DecidableEq, Repr

/-- Insertion into a JavaScript `Set` iterated in insertion order. -/
def jsSetAdd (l : List String) (s : String) : List String :=
  if s ∈ l then l else l ++ [s]

/-- The abort-message test of `findAbortHeavySourceIds`: the lowercased
message contains one of the three abort phrases. -/
def abortMessageHit (e : CollectionError) : Bool :=
  let normalizedMessage := jsToLower e.message
  strIncludes normalizedMessage "aborted by user"
    || strIncludes normalizedMessage "process aborted"
    || strIncludes normalizedMessage "operation aborted"

/-- One step of the loop body of `findAbortHeavySourceIds`. -/
def abortHeavyStep (acc : List String) (e : CollectionError) : List String :=
  if e.retryCount < 1 then acc
  else if abortMessageHit e then jsSetAdd acc e.sourceId
  else acc

/-- Embedding of `findAbortHeavySourceIds(errors)`: collect the source ids of
qualifying errors into a `Set`, returned as its insertion-order spread. -/
def findAbortHeavySourceIds (errors : List CollectionError) : List String :=
  errors.foldl abortHeavyStep []

/- ============================================================
   history-store.ts — the `history` table and `upsert`
   ============================================================ -/

/-- The `DateConfidence` union type. -/
inductive DateConfidence where
  | high
  | medium
  | low
  | unknown
deriving DecidableEq, Repr

/-- A row of the `history` table.  `published_at`, `date_confidence`,
`title_hash` and `content_hash` are nullable columns. -/
structure HistoryRow where
  id : Nat
  url : String
  normalized_url : String
  title : String
  first_seen_at : String
  last_seen_at : String
  published_at : Option String
  date_confidence : Option DateConfidence
  source : String
  title_hash : Option String
  content_hash : Option String
deriving DecidableEq, Repr

/-- The argument of `upsert` (`Omit<HistoryEntry, 'id'>`): `dateConfidence` is
non-optional in the TypeScript type, so it is always bound non-null. -/
structure HistoryEntryInput where
  url : String
  normalizedUrl : String
  title : String
  firstSeenAt : String
  lastSeenAt : String
  publishedAt : Option String
  dateConfidence : DateConfidence
  source : String
  titleHash : Option String
  contentHash : Option String
deriving DecidableEq, Repr

/-- The `HistoryEntry` value produced by `rowToEntry` (the `id` is present on
rows read back from the store; `dateConfidence` mirrors the nullable column). -/
structure HistoryEntry where
  id : Nat
  url : String
  normalizedUrl : String
  title : String
  firstSeenAt : String
  lastSeenAt : String
  publishedAt : Option String
  dateConfidence : Option DateConfidence
  source : String
  titleHash : Option String
  contentHash : Option String
deriving DecidableEq, Repr

/-- The table contents, in insertion (rowid) order. -/
abbrev HistoryTable := List HistoryRow

/-- `rowToEntry`. -/
def rowToEntry (row : HistoryRow) : HistoryEntry :=
  { id := row.id
    url := row.url
    normalizedUrl := row.normalized_url
    title := row.title
    firstSeenAt := row.first_seen_at
    lastSeenAt := row.last_seen_at
    publishedAt := row.published_at
    dateConfidence := row.date_confidence
    source := row.source
    titleHash := row.title_hash
    contentHash := row.content_hash }

/-- SQL `COALESCE` of two nullable values. -/
def coalesce {α} (a b : Option α) : Option α :=
  match a with
  | some v => some v
  | none => b

/-- `SELECT * FROM history WHERE normalized_url = ?` via `stmt.get`: the first
matching row, if any. -/
def findRowByNormalizedUrl (table : HistoryTable) (normalizedUrl : String) :
    Option HistoryRow :=
  table.find? (fun row => row.normalized_url == normalizedUrl)

/-- `findByNormalizedUrl`. -/
def findByNormalizedUrl (table : HistoryTable) (normalizedUrl : String) :
    Option HistoryEntry :=
  (findRowByNormalizedUrl table normalizedUrl).map rowToEntry

/-- The `UPDATE history SET ... WHERE normalized_url = ?` statement of
`upsert`, applied to one row (rows with a different key are untouched). -/
def upsertUpdateRow (entry : HistoryEntryInput) (row : HistoryRow) : HistoryRow :=
  if row.normalized_url == entry.normalizedUrl then
    { row with
      last_seen_at := entry.lastSeenAt
      published_at := coalesce entry.publishedAt row.published_at
      date_confidence := coalesce (some entry.dateConfidence) row.date_confidence
      title_hash := coalesce entry.titleHash row.title_hash
      content_hash := coalesce entry.contentHash row.content_hash }
  else row

/-- The fresh rowid handed out by the insert branch of `upsert`
(`AUTOINCREMENT` is modelled as one past the largest id in the table). -/
def nextRowId (table : HistoryTable) : Nat :=
  (table.map (fun row => row.id)).foldl Nat.max 0 + 1

/-- Embedding of `HistoryStore.upsert(entry)`: the pair of the table after the
call and the `HistoryEntry` the method returns. -/
def upsert (table : HistoryTable) (entry : HistoryEntryInput) :
    HistoryTable × HistoryEntry :=
  match findRowByNormalizedUrl table entry.normalizedUrl with
  | some existingRow =>
    (table.map (upsertUpdateRow entry),
     { rowToEntry existingRow with lastSeenAt := entry.lastSeenAt })
  | none =>
    let id := nextRowId table
    let newRow : HistoryRow :=
      { id := id
        url := entry.url
        normalized_url := entry.normalizedUrl
        title := entry.title
        first_seen_at := entry.firstSeenAt
        last_seen_at := entry.lastSeenAt
        published_at := entry.publishedAt
        date_confidence := some entry.dateConfidence
        source := entry.source
        title_hash := entry.titleHash
        content_hash := entry.contentHash }
    (table ++ [newRow],
     { id := id
       url := entry.url
       normalizedUrl := entry.normalizedUrl
       title := entry.title
       firstSeenAt := entry.firstSeenAt
       lastSeenAt := entry.lastSeenAt
       publishedAt := entry.publishedAt
       dateConfidence := some entry.dateConfidence
       source := entry.source
       titleHash := entry.titleHash
       contentHash := entry.contentHash })

/- ============================================================
   date-parser.ts — calendar arithmetic of the JavaScript Date
   ============================================================ -/

/-- Proleptic-Gregorian leap-year test, as ECMAScript `Date` uses. -/
def isLeapYear (y : Int) : Bool :=
  (y % 4 == 0 && y % 100 != 0) || y % 400 == 0

/-- Number of days of month `m` (1-12) in year `y`. -/
def daysInMonth (y m : Int) : Int :=
  if m = 2 then (if isLeapYear y then 29 else 28)
  else if m = 4 ∨ m = 6 ∨ m = 9 ∨ m = 11 then 30
  else 31

/-- Days since 1970-01-01 of the civil date `y-m-d` (month 1-12; the day may
overflow its month, in which case the count stays linear in `d`, exactly as
ECMAScript `MakeDay` behaves). -/
def daysFromCivil (y m d : Int) : Int :=
  let yAdj := if m ≤ 2 then y - 1 else y
  let era := Int.fdiv yAdj 400
  let yoe := yAdj - era * 400
  let mp := if 2 < m then m - 3 else m + 9
  let doy := Int.fdiv (153 * mp + 2) 5 + d - 1
  let doe := yoe * 365 + Int.fdiv yoe 4 - Int.fdiv yoe 100 + doy
  era * 146097 + doe - 719468

/-- Civil date `(y, m, d)` of a count of days since 1970-01-01 (month 1-12). -/
def civilFromDays (z0 : Int) : Int × Int × Int :=
  let z := z0 + 719468
  let era := Int.fdiv z 146097
  let doe := z - era * 146097
  let yoe := Int.fdiv
    (doe - Int.fdiv doe 1460 + Int.fdiv doe 36524 - Int.fdiv doe 146096) 365
  let y := yoe + era * 400
  let doy := doe - (365 * yoe + Int.fdiv yoe 4 - Int.fdiv yoe 100)
  let mp := Int.fdiv (5 * doy + 2) 153
  let d := doy - Int.fdiv (153 * mp + 2) 5 + 1
  let m := if mp < 10 then mp + 3 else mp - 9
  (if m ≤ 2 then y + 1 else y, m, d)

/-- The net effect of `date.setMonth(date.getMonth() - value)` (and of
`setMonth` generally): calendar-month arithmetic with day-of-month and
time-of-day preserved numerically (day overflow rolls forward, as in
ECMAScript `MakeDay`). -/
def addMonths (t : EpochMs) (delta : Int) : EpochMs :=
  let days := Int.fdiv t 86400000
  let msOfDay := t - days * 86400000
  let c := civilFromDays days
  let monthIndex := c.2.1 - 1 + delta
  let y2 := c.1 + Int.fdiv monthIndex 12
  let m2 := Int.emod monthIndex 12 + 1
  daysFromCivil y2 m2 c.2.2 * 86400000 + msOfDay

/- ============================================================
   date-parser.ts — parse results and Layer 1 (`parseISODate`)
   ============================================================ -/

/-- The `DateSource` union type. -/
inductive DateSource where
  | published_at
  | url_date
  | relative_time
  | first_seen_at
deriving DecidableEq, Repr

/-- The `FreshnessPriority` union type. -/
inductive FreshnessPriority where
  | high
  | normal
  | low
deriving DecidableEq, Repr

/-- `DateParseResult`: the parsed ISO string is carried as its timestamp
(`toISOString` is injective back to milliseconds); the diagnostic `rawText`
echo is not modelled. -/
structure DateParseResult where
  date : Option EpochMs
  confidence : DateConfidence
  source : DateSource
deriving DecidableEq, Repr

/-- `FreshnessResult`; the human-readable `reason` string is diagnostic only
and not modelled. -/
structure FreshnessResult where
  isFresh : Bool
  priority : FreshnessPriority
  dateSource : Option DateSource
deriving DecidableEq, Repr

/-- A host `Date`-string parser: `none` stands for an `Invalid Date`
(`NaN` time value), `some t` for a parse to timestamp `t`. -/
abbrev JsDateParse := String → Option EpochMs

/-- Embedding of `parseISODate(dateString)` over a host parser. -/
def parseISODate (jsDate : JsDateParse) (dateString : Option String) :
    DateParseResult :=
  if !truthy dateString then
    { date := none, confidence := .unknown, source := .published_at }
  else
    match jsDate (dateString.getD "") with
    | none => { date := none, confidence := .unknown, source := .published_at }
    | some t => { date := some t, confidence := .high, source := .published_at }

/- ============================================================
   date-parser.ts — Layer 2 (`parseDateFromUrl`)
   ============================================================ -/

/-- Numeric value of a run of ASCII digits (`parseInt(s, 10)` on a digit
string; the arbitrary precision of `Nat` stands in for the JavaScript
float). -/
def digitsToNat (l : List Char) : Nat :=
  l.foldl (fun acc c => acc * 10 + (c.toNat - 0x30)) 0

/-- Split exactly `n` decimal digits off the front of a character list. -/
def splitDigits : Nat → List Char → Option (List Char × List Char)
  | 0, l => some ([], l)
  | _ + 1, [] => none
  | n + 1, c :: t =>
    if c.isDigit then (splitDigits n t).map (fun p => (c :: p.1, p.2)) else none

/-- Match `\d{4}[-\/]\d{2}[-\/]\d{2}` at the head of the list, yielding the
three captured groups. -/
def matchYMDCore (l : List Char) : Option (String × String × String) :=
  match splitDigits 4 l with
  | none => none
  | some (y, r1) =>
    match r1 with
    | [] => none
    | sep1 :: r2 =>
      if sep1 = '-' ∨ sep1 = '/' then
        match splitDigits 2 r2 with
        | none => none
        | some (m, r3) =>
          match r3 with
          | [] => none
          | sep2 :: r4 =>
            if sep2 = '-' ∨ sep2 = '/' then
              (splitDigits 2 r4).map
                (fun p => (String.mk y, String.mk m, String.mk p.1))
            else none
      else none

/-- Match `\/(\d{4})[-\/](\d{2})[-\/](\d{2})` at the head of the list. -/
def matchSlashYMD (l : List Char) : Option (String × String × String) :=
  match l with
  | '/' :: rest => matchYMDCore rest
  | _ => none

/-- Match `[?&]date=(\d{4})[-\/](\d{2})[-\/](\d{2})` at the head of the list. -/
def matchDateParam (l : List Char) : Option (String × String × String) :=
  match l with
  | c :: rest =>
    if c = '?' ∨ c = '&' then
      if listStartsWith "date=".data rest then matchYMDCore (rest.drop 5)
      else none
    else none
  | [] => none

/-- Match `\/(\d{4})(\d{2})(\d{2})` (the tail after `articles?`). -/
def matchArticleTail (l : List Char) : Option (String × String × String) :=
  match l with
  | '/' :: r =>
    match splitDigits 4 r with
    | none => none
    | some (y, r1) =>
      match splitDigits 2 r1 with
      | none => none
      | some (m, r2) =>
        (splitDigits 2 r2).map (fun p => (String.mk y, String.mk m, String.mk p.1))
  | _ => none

/-- Match `\/articles?\/(\d{4})(\d{2})(\d{2})` at the head of the list; the
greedy optional `s` branch is tried first. -/
def matchArticleDate (l : List Char) : Option (String × String × String) :=
  match l with
  | '/' :: rest =>
    if listStartsWith "article".data rest then
      let after := rest.drop 7
      match after with
      | 's' :: r =>
        match matchArticleTail r with
        | some g => some g
        | none => matchArticleTail after
      | _ => matchArticleTail after
    else none
  | _ => none

/-- Leftmost-match search: try the head matcher at every position, in order,
as a JavaScript regular expression does. -/
def scanFirst {α} (f : List Char → Option α) : List Char → Option α
  | [] => f []
  | c :: t =>
    match f (c :: t) with
    | some r => some r
    | none => scanFirst f t

/-- A pattern applied with `url.match(regex)`, abstracted to the triple of
captured groups of its leftmost match.  A caller-supplied custom `RegExp` is a
host boundary and is abstracted the same way. -/
abbrev UrlDateMatcher := String → Option (String × String × String)

/-- The hard-coded `URL_DATE_PATTERNS`, in order. -/
def defaultUrlDatePatterns : List UrlDateMatcher :=
  [fun u => scanFirst matchSlashYMD u.data,
   fun u => scanFirst matchDateParam u.data,
   fun u => scanFirst matchArticleDate u.data]

/-- `String.prototype.padStart(2, '0')`. -/
def padStart2 (s : String) : String :=
  if s.length < 2 then String.mk (List.replicate (2 - s.length) '0') ++ s else s

/-- Timestamp of the string `"Y-M-DT00:00:00.000Z"` under the ECMAScript date
time string format: defined exactly when the year is four digits, month and
day two digits, and the triple is a real calendar date. -/
def isoDateMs (yS mS dS : String) : Option EpochMs :=
  if yS.length = 4 ∧ yS.data.all Char.isDigit ∧
      mS.length = 2 ∧ mS.data.all Char.isDigit ∧
      dS.length = 2 ∧ dS.data.all Char.isDigit then
    let y : Int := (digitsToNat yS.data : Nat)
    let m : Int := (digitsToNat mS.data : Nat)
    let d : Int := (digitsToNat dS.data : Nat)
    if 1 ≤ m ∧ m ≤ 12 ∧ 1 ≤ d ∧ d ≤ daysInMonth y m then
      some (daysFromCivil y m d * 86400000)
    else none
  else none

/-- One iteration of the pattern loop of `parseDateFromUrl`: apply the
matcher, skip on falsy groups, build the ISO string and keep the result only
when its `Date` is valid. -/
def urlPatternResult (url : String) (matcher : UrlDateMatcher) :
    Option DateParseResult :=
  match matcher url with
  | none => none
  | some (year, month, day) =>
    if year == "" || month == "" || day == "" then none
    else
      match isoDateMs year (padStart2 month) (padStart2 day) with
      | some t =>
        some { date := some t, confidence := .medium, source := .url_date }
      | none => none

/-- First pattern of a list that yields a result. -/
def firstPatternResult (url : String) : List UrlDateMatcher → Option DateParseResult
  | [] => none
  | p :: ps =>
    match urlPatternResult url p with
    | some r => some r
    | none => firstPatternResult url ps

/-- Embedding of `parseDateFromUrl(url, pattern?)`. -/
def parseDateFromUrl (url : String) (pattern : Option UrlDateMatcher) :
    DateParseResult :=
  let patterns := match pattern with
    | some p => [p]
    | none => defaultUrlDatePatterns
  match firstPatternResult url patterns with
  | some r => r
  | none => { date := none, confidence := .unknown, source := .url_date }

/- ============================================================
   date-parser.ts — Layer 3 (`parseRelativeTime`)
   ============================================================ -/

/-- The character class `\s` of JavaScript regular expressions. -/
def jsIsSpace (c : Char) : Bool :=
  c = ' ' ∨ c = '\t' ∨ c = '\n' ∨ c.toNat = 0xB ∨ c.toNat = 0xC ∨ c = '\r' ∨
  c.toNat = 0xA0 ∨ c.toNat = 0x1680 ∨
  (0x2000 ≤ c.toNat ∧ c.toNat ≤ 0x200A) ∨
  c.toNat = 0x2028 ∨ c.toNat = 0x2029 ∨ c.toNat = 0x202F ∨
  c.toNat = 0x205F ∨ c.toNat = 0x3000 ∨ c.toNat = 0xFEFF

/-- The `TimeUnit` union of the relative-time table. -/
inductive TimeUnit where
  | seconds
  | minutes
  | hours
  | days
  | weeks
  | months
  | yesterday
  | today
  | last_week
deriving DecidableEq, Repr

/-- Match `(\d+)\s*` followed by the literal `lit` at the head of the list
(the shape of the Japanese numeric patterns such as `(\d+)\s*秒前`). -/
def matchNumLit (lit : List Char) (l : List Char) : Option Nat :=
  let digits := l.takeWhile Char.isDigit
  if digits.isEmpty then none
  else
    let rest := (l.dropWhile Char.isDigit).dropWhile jsIsSpace
    if listStartsWith lit rest then some (digitsToNat digits) else none

/-- Case-insensitive prefix test over the modelled `toLowerCase`. -/
def startsWithCI (lit : List Char) (l : List Char) : Bool :=
  listStartsWith (lit.map jsToLowerChar) (l.map jsToLowerChar)

/-- Match `(\d+)\s*word s?\s*ago` case-insensitively at the head of the list
(the shape of the English numeric patterns such as `(\d+)\s*hours?\s*ago/i`). -/
def matchNumWordAgo (word : List Char) (l : List Char) : Option Nat :=
  let digits := l.takeWhile Char.isDigit
  if digits.isEmpty then none
  else
    let rest := (l.dropWhile Char.isDigit).dropWhile jsIsSpace
    if startsWithCI word rest then
      let afterWord := rest.drop word.length
      let afterPlural :=
        match afterWord with
        | c :: t => if jsToLowerChar c = 's' then t else afterWord
        | [] => afterWord
      let beforeAgo := afterPlural.dropWhile jsIsSpace
      if startsWithCI "ago".data beforeAgo then some (digitsToNat digits)
      else none
    else none

/-- Match `last\s*week` case-insensitively at the head of the list. -/
def matchLastWeek (l : List Char) : Option Nat :=
  if startsWithCI "last".data l then
    let rest := (l.drop 4).dropWhile jsIsSpace
    if startsWithCI "week".data rest then some 0 else none
  else none

/-- A row of `RELATIVE_TIME_PATTERNS`: the leftmost-match search for the
pattern (returning `match[1]` when the pattern has a capture group) and its
unit. -/
structure RelPattern where
  search : String → Option (Option Nat)
  unit : TimeUnit

/-- A numeric pattern row: capture group present. -/
def numPattern (f : List Char → Option Nat) (u : TimeUnit) : RelPattern :=
  { search := fun s => (scanFirst f s.data).map some, unit := u }

/-- A literal pattern row: no capture group (`match[1]` is `undefined`). -/
def litPattern (f : List Char → Option Nat) (u : TimeUnit) : RelPattern :=
  { search := fun s => (scanFirst f s.data).map (fun _ => none), unit := u }

/-- Plain literal containment pattern (e.g. `/昨日/`). -/
def litMatch (lit : List Char) (l : List Char) : Option Nat :=
  if listStartsWith lit l then some 0 else none

/-- Plain case-insensitive literal containment pattern (e.g. `/today/i`). -/
def litMatchCI (lit : List Char) (l : List Char) : Option Nat :=
  if startsWithCI lit l then some 0 else none

/-- The `RELATIVE_TIME_PATTERNS` table flattened in trial order: the Japanese
rows, then the English rows. -/
def relativeTimePatterns : List RelPattern :=
  [numPattern (matchNumLit "秒前".data) .seconds,
   numPattern (matchNumLit "分前".data) .minutes,
   numPattern (matchNumLit "時間前".data) .hours,
   numPattern (matchNumLit "日前".data) .days,
   numPattern (matchNumLit "週間前".data) .weeks,
   numPattern (matchNumLit "ヶ月前".data) .months,
   numPattern (matchNumLit "か月前".data) .months,
   litPattern (litMatch "昨日".data) .yesterday,
   litPattern (litMatch "今日".data) .today,
   litPattern (litMatch "先週".data) .last_week,
   numPattern (matchNumWordAgo "second".data) .seconds,
   numPattern (matchNumWordAgo "minute".data) .minutes,
   numPattern (matchNumWordAgo "hour".data) .hours,
   numPattern (matchNumWordAgo "day".data) .days,
   numPattern (matchNumWordAgo "week".data) .weeks,
   numPattern (matchNumWordAgo "month".data) .months,
   litPattern (litMatchCI "yesterday".data) .yesterday,
   litPattern (litMatchCI "today".data) .today,
   litPattern matchLastWeek .last_week]

/-- Embedding of `calculateDateFromRelative(value, unit, referenceDate)`:
each `Date` component setter subtracts exactly its unit, except months, which
use calendar arithmetic. -/
def calculateDateFromRelative (value : Nat) (unit : TimeUnit)
    (referenceDate : EpochMs) : EpochMs :=
  match unit with
  | .seconds => referenceDate - value * 1000
  | .minutes => referenceDate - value * 60000
  | .hours => referenceDate - value * hourMs
  | .days => referenceDate - value * 86400000
  | .weeks => referenceDate - value * 7 * 86400000
  | .months => addMonths referenceDate (-(value : Int))
  | .yesterday => referenceDate - 86400000
  | .today => referenceDate
  | .last_week => referenceDate - 7 * 86400000

/-- First row of the pattern table matching the text, with the computed date. -/
def firstRelMatch (text : String) (referenceDate : EpochMs) :
    List RelPattern → Option EpochMs
  | [] => none
  | p :: ps =>
    match p.search text with
    | some g =>
      some (calculateDateFromRelative (g.getD 1) p.unit referenceDate)
    | none => firstRelMatch text referenceDate ps

/-- Embedding of `parseRelativeTime(text, referenceDate)`.  The source
defaults `referenceDate` to the ambient clock; the embedding always receives
it from the caller. -/
def parseRelativeTime (text : String) (referenceDate : EpochMs) :
    DateParseResult :=
  match firstRelMatch text referenceDate relativeTimePatterns with
  | some t => { date := some t, confidence := .low, source := .relative_time }
  | none => { date := none, confidence := .unknown, source := .relative_time }

/- ============================================================
   date-parser.ts — multi-layer and by-method dispatch
   ============================================================ -/

/-- The options record of `parseDateMultiLayer`. -/
structure MultiLayerOptions where
  publishedAt : Option String
  url : Option String
  relativeTimeText : Option String
  urlDatePattern : Option UrlDateMatcher
  referenceDate : EpochMs

/-- Embedding of `parseDateMultiLayer(options)`. -/
def parseDateMultiLayer (jsDate : JsDateParse) (o : MultiLayerOptions) :
    DateParseResult :=
  let layer1 : Option DateParseResult :=
    if truthy o.publishedAt then
      let r := parseISODate jsDate o.publishedAt
      if r.date.isSome then some r else none
    else none
  match layer1 with
  | some r => r
  | none =>
    let layer2 : Option DateParseResult :=
      if truthy o.url then
        let r := parseDateFromUrl (o.url.getD "") o.urlDatePattern
        if r.date.isSome then some r else none
      else none
    match layer2 with
    | some r => r
    | none =>
      let layer3 : Option DateParseResult :=
        if truthy o.relativeTimeText then
          let r := parseRelativeTime (o.relativeTimeText.getD "") o.referenceDate
          if r.date.isSome then some r else none
        else none
      match layer3 with
      | some r => r
      | none => { date := none, confidence := .unknown, source := .first_seen_at }

/-- The `DateMethod` union type. -/
inductive DateMethod where
  | html_meta
  | html_parse
  | url_parse
  | search_result
  | api
deriving DecidableEq, Repr

/-- The options record of `parseDateByMethod`. -/
structure ByMethodOptions where
  metaContent : Option String
  htmlContent : Option String
  url : Option String
  searchResultText : Option String
  apiResponse : Option String
  dateSelector : Option String
  datePattern : Option UrlDateMatcher
  referenceDate : EpochMs

/-- Embedding of `parseDateByMethod(method, options)`. -/
def parseDateByMethod (jsDate : JsDateParse) (method : DateMethod)
    (o : ByMethodOptions) : DateParseResult :=
  match method with
  | .html_meta | .api =>
    parseISODate jsDate (coalesce o.metaContent o.apiResponse)
  | .url_parse =>
    if truthy o.url then parseDateFromUrl (o.url.getD "") o.datePattern
    else { date := none, confidence := .unknown, source := .url_date }
  | .html_parse | .search_result =>
    if truthy (coalesce o.searchResultText o.htmlContent) then
      parseRelativeTime
        ((coalesce o.searchResultText o.htmlContent).getD "") o.referenceDate
    else { date := none, confidence := .unknown, source := .relative_time }

/- ============================================================
   date-parser.ts — `checkFreshness`
   ============================================================ -/

/-- Embedding of `checkFreshness(options)`.  Each input stands for the
corresponding optional ISO string: a string that is absent or fails to parse
as a `Date` falls through to the next candidate in the source exactly as an
absent one does, so both are `none` here. -/
def checkFreshness (publishedAt urlDate relativeTimeParsed firstSeenAt :
    Option EpochMs) (windowStart : EpochMs) : FreshnessResult :=
  match publishedAt with
  | some t =>
    { isFresh := windowStart ≤ t, priority := .high,
      dateSource := some .published_at }
  | none =>
  match urlDate with
  | some t =>
    { isFresh := windowStart ≤ t, priority := .normal,
      dateSource := some .url_date }
  | none =>
  match relativeTimeParsed with
  | some t =>
    { isFresh := windowStart ≤ t, priority := .normal,
      dateSource := some .relative_time }
  | none =>
  match firstSeenAt with
  | some t =>
    { isFresh := windowStart ≤ t, priority := .low,
      dateSource := some .first_seen_at }
  | none =>
    { isFresh := true, priority := .low, dateSource := none }

/- ============================================================
   deduplicator/index.ts — freshness stage (`filterByFreshness`)
   ============================================================ -/

/-- `RawArticle`. -/
structure RawArticle where
  url : String
  title : String
  summary : Option String
  source : String
  fetchedAt : Option String
  collectedAt : Option String
  publishedAt : Option String
  rawContent : Option String
  dateMetaContent : Option String
deriving DecidableEq, Repr

/-- `DateMethodConfig`; a configured `datePattern` string is carried as the
abstract matcher of the `RegExp` built from it. -/
structure DateMethodConfig where
  type : DateMethod
  selector : Option String
  pattern : Option UrlDateMatcher

/-- An article as it reaches the freshness stage: a `RawArticle` with the
`normalizedUrl` attached in Stage 1 and the optional similarity diagnostic. -/
structure StagedArticle extends RawArticle where
  normalizedUrl : String
  similarityScore : Option ℚ

/-- `FilteredArticle` (timestamps carried as parsed values, as elsewhere). -/
structure FilteredArticle where
  url : String
  title : String
  summary : Option String
  source : String
  fetchedAt : Option String
  collectedAt : Option String
  rawContent : Option String
  dateMetaContent : Option String
  normalizedUrl : String
  similarityScore : Option ℚ
  isNew : Bool
  publishedAt : Option EpochMs
  dateConfidence : DateConfidence
  dateSource : Option DateSource
  urlDate : Option EpochMs
  relativeTimeParsed : Option EpochMs
  freshnessPriority : FreshnessPriority

/-- The date-resolution branch at the top of the `map` body of
`filterByFreshness`: `publishedAt` on the raw article wins, then the source's
`dateMethodConfig`, then the three-layer parse. -/
def resolveArticleDate (jsDate : JsDateParse) (now : EpochMs)
    (methodConfig : Option DateMethodConfig) (article : RawArticle) :
    DateParseResult :=
  if truthy article.publishedAt then
    match jsDate (article.publishedAt.getD "") with
    | none =>
      { date := none, confidence := .unknown, source := .first_seen_at }
    | some t =>
      { date := some t, confidence := .high, source := .published_at }
  else
    match methodConfig with
    | some cfg =>
      parseDateByMethod jsDate cfg.type
        { metaContent := article.dateMetaContent
          htmlContent := none
          url := some article.url
          searchResultText := article.dateMetaContent
          apiResponse := none
          dateSelector := cfg.selector
          datePattern := cfg.pattern
          referenceDate := now }
    | none =>
      parseDateMultiLayer jsDate
        { publishedAt := none
          url := some article.url
          relativeTimeText := none
          urlDatePattern := none
          referenceDate := now }

/-- The body of the `map` of `filterByFreshness`: resolve the date, classify
freshness, and assemble the `FilteredArticle`. -/
def toFilteredArticle (jsDate : JsDateParse) (now : EpochMs)
    (windowStart : EpochMs) (dateMethodMap : String → Option DateMethodConfig)
    (article : StagedArticle) : FilteredArticle :=
  let methodConfig := dateMethodMap article.source
  let dateResult := resolveArticleDate jsDate now methodConfig article.toRawArticle
  let freshnessResult := checkFreshness
    (if dateResult.source = .published_at then dateResult.date else none)
    (if dateResult.source = .url_date then dateResult.date else none)
    (if dateResult.source = .relative_time then dateResult.date else none)
    none windowStart
  { url := article.url
    title := article.title
    summary := article.summary
    source := article.source
    fetchedAt := article.fetchedAt
    collectedAt := article.collectedAt
    rawContent := article.rawContent
    dateMetaContent := article.dateMetaContent
    normalizedUrl := article.normalizedUrl
    similarityScore := article.similarityScore
    isNew := freshnessResult.isFresh
    publishedAt := dateResult.date
    dateConfidence := dateResult.confidence
    dateSource := some dateResult.source
    urlDate := if dateResult.source = .url_date then dateResult.date else none
    relativeTimeParsed :=
      if dateResult.source = .relative_time then dateResult.date else none
    freshnessPriority := freshnessResult.priority }

/-- Embedding of `Deduplicator.filterByFreshness(articles, windowStart,
dateMethodMap)`; `now` is the `new Date()` captured on entry. -/
def filterByFreshness (jsDate : JsDateParse) (now : EpochMs)
    (articles : List StagedArticle) (windowStart : EpochMs)
    (dateMethodMap : String → Option DateMethodConfig) : List FilteredArticle :=
  (articles.map (toFilteredArticle jsDate now windowStart dateMethodMap)).filter
    (fun article => article.isNew || article.dateConfidence = .unknown)

/- ============================================================
   similarity.ts — tokenisation and Jaccard
   ============================================================ -/

/-- ASCII alphanumeric (`[a-zA-Z0-9]`). -/
def isAsciiAlnum (c : Char) : Bool :=
  ('a' ≤ c ∧ c ≤ 'z') ∨ ('A' ≤ c ∧ c ≤ 'Z') ∨ ('0' ≤ c ∧ c ≤ '9')

/-- The fullwidth-to-halfwidth fold of `normalizeText`
(`[Ａ-Ｚａ-ｚ０-９]` shifted down by `0xFEE0`). -/
def foldFullwidth (c : Char) : Char :=
  if (0xFF21 ≤ c.toNat ∧ c.toNat ≤ 0xFF3A) ∨
      (0xFF41 ≤ c.toNat ∧ c.toNat ≤ 0xFF5A) ∨
      (0xFF10 ≤ c.toNat ∧ c.toNat ≤ 0xFF19) then
    Char.ofNat (c.toNat - 0xFEE0)
  else c

/-- Fullwidth space to halfwidth (`replace(/　/g, ' ')`). -/
def foldFullwidthSpace (c : Char) : Char :=
  if c.toNat = 0x3000 then ' ' else c

/-- `replace(/\s+/g, ' ')`: collapse every whitespace run to one space.  The
flag records whether the previous character was part of a run. -/
def collapseSpacesAux : Bool → List Char → List Char
  | _, [] => []
  | inRun, c :: t =>
    if jsIsSpace c then
      if inRun then collapseSpacesAux true t
      else ' ' :: collapseSpacesAux true t
    else c :: collapseSpacesAux false t

/-- `String.prototype.trim` over the whitespace class. -/
def jsTrim (l : List Char) : List Char :=
  ((l.dropWhile jsIsSpace).reverse.dropWhile jsIsSpace).reverse

/-- Embedding of `normalizeText(text)`: lowercase, fold fullwidth
alphanumerics and spaces, collapse whitespace, trim. -/
def normalizeText (text : String) : String :=
  String.mk (jsTrim (collapseSpacesAux false
    (((text.data.map jsToLowerChar).map foldFullwidth).map foldFullwidthSpace)))

/-- Maximal ASCII-alphanumeric runs (`match(/[a-zA-Z0-9]+/g)`), accumulator
reversed on emission. -/
def alnumRunsAux : List Char → List Char → List (List Char)
  | acc, [] => if acc.isEmpty then [] else [acc.reverse]
  | acc, c :: t =>
    if isAsciiAlnum c then alnumRunsAux (c :: acc) t
    else if acc.isEmpty then alnumRunsAux [] t
    else acc.reverse :: alnumRunsAux [] t

/-- Adjacent-character bigrams (`substring(i, i + 2)` for each window). -/
def bigrams : List Char → List String
  | a :: b :: t => String.mk [a, b] :: bigrams (b :: t)
  | _ => []

/-- Embedding of `tokenize(text)`: word tokens plus bigrams of the non-ASCII
residue (and the single residue character when it is alone), as a set. -/
def tokenize (text : String) : Finset String :=
  let normalized := (normalizeText text).data
  let words := (alnumRunsAux [] normalized).map (fun w => jsToLower (String.mk w))
  let japanese := normalized.filter (fun c => !(isAsciiAlnum c || jsIsSpace c))
  let singles := if japanese.length = 1 then [String.mk japanese] else []
  (words ++ bigrams japanese ++ singles).toFinset

/-- Embedding of `calculateJaccardSimilarity(text1, text2)`. -/
def calculateJaccardSimilarity (text1 text2 : String) : ℚ :=
  let tokens1 := tokenize text1
  let tokens2 := tokenize text2
  if tokens1 = ∅ ∧ tokens2 = ∅ then 1
  else if tokens1 = ∅ ∨ tokens2 = ∅ then 0
  else ((tokens1 ∩ tokens2).card : ℚ) / ((tokens1 ∪ tokens2).card : ℚ)

/- ============================================================
   SKILL.md collector — `parseCollectionResult` / `normalizeArticles`
   ============================================================ -/

/-- The fields the normaliser reads off one parsed JSON article object.  Each
field is the `String(...)`-coerced value when present and non-nullish
(`none` for absent, `null` and `undefined`); truthiness of a raw field value
is modelled by truthiness of its coercion, which agrees on the string-valued
fields the fetcher contract produces. -/
structure JsonArticleFields where
  title : Option String
  url : Option String
  summary : Option String
  publishedAt : Option String
  dateMetaContent : Option String
deriving DecidableEq, Repr

/-- Embedding of `normalizeArticles(articlesInput, sourceId)`: array items
that are not objects (`none`) are dropped by the type-guard filter, fields
are coerced, `source` and `collectedAt` stamped, and entries with a falsy
title or url dropped.  `collectedAt` is the `new Date().toISOString()` of the
call, passed in as `nowIso`.  The body of its `map` is named here: -/
def coerceArticle (sourceId nowIso : String) (a : JsonArticleFields) :
    RawArticle :=
  { title := a.title.getD ""
    url := a.url.getD ""
    summary := if truthy a.summary then some (a.summary.getD "") else none
    publishedAt :=
      if truthy a.publishedAt then some (a.publishedAt.getD "") else none
    dateMetaContent :=
      if truthy a.dateMetaContent then some (a.dateMetaContent.getD "")
      else none
    source := sourceId
    collectedAt := some nowIso
    fetchedAt := none
    rawContent := none }

/-- The `filter`-after-`map` shape of `normalizeArticles`. -/
def normalizeArticles (items : List (Option JsonArticleFields))
    (sourceId nowIso : String) : List RawArticle :=
  ((items.filterMap id).map (coerceArticle sourceId nowIso)).filter
    (fun a => !(a.title == "") && !(a.url == ""))

/-- The outcome of `JSON.parse` plus `getArticlesArray` on one extracted
candidate string.  `JSON.parse` is a host boundary, so the loop of
`parseCollectionResult` is quantified over every possible outcome list. -/
inductive CandidateOutcome where
  | parseFail (message : String)
  | noArticlesArray
  | articlesArray (items : List (Option JsonArticleFields))

/-- `ParseResult`. -/
structure ParseResult where
  articles : List RawArticle
  parseError : Option String
  rawPreview : Option String

/-- `buildRawPreview(result)`: whitespace collapsed, trimmed, first 120
characters. -/
def buildRawPreview (result : String) : String :=
  String.mk ((jsTrim (collapseSpacesAux false result.data)).take 120)

/-- The candidate loop of `parseCollectionResult`, carrying the latest
`parseError` message. -/
def parseCollectionLoop (sourceId nowIso parseError : String) :
    List CandidateOutcome → List RawArticle ⊕ String
  | [] => Sum.inr parseError
  | o :: rest =>
    match o with
    | .parseFail msg => parseCollectionLoop sourceId nowIso msg rest
    | .noArticlesArray =>
      parseCollectionLoop sourceId nowIso
        "Response does not contain articles array" rest
    | .articlesArray items => Sum.inl (normalizeArticles items sourceId nowIso)

/-- Embedding of `parseCollectionResult(result, sourceId)`: `outcomes` are the
parse outcomes of the extracted JSON candidates, in order. -/
def parseCollectionResult (result : String) (outcomes : List CandidateOutcome)
    (sourceId nowIso : String) : ParseResult :=
  match parseCollectionLoop sourceId nowIso
      "Response does not contain parseable JSON" outcomes with
  | Sum.inl articles =>
    { articles := articles, parseError := none, rawPreview := none }
  | Sum.inr err =>
    { articles := [], parseError := some err,
      rawPreview := some (buildRawPreview result) }

/- ============================================================
   url-normalizer.ts — percent-coding layer
   ============================================================

   The WHATWG `URL` class and the ECMAScript `encodeURIComponent` /
   `decodeURIComponent` built-ins are host code; they are modelled here over
   Unicode scalar values for the subset the normaliser meets: absolute
   http/https URLs with ASCII hosts and no credentials, explicit ports,
   IPv6 literals or embedded tab/newline characters.  Percent-coding is
   byte-faithful (UTF-8). -/

/-- Uppercase hexadecimal digit of a value below 16. -/
def hexUpper (n : Nat) : Char :=
  if n < 10 then Char.ofNat (0x30 + n) else Char.ofNat (0x37 + n)

/-- Value of a hexadecimal digit character, either case. -/
def hexVal (c : Char) : Option Nat :=
  if 0x30 ≤ c.toNat ∧ c.toNat ≤ 0x39 then some (c.toNat - 0x30)
  else if 0x41 ≤ c.toNat ∧ c.toNat ≤ 0x46 then some (c.toNat - 0x37)
  else if 0x61 ≤ c.toNat ∧ c.toNat ≤ 0x66 then some (c.toNat - 0x57)
  else none

/-- UTF-8 bytes of a scalar value. -/
def utf8Bytes (n : Nat) : List Nat :=
  if n < 0x80 then [n]
  else if n < 0x800 then [0xC0 + n / 64, 0x80 + n % 64]
  else if n < 0x10000 then [0xE0 + n / 4096, 0x80 + n / 64 % 64, 0x80 + n % 64]
  else [0xF0 + n / 262144, 0x80 + n / 4096 % 64, 0x80 + n / 64 % 64,
    0x80 + n % 64]

/-- A byte rendered as a `%XX` escape. -/
def percentByte (b : Nat) : List Char := ['%', hexUpper (b / 16), hexUpper (b % 16)]

/-- The characters `encodeURIComponent` leaves unescaped. -/
def isUriUnreserved (c : Char) : Bool :=
  isAsciiAlnum c ∨ c = '-' ∨ c = '_' ∨ c = '.' ∨ c = '!' ∨ c = '~' ∨
  c = '*' ∨ c = '(' ∨ c = ')' ∨ c.toNat = 0x27

/-- `encodeURIComponent` on one character. -/
def encodeURIComponentChar (c : Char) : List Char :=
  if isUriUnreserved c then [c] else ((utf8Bytes c.toNat).map percentByte).flatten

/-- `encodeURIComponent` on a character list. -/
def encodeURIComponentList (l : List Char) : List Char :=
  (l.map encodeURIComponentChar).flatten

/-- A percent-decoding token: a decoded byte or a literal character. -/
abbrev PTok := Sum Nat Char

/-- Tokenise `%XX` escapes strictly: a `%` without two hexadecimal digits is
a `URIError` (the `decodeURIComponent` rule). -/
def percentTokens : List Char → Option (List PTok)
  | [] => some []
  | c :: rest =>
    if c = '%' then
      match rest with
      | h1 :: h2 :: rest2 =>
        match hexVal h1, hexVal h2 with
        | some a, some b =>
          (percentTokens rest2).map (fun ts => Sum.inl (a * 16 + b) :: ts)
        | _, _ => none
      | _ => none
    else (percentTokens rest).map (fun ts => Sum.inr c :: ts)

/-- UTF-8 continuation byte. -/
def isContByte (b : Nat) : Bool := 0x80 ≤ b ∧ b ≤ 0xBF

/-- Admissible first continuation byte after a three-byte lead (the strict
table that rejects overlong forms and surrogates). -/
def cont3Ok (b b1 : Nat) : Bool :=
  if b = 0xE0 then 0xA0 ≤ b1 ∧ b1 ≤ 0xBF
  else if b = 0xED then 0x80 ≤ b1 ∧ b1 ≤ 0x9F
  else isContByte b1

/-- Admissible first continuation byte after a four-byte lead. -/
def cont4Ok (b b1 : Nat) : Bool :=
  if b = 0xF0 then 0x90 ≤ b1 ∧ b1 ≤ 0xBF
  else if b = 0xF4 then 0x80 ≤ b1 ∧ b1 ≤ 0x8F
  else isContByte b1

/-- State of the right-fold UTF-8 decoder: the continuation bytes seen so far
whose lead byte has not yet arrived (in original order), and the decoded
output; `none` once the stream is known invalid. -/
abbrev Utf8State := Option (List Nat × List Char)

/-- One step of strict UTF-8 decoding, consuming the stream from the right
(the ECMA left-to-right algorithm over complete sequences is equivalent;
the fold keeps the recursion structural).  Continuation bytes wait in
`pending`; a lead byte must find exactly its continuations there. -/
def utf8Step (t : PTok) (s : Utf8State) : Utf8State :=
  match s with
  | none => none
  | some (pending, out) =>
    match t with
    | Sum.inr c => if pending.isEmpty then some ([], c :: out) else none
    | Sum.inl b =>
      if isContByte b then some (b :: pending, out)
      else if b < 0x80 then
        if pending.isEmpty then some ([], Char.ofNat b :: out) else none
      else if 0xC2 ≤ b ∧ b ≤ 0xDF then
        match pending with
        | [b1] => some ([], Char.ofNat ((b - 0xC0) * 64 + (b1 - 0x80)) :: out)
        | _ => none
      else if 0xE0 ≤ b ∧ b ≤ 0xEF then
        match pending with
        | [b1, b2] =>
          if cont3Ok b b1 then
            some ([],
              Char.ofNat ((b - 0xE0) * 4096 + (b1 - 0x80) * 64 + (b2 - 0x80)) :: out)
          else none
        | _ => none
      else if 0xF0 ≤ b ∧ b ≤ 0xF4 then
        match pending with
        | [b1, b2, b3] =>
          if cont4Ok b b1 then
            some ([],
              Char.ofNat ((b - 0xF0) * 262144 + (b1 - 0x80) * 4096 +
                (b2 - 0x80) * 64 + (b3 - 0x80)) :: out)
          else none
        | _ => none
      else none

/-- Strict UTF-8 decoding of a token stream: decoded bytes must form valid
sequences (a `URIError` otherwise); literal characters pass through. -/
def decodeTokens (ts : List PTok) : Option (List Char) :=
  match ts.foldr utf8Step (some ([], [])) with
  | some ([], out) => some out
  | _ => none

/-- `decodeURIComponent` on a character list (`none` is a thrown `URIError`). -/
def decodeURIComponentList (l : List Char) : Option (List Char) :=
  (percentTokens l).bind decodeTokens

/-- The token run of one `encodeURIComponent`-encoded character. -/
def uriTokens (c : Char) : List PTok :=
  if isUriUnreserved c then [Sum.inr c] else (utf8Bytes c.toNat).map Sum.inl

/- ============================================================
   url-normalizer.ts — application/x-www-form-urlencoded layer
   (`URLSearchParams` parsing, serialising, and the default array sort)
   ============================================================ -/

/-- The characters the urlencoded serialiser leaves unescaped. -/
def isFormSafe (c : Char) : Bool :=
  isAsciiAlnum c ∨ c = '*' ∨ c = '-' ∨ c = '.' ∨ c = '_'

/-- Urlencoded serialisation of one character (space becomes `+`). -/
def formEncodeChar (c : Char) : List Char :=
  if isFormSafe c then [c]
  else if c = ' ' then ['+']
  else ((utf8Bytes c.toNat).map percentByte).flatten

/-- Urlencoded serialisation of a character list. -/
def formEncodeList (l : List Char) : List Char :=
  (l.map formEncodeChar).flatten

/-- Lookahead: do two hexadecimal digits follow? -/
def isHexPairStart (l : List Char) : Bool :=
  match l with
  | h1 :: h2 :: _ => (hexVal h1).isSome && (hexVal h2).isSome
  | _ => false

/-- Urlencoded tokenisation: `+` is a space and a `%` without two hexadecimal
digits passes through literally (never an error).  The lookahead test keeps
the recursion structural; the unreachable arm is dead. -/
def formTokens : List Char → List PTok
  | [] => []
  | c :: rest =>
    if c = '%' ∧ isHexPairStart rest then
      match rest with
      | h1 :: h2 :: rest2 =>
        Sum.inl ((hexVal h1).getD 0 * 16 + (hexVal h2).getD 0) :: formTokens rest2
      | _ => []
    else if c = '%' then Sum.inr '%' :: formTokens rest
    else if c = '+' then Sum.inr ' ' :: formTokens rest
    else Sum.inr c :: formTokens rest

/-- The replacement character U+FFFD. -/
def replChar : Char := Char.ofNat 0xFFFD

/-- One step of total UTF-8 decoding with replacement characters, consuming
the stream from the right like `utf8Step`; invalid pending bytes collapse to
one replacement character.  (The urlencoded decoder never throws; the exact
placement of replacement characters on invalid input is irrelevant
downstream, where such values stay opaque.) -/
def utf8StepTotal (t : PTok) (s : List Nat × List Char) : List Nat × List Char :=
  let pending := s.1
  let out := s.2
  match t with
  | Sum.inr c =>
    if pending.isEmpty then ([], c :: out) else ([], c :: replChar :: out)
  | Sum.inl b =>
    if isContByte b then (b :: pending, out)
    else if b < 0x80 then
      if pending.isEmpty then ([], Char.ofNat b :: out)
      else ([], Char.ofNat b :: replChar :: out)
    else if 0xC2 ≤ b ∧ b ≤ 0xDF then
      match pending with
      | [b1] => ([], Char.ofNat ((b - 0xC0) * 64 + (b1 - 0x80)) :: out)
      | _ => ([], replChar :: out)
    else if 0xE0 ≤ b ∧ b ≤ 0xEF then
      match pending with
      | [b1, b2] =>
        if cont3Ok b b1 then
          ([], Char.ofNat ((b - 0xE0) * 4096 + (b1 - 0x80) * 64 + (b2 - 0x80)) :: out)
        else ([], replChar :: out)
      | _ => ([], replChar :: out)
    else if 0xF0 ≤ b ∧ b ≤ 0xF4 then
      match pending with
      | [b1, b2, b3] =>
        if cont4Ok b b1 then
          ([], Char.ofNat ((b - 0xF0) * 262144 + (b1 - 0x80) * 4096 +
            (b2 - 0x80) * 64 + (b3 - 0x80)) :: out)
        else ([], replChar :: out)
      | _ => ([], replChar :: out)
    else ([], replChar :: out)

/-- Urlencoded percent-decoding of a character list (total, with
replacement characters). -/
def formDecodeList (l : List Char) : List Char :=
  let s := (formTokens l).foldr utf8StepTotal ([], [])
  if s.1.isEmpty then s.2 else replChar :: s.2

/-- Split a character list at a separator character. -/
def splitChar (sep : Char) : List Char → List (List Char)
  | [] => [[]]
  | c :: rest =>
    let r := splitChar sep rest
    if c = sep then [] :: r
    else
      match r with
      | g :: gs => (c :: g) :: gs
      | [] => [[c]]

/-- Split at the first `=` of a piece (`name=value`; no `=` means the whole
piece is the name and the value is empty). -/
def splitFirstEq : List Char → List Char × List Char
  | [] => ([], [])
  | c :: rest =>
    if c = '=' then ([], rest)
    else
      let p := splitFirstEq rest
      (c :: p.1, p.2)

/-- One decoded `URLSearchParams` pair. -/
abbrev FormPair := List Char × List Char

/-- Parse a query string (without the leading `?`) into pairs: split on `&`,
skip empty pieces, split each at the first `=`, percent-decode both sides. -/
def parseUrlencoded (l : List Char) : List FormPair :=
  ((splitChar '&' l).filter (fun piece => !piece.isEmpty)).map
    (fun piece =>
      let p := splitFirstEq piece
      (formDecodeList p.1, formDecodeList p.2))

/-- Join pieces with a separator character. -/
def joinChar (sep : Char) : List (List Char) → List Char
  | [] => []
  | [g] => g
  | g :: gs => g ++ sep :: joinChar sep gs

/-- Serialise pairs back to a query string (`URLSearchParams.toString`):
`name=value` pieces joined by `&`. -/
def serializeUrlencoded (ps : List FormPair) : List Char :=
  joinChar '&' (ps.map (fun p => formEncodeList p.1 ++ '=' :: formEncodeList p.2))

/-- Code-unit comparison of two character lists, the `<` of JavaScript string
comparison (astral characters compare by scalar value here; the surrogate
order inversion of UTF-16 is outside the modelled range). -/
def charListLe : List Char → List Char → Bool
  | [], _ => true
  | _ :: _, [] => false
  | a :: as, b :: bs =>
    if a.toNat < b.toNat then true
    else if b.toNat < a.toNat then false
    else charListLe as bs

/-- The key the default `Array.prototype.sort` comparator sees for an
`[key, value]` entry: `String([k, v]) = k + "," + v`. -/
def pairSortKey (p : FormPair) : List Char := p.1 ++ ',' :: p.2

/-- Comparison of two entries under the default sort. -/
def pairLe (p q : FormPair) : Bool := charListLe (pairSortKey p) (pairSortKey q)

/-- Stable insertion: an element goes in front of the first entry it is
less-or-equal to, preserving the original order of equal keys, which is what
the (stable) `Array.prototype.sort` guarantees. -/
def insertPair (x : FormPair) : List FormPair → List FormPair
  | [] => [x]
  | y :: rest => if pairLe x y then x :: y :: rest else y :: insertPair x rest

/-- Stable sort of the entries array (`[...searchParams.entries()].sort()`). -/
def sortPairs : List FormPair → List FormPair
  | [] => []
  | x :: rest => insertPair x (sortPairs rest)

/- ============================================================
   url-normalizer.ts — the URL record, parser and serialiser
   ============================================================ -/

/-- The WHATWG path percent-encode set (plus everything above U+007E). -/
def inPathEncodeSet (c : Char) : Bool :=
  c.toNat < 0x20 ∨ c.toNat > 0x7E ∨ c = ' ' ∨ c = '"' ∨ c = '#' ∨ c = '<' ∨
  c = '>' ∨ c = '?' ∨ c = '`' ∨ c = '{' ∨ c = '}'

/-- Percent-encoding applied by the URL parser inside path segments. -/
def encodePathSeg (l : List Char) : List Char :=
  (l.map (fun c =>
    if inPathEncodeSet c then ((utf8Bytes c.toNat).map percentByte).flatten
    else [c])).flatten

/-- The special-scheme query percent-encode set. -/
def inQueryEncodeSet (c : Char) : Bool :=
  c.toNat < 0x20 ∨ c.toNat > 0x7E ∨ c = ' ' ∨ c = '"' ∨ c = '#' ∨ c = '<' ∨
  c = '>' ∨ c.toNat = 0x27

/-- Percent-encoding applied by the URL parser to the query. -/
def encodeQueryList (l : List Char) : List Char :=
  (l.map (fun c =>
    if inQueryEncodeSet c then ((utf8Bytes c.toNat).map percentByte).flatten
    else [c])).flatten

/-- A single-dot path segment (`.` or `%2e`, case-insensitively). -/
def isSingleDotSeg (l : List Char) : Bool :=
  let s := l.map jsToLowerChar
  s = ['.'] ∨ s = ['%', '2', 'e']

/-- A double-dot path segment, in its four spellings. -/
def isDoubleDotSeg (l : List Char) : Bool :=
  let s := l.map jsToLowerChar
  s = ['.', '.'] ∨ s = ['.', '%', '2', 'e'] ∨ s = ['%', '2', 'e', '.'] ∨
  s = ['%', '2', 'e', '%', '2', 'e']

/-- Split a raw path on the separators `/` and `\` (special URLs treat both
alike). -/
def splitSeps : List Char → List (List Char)
  | [] => [[]]
  | c :: rest =>
    let r := splitSeps rest
    if c = '/' ∨ c = '\\' then [] :: r
    else
      match r with
      | g :: gs => (c :: g) :: gs
      | [] => [[c]]

/-- The path state of the URL parser over the segment list: double dots pop,
single dots vanish (a terminal dot segment leaves a trailing slash), anything
else is percent-encoded and appended. -/
def processSegs : List (List Char) → List (List Char) → List (List Char)
  | acc, [] => acc
  | acc, seg :: rest =>
    if isDoubleDotSeg seg then
      processSegs (acc.dropLast ++ (if rest.isEmpty then [[]] else [])) rest
    else if isSingleDotSeg seg then
      processSegs (acc ++ (if rest.isEmpty then [[]] else [])) rest
    else processSegs (acc ++ [encodePathSeg seg]) rest

/-- Parse a raw path into its serialised pathname (always `/`-prefixed). -/
def parsePath (raw : List Char) : List Char :=
  let body :=
    match raw with
    | c :: rest => if c = '/' ∨ c = '\\' then rest else raw
    | [] => []
  let segs := processSegs [] (splitSeps body)
  (segs.map (fun s => '/' :: s)).flatten

/-- Characters the model accepts in a host: printable ASCII outside the
WHATWG forbidden-host set (percent-escapes, IDN and IPv6 literals are outside
the modelled subset). -/
def hostCharOk (c : Char) : Bool :=
  0x21 ≤ c.toNat ∧ c.toNat ≤ 0x7E ∧
  !(c = '#' ∨ c = '%' ∨ c = '/' ∨ c = ':' ∨ c = '<' ∨ c = '>' ∨ c = '?' ∨
    c = '@' ∨ c = '[' ∨ c = '\\' ∨ c = ']' ∨ c = '^' ∨ c = '|')

/-- The parsed URL record (no credentials or explicit ports in the modelled
subset; the host is stored lowercased, as the parser leaves it). -/
structure JsUrl where
  scheme : String
  host : String
  path : String
  query : Option String
  fragment : Option String
deriving DecidableEq, Repr

/-- The `new URL(url)` constructor over the modelled subset: an absolute
http/https URL with `scheme:`, any run of slashes, an authority, then path,
query and fragment.  `none` is a thrown `TypeError`. -/
def jsParseUrl (url : String) : Option JsUrl :=
  let l := url.data
  let schemeRaw := l.takeWhile (fun c => !(c == ':'))
  match l.drop schemeRaw.length with
  | ':' :: afterColon =>
    let scheme := schemeRaw.map jsToLowerChar
    if scheme = "http".data ∨ scheme = "https".data then
      let afterSlashes := afterColon.dropWhile (fun c => c == '/' || c == '\\')
      let authority := afterSlashes.takeWhile
        (fun c => !(c == '/' || c == '\\' || c == '?' || c == '#'))
      let afterAuth := afterSlashes.drop authority.length
      if authority.isEmpty || authority.any (fun c => !hostCharOk c) then none
      else
        let host := String.mk (authority.map jsToLowerChar)
        let rawPath := afterAuth.takeWhile (fun c => !(c == '?' || c == '#'))
        let afterPath := afterAuth.drop rawPath.length
        let path := String.mk (parsePath rawPath)
        match afterPath with
        | '?' :: qf =>
          let rawQuery := qf.takeWhile (fun c => !(c == '#'))
          let afterQ := qf.drop rawQuery.length
          let fragment :=
            match afterQ with
            | _ :: f => some (String.mk f)
            | [] => none
          some { scheme := String.mk scheme, host := host, path := path,
                 query := some (String.mk (encodeQueryList rawQuery)),
                 fragment := fragment }
        | '#' :: f =>
          some { scheme := String.mk scheme, host := host, path := path,
                 query := none, fragment := some (String.mk f) }
        | _ =>
          some { scheme := String.mk scheme, host := host, path := path,
                 query := none, fragment := none }
    else none
  | _ => none

/-- The `href`/`toString` serialiser of the record. -/
def serializeUrl (u : JsUrl) : String :=
  u.scheme ++ "://" ++ u.host ++ u.path ++
    (match u.query with
     | some q => "?" ++ q
     | none => "") ++
    (match u.fragment with
     | some f => "#" ++ f
     | none => "")

/- ============================================================
   url-normalizer.ts — `normalizeUrl`
   ============================================================ -/

/-- `UrlNormalizationOptions`. -/
structure UrlNormalizationOptions where
  removeParams : List String
  normalizeTrailingSlash : Bool
  lowercaseHost : Bool

/-- `DEFAULT_NORMALIZATION_OPTIONS`. -/
def DEFAULT_NORMALIZATION_OPTIONS : UrlNormalizationOptions :=
  { removeParams :=
      ["utm_source", "utm_medium", "utm_campaign", "utm_content", "utm_term",
       "ref", "source", "via", "fbclid", "gclid", "mc_cid", "mc_eid",
       "_ga", "_gl", "yclid", "msclkid"],
    normalizeTrailingSlash := true,
    lowercaseHost := true }

/-- The `www.`-stripping step on the hostname: one leading `www.` is removed,
except that the hostname setter ignores an empty replacement. -/
def wwwStepList (l : List Char) : List Char :=
  if listStartsWith "www.".data l then
    if (l.drop 4).isEmpty then l else l.drop 4
  else l

/-- The `searchParams.delete(param)` loop over `options.removeParams`. -/
def deleteParams (ps : List FormPair) (names : List String) : List FormPair :=
  names.foldl (fun acc name => acc.filter (fun kv => !(kv.1 == name.data))) ps

/-- The `search` setter: an empty string clears the query, anything else is
stored after query-set percent-encoding (a leading `?` would be stripped; the
caller never passes one). -/
def setSearch (u : JsUrl) (s : List Char) : JsUrl :=
  if s.isEmpty then { u with query := none }
  else
    let s2 :=
      match s with
      | '?' :: t => t
      | _ => s
    { u with query := some (String.mk (encodeQueryList s2)) }

/-- The `pathname` setter: the path parser runs over the assigned string. -/
def setPathname (u : JsUrl) (p : List Char) : JsUrl :=
  { u with path := String.mk (parsePath p) }

/-- `replace(/\/+/g, '/')`. -/
def collapseSlashesAux : Bool → List Char → List Char
  | _, [] => []
  | inRun, c :: rest =>
    if c = '/' then
      if inRun then collapseSlashesAux true rest
      else '/' :: collapseSlashesAux true rest
    else c :: collapseSlashesAux false rest

/-- Embedding of `decodeAndReencode(path)`: decode the whole path, split on
`/`, re-encode each segment; a failed decode keeps the path unchanged. -/
def decodeAndReencode (path : List Char) : List Char :=
  match decodeURIComponentList path with
  | none => path
  | some decoded =>
    joinChar '/' ((splitChar '/' decoded).map encodeURIComponentList)

/-- `/\.[a-zA-Z0-9]+$/.test(path)`. -/
def hasExtension (l : List Char) : Bool :=
  let rev := l.reverse
  let run := rev.takeWhile isAsciiAlnum
  !run.isEmpty &&
    (match rev.drop run.length with
     | '.' :: _ => true
     | _ => false)

/-- `replace(/\/+$/, '')`. -/
def stripTrailingSlashes (l : List Char) : List Char :=
  (l.reverse.dropWhile (fun c => c == '/')).reverse

/-- Embedding of `normalizeUrl(url, options)`: parse, upgrade http to https,
lowercase the host, strip one `www.` (the hostname setter ignores an empty
replacement), delete tracking parameters, sort the remaining ones, drop the
fragment, collapse duplicate slashes, canonicalise percent-encoding, strip a
trailing slash except on the root, and drop a dangling `?`. -/
def normalizeUrl (url : String) (options : UrlNormalizationOptions) :
    Option String :=
  match jsParseUrl url with
  | none => none
  | some parsed0 =>
    let u1 :=
      if parsed0.scheme == "http" then { parsed0 with scheme := "https" }
      else parsed0
    let u2 :=
      if options.lowercaseHost then { u1 with host := jsToLower u1.host }
      else u1
    let u3 := { u2 with host := String.mk (wwwStepList u2.host.data) }
    let searchParams := parseUrlencoded (u3.query.getD "").data
    let searchParams2 := deleteParams searchParams options.removeParams
    let sortedParams := sortPairs searchParams2
    let u4 := setSearch u3 (serializeUrlencoded sortedParams)
    let u5 := { u4 with fragment := none }
    let p1 := collapseSlashesAux false u5.path.data
    let p2 := decodeAndReencode p1
    let p3 :=
      if options.normalizeTrailingSlash then
        if hasExtension p2 then stripTrailingSlashes p2
        else if !(p2 == ['/']) then stripTrailingSlashes p2
        else p2
      else p2
    let u6 := setPathname u5 p3
    let result := serializeUrl u6
    some
      (if result.data.getLast? == some '?' then String.mk result.data.dropLast
       else result)

/- ============================================================
   Theorems: C1 (freshness window on Mondays)
   ============================================================ -/

/-- C1 as stated is false: 2024-01-15T10:00:00Z is a Monday, and for
`lastSuccessAt` one millisecond earlier than `now − 72h` the function does
not return the earlier of the two (it returns `now − 72h`). -/
theorem C1_counterexample :
    getDay 1705312800000 = 1 ∧
    calculateWindowStart (some 1705053599999) 1705312800000 ≠
      min (1705053599999 : Int) (1705312800000 - 72 * hourMs) := by
  constructor
  · decide
  · decide

/-- C1 (amended): for every reference time `now` falling on a Monday and
every non-null `lastSuccessAt`, `calculateWindowStart` returns the LATER of
`lastSuccessAt` and `now − 72h`; in particular when
`now = lastSuccessAt + 72h + ε` with `ε > 0` it returns `now − 72h`. -/
theorem C1_windowStart_monday_max (now t : EpochMs) (h : getDay now = 1) :
    calculateWindowStart (some t) now = max t (now - 72 * hourMs) ∧
    (t + 72 * hourMs < now → calculateWindowStart (some t) now = now - 72 * hourMs) := by
  have hmain : calculateWindowStart (some t) now = max t (now - 72 * hourMs) := by
    simp only [calculateWindowStart, h, beq_self_eq_true, if_true]
    rcases le_or_lt t (now - 72 * hourMs) with hle | hlt
    · rw [if_neg (not_lt.mpr hle), max_eq_right hle]
    · rw [if_pos hlt, max_eq_left hlt.le]
  refine ⟨hmain, fun hlt => ?_⟩
  rw [hmain]
  have hle : t ≤ now - 72 * hourMs := by linarith
  exact max_eq_right hle

/-- Witness for `C1_windowStart_monday_max` at the Monday
2024-01-15T10:00:00Z. -/
theorem C1_windowStart_monday_max_witness :
    calculateWindowStart (some 1705053599999) 1705312800000 =
      max (1705053599999 : Int) (1705312800000 - 72 * hourMs) ∧
    ((1705053599999 : Int) + 72 * hourMs < 1705312800000 →
      calculateWindowStart (some 1705053599999) 1705312800000 =
        1705312800000 - 72 * hourMs) :=
  C1_windowStart_monday_max 1705312800000 1705053599999 (by decide)

/- ============================================================
   Theorems: C3 (tier retry floor)
   ============================================================ -/

/-- C3 as stated is false: a tier-3 source with 5 configured retries uses 0
retries, not `max(5, 0) = 5`. -/
theorem C3_counterexample :
    getRetriesByTier .three 5 ≠ Nat.max 5 0 := by decide

/-- C3 (amended): the effective retry count is `max(configured, 3)` for
tier 1 and `max(configured, 1)` for tier 2, but tier 3 uses 0 retries
regardless of the configured count — a tier-3 source never retries even when
its configured count is positive. -/
theorem C3_retries_by_tier (c : Nat) :
    getRetriesByTier .one c = Nat.max c 3 ∧
    getRetriesByTier .two c = Nat.max c 1 ∧
    getRetriesByTier .three c = 0 ∧
    (0 < c → getRetriesByTier .three c < c) := by
  refine ⟨rfl, rfl, rfl, fun hc => ?_⟩
  simpa [getRetriesByTier] using hc

/-- Witness for `C3_retries_by_tier` at `c = 5`. -/
theorem C3_retries_by_tier_witness :
    getRetriesByTier .one 5 = Nat.max 5 3 ∧
    getRetriesByTier .two 5 = Nat.max 5 1 ∧
    getRetriesByTier .three 5 = 0 ∧
    (0 < 5 → getRetriesByTier .three 5 < 5) :=
  C3_retries_by_tier 5

/- ============================================================
   Theorems: C2 and C10 (history upsert)
   ============================================================ -/

/-- The update statement never changes the key column. -/
theorem upsertUpdateRow_key (entry : HistoryEntryInput) (row : HistoryRow) :
    (upsertUpdateRow entry row).normalized_url = row.normalized_url := by
  unfold upsertUpdateRow
  split <;> rfl

/-- Looking a key up after the update statement finds the updated row. -/
theorem findRow_map_update (table : HistoryTable) (entry : HistoryEntryInput)
    (u : String) :
    findRowByNormalizedUrl (table.map (upsertUpdateRow entry)) u =
      (findRowByNormalizedUrl table u).map (upsertUpdateRow entry) := by
  induction table with
  | nil => rfl
  | cons r rest ih =>
    simp only [findRowByNormalizedUrl, List.map_cons, List.find?_cons] at *
    rw [upsertUpdateRow_key]
    by_cases hkey : (r.normalized_url == u) = true
    · simp [hkey]
    · simp only [Bool.not_eq_true] at hkey
      simp [hkey, ih]

/-- Basic facts about `COALESCE`. -/
theorem coalesce_none_left {α} (b : Option α) : coalesce none b = b := rfl

/-- `COALESCE` with a non-null first argument ignores the second. -/
theorem coalesce_some_left {α} (v : α) (b : Option α) :
    coalesce (some v) b = some v := rfl

/-- `COALESCE` is null only when both arguments are. -/
theorem coalesce_eq_none {α} (a b : Option α) (h : coalesce a b = none) :
    a = none ∧ b = none := by
  cases a with
  | none => exact ⟨rfl, h⟩
  | some v => exact absurd h (by simp [coalesce])

/-- C2 as stated is false: with `published_at = "2024-01-01"` already stored,
an upsert carrying `publishedAt = "2024-01-02"` replaces the stored non-empty
value instead of keeping it. -/
theorem C2_counterexample :
    (findRowByNormalizedUrl
      (upsert
        [{ id := 1, url := "https://example.com/a",
           normalized_url := "https://example.com/a", title := "T",
           first_seen_at := "2024-01-10T00:00:00.000Z",
           last_seen_at := "2024-01-10T00:00:00.000Z",
           published_at := some "2024-01-01T00:00:00.000Z",
           date_confidence := some .high, source := "s",
           title_hash := some "h1", content_hash := none }]
        { url := "https://example.com/a",
          normalizedUrl := "https://example.com/a", title := "T",
          firstSeenAt := "2024-01-15T00:00:00.000Z",
          lastSeenAt := "2024-01-15T00:00:00.000Z",
          publishedAt := some "2024-01-02T00:00:00.000Z",
          dateConfidence := .low, source := "s",
          titleHash := some "h2", contentHash := none }).1
      "https://example.com/a").map HistoryRow.published_at =
      some (some "2024-01-02T00:00:00.000Z") ∧
    some (some "2024-01-02T00:00:00.000Z") ≠
      some (some ("2024-01-01T00:00:00.000Z" : String)) := by
  constructor
  · rfl
  · decide

/-- C2 (amended): after an upsert whose `normalizedUrl` is already stored, the
stored row has `last_seen_at` set to the new value and `first_seen_at`
unchanged; `published_at`, `title_hash` and `content_hash` become
`COALESCE(new, stored)` — the argument's value whenever it is non-null (even
when the stored value was non-empty), the stored value otherwise, so no field
is ever overwritten with null; `date_confidence` is always set to the
argument's (non-null) value. -/
theorem C2_upsert_merge (table : HistoryTable) (entry : HistoryEntryInput)
    (row : HistoryRow)
    (hfind : findRowByNormalizedUrl table entry.normalizedUrl = some row) :
    ∃ row2,
      findRowByNormalizedUrl (upsert table entry).1 entry.normalizedUrl =
        some row2 ∧
      row2.last_seen_at = entry.lastSeenAt ∧
      row2.first_seen_at = row.first_seen_at ∧
      row2.published_at = coalesce entry.publishedAt row.published_at ∧
      row2.title_hash = coalesce entry.titleHash row.title_hash ∧
      row2.content_hash = coalesce entry.contentHash row.content_hash ∧
      row2.date_confidence = some entry.dateConfidence ∧
      (row2.published_at = none →
        entry.publishedAt = none ∧ row.published_at = none) ∧
      (entry.publishedAt = none → row2.published_at = row.published_at) ∧
      (entry.titleHash = none → row2.title_hash = row.title_hash) ∧
      (entry.contentHash = none → row2.content_hash = row.content_hash) := by
  have hkey : (row.normalized_url == entry.normalizedUrl) = true := by
    have h2 : table.find? (fun r => r.normalized_url == entry.normalizedUrl) =
        some row := hfind
    simpa using List.find?_some h2
  have hrow : upsertUpdateRow entry row =
      { row with
        last_seen_at := entry.lastSeenAt
        published_at := coalesce entry.publishedAt row.published_at
        date_confidence :=
          coalesce (some entry.dateConfidence) row.date_confidence
        title_hash := coalesce entry.titleHash row.title_hash
        content_hash := coalesce entry.contentHash row.content_hash } := by
    simp only [upsertUpdateRow, hkey, if_true]
  refine ⟨upsertUpdateRow entry row, ?_, ?_⟩
  · unfold upsert
    rw [hfind]
    simp only
    rw [findRow_map_update, hfind]
    rfl
  · rw [hrow]
    refine ⟨rfl, rfl, rfl, rfl, rfl, rfl, ?_, ?_, ?_, ?_⟩
    · exact fun h => coalesce_eq_none _ _ h
    · intro h
      rw [h]
      exact coalesce_none_left _
    · intro h
      rw [h]
      exact coalesce_none_left _
    · intro h
      rw [h]
      exact coalesce_none_left _

/-- Witness for `C2_upsert_merge` on a one-row table. -/
theorem C2_upsert_merge_witness :
    ∃ row2,
      findRowByNormalizedUrl
        (upsert
          [{ id := 1, url := "https://example.com/b",
             normalized_url := "https://example.com/b", title := "T",
             first_seen_at := "2024-01-10T00:00:00.000Z",
             last_seen_at := "2024-01-10T00:00:00.000Z",
             published_at := none, date_confidence := some .unknown,
             source := "s", title_hash := none, content_hash := none }]
          { url := "https://example.com/b",
            normalizedUrl := "https://example.com/b", title := "T",
            firstSeenAt := "2024-01-15T00:00:00.000Z",
            lastSeenAt := "2024-01-15T00:00:00.000Z",
            publishedAt := some "2024-01-14T00:00:00.000Z",
            dateConfidence := .high, source := "s",
            titleHash := some "h", contentHash := none }).1
        "https://example.com/b" = some row2 ∧
      row2.last_seen_at = "2024-01-15T00:00:00.000Z" ∧
      row2.first_seen_at = "2024-01-10T00:00:00.000Z" ∧
      row2.published_at =
        coalesce (some "2024-01-14T00:00:00.000Z") none ∧
      row2.title_hash = coalesce (some "h") none ∧
      row2.content_hash = coalesce none none ∧
      row2.date_confidence = some .high ∧
      (row2.published_at = none →
        (some "2024-01-14T00:00:00.000Z" : Option String) = none ∧
        (none : Option String) = none) ∧
      ((some "2024-01-14T00:00:00.000Z" : Option String) = none →
        row2.published_at = none) ∧
      ((some "h" : Option String) = none → row2.title_hash = none) ∧
      ((none : Option String) = none → row2.content_hash = none) :=
  C2_upsert_merge
    [{ id := 1, url := "https://example.com/b",
       normalized_url := "https://example.com/b", title := "T",
       first_seen_at := "2024-01-10T00:00:00.000Z",
       last_seen_at := "2024-01-10T00:00:00.000Z",
       published_at := none, date_confidence := some .unknown,
       source := "s", title_hash := none, content_hash := none }]
    { url := "https://example.com/b",
      normalizedUrl := "https://example.com/b", title := "T",
      firstSeenAt := "2024-01-15T00:00:00.000Z",
      lastSeenAt := "2024-01-15T00:00:00.000Z",
      publishedAt := some "2024-01-14T00:00:00.000Z",
      dateConfidence := .high, source := "s",
      titleHash := some "h", contentHash := none }
    { id := 1, url := "https://example.com/b",
      normalized_url := "https://example.com/b", title := "T",
      first_seen_at := "2024-01-10T00:00:00.000Z",
      last_seen_at := "2024-01-10T00:00:00.000Z",
      published_at := none, date_confidence := some .unknown,
      source := "s", title_hash := none, content_hash := none }
    rfl

/-- C10: when the `normalizedUrl` already exists in the store, the
`HistoryEntry` returned by `upsert` is the previously stored entry with only
`lastSeenAt` replaced by the argument's; the argument's `publishedAt`,
`dateConfidence`, `titleHash` and `contentHash` written by the update are not
reflected in the returned entry. -/
theorem C10_upsert_return (table : HistoryTable) (entry : HistoryEntryInput)
    (e : HistoryEntry)
    (hfind : findByNormalizedUrl table entry.normalizedUrl = some e) :
    (upsert table entry).2 = { e with lastSeenAt := entry.lastSeenAt } ∧
    (upsert table entry).2.publishedAt = e.publishedAt ∧
    (upsert table entry).2.dateConfidence = e.dateConfidence ∧
    (upsert table entry).2.titleHash = e.titleHash ∧
    (upsert table entry).2.contentHash = e.contentHash ∧
    (upsert table entry).2.firstSeenAt = e.firstSeenAt ∧
    (upsert table entry).2.lastSeenAt = entry.lastSeenAt := by
  obtain ⟨row, hrowfind, hmap⟩ : ∃ row,
      findRowByNormalizedUrl table entry.normalizedUrl = some row ∧
      rowToEntry row = e := by
    unfold findByNormalizedUrl at hfind
    cases hx : findRowByNormalizedUrl table entry.normalizedUrl with
    | none =>
      rw [hx] at hfind
      exact Option.noConfusion hfind
    | some r =>
      rw [hx] at hfind
      exact ⟨r, rfl, by injection hfind⟩
  have hup : (upsert table entry).2 =
      { rowToEntry row with lastSeenAt := entry.lastSeenAt } := by
    unfold upsert
    rw [hrowfind]
  rw [hup, hmap]
  exact ⟨rfl, rfl, rfl, rfl, rfl, rfl, rfl⟩

/-- Witness for `C10_upsert_return` on a one-row table. -/
theorem C10_upsert_return_witness :
    (upsert
      [{ id := 1, url := "https://example.com/c",
         normalized_url := "https://example.com/c", title := "T",
         first_seen_at := "2024-01-10T00:00:00.000Z",
         last_seen_at := "2024-01-10T00:00:00.000Z",
         published_at := some "2024-01-09T00:00:00.000Z",
         date_confidence := some .high, source := "s",
         title_hash := some "old", content_hash := none }]
      { url := "https://example.com/c",
        normalizedUrl := "https://example.com/c", title := "T",
        firstSeenAt := "2024-01-15T00:00:00.000Z",
        lastSeenAt := "2024-01-15T00:00:00.000Z",
        publishedAt := some "2024-01-14T00:00:00.000Z",
        dateConfidence := .low, source := "s",
        titleHash := some "new", contentHash := none }).2 =
      { id := 1, url := "https://example.com/c",
        normalizedUrl := "https://example.com/c", title := "T",
        firstSeenAt := "2024-01-10T00:00:00.000Z",
        lastSeenAt := "2024-01-15T00:00:00.000Z",
        publishedAt := some "2024-01-09T00:00:00.000Z",
        dateConfidence := some .high, source := "s",
        titleHash := some "old", contentHash := none } :=
  (C10_upsert_return
    [{ id := 1, url := "https://example.com/c",
       normalized_url := "https://example.com/c", title := "T",
       first_seen_at := "2024-01-10T00:00:00.000Z",
       last_seen_at := "2024-01-10T00:00:00.000Z",
       published_at := some "2024-01-09T00:00:00.000Z",
       date_confidence := some .high, source := "s",
       title_hash := some "old", content_hash := none }]
    { url := "https://example.com/c",
      normalizedUrl := "https://example.com/c", title := "T",
      firstSeenAt := "2024-01-15T00:00:00.000Z",
      lastSeenAt := "2024-01-15T00:00:00.000Z",
      publishedAt := some "2024-01-14T00:00:00.000Z",
      dateConfidence := .low, source := "s",
      titleHash := some "new", contentHash := none }
    { id := 1, url := "https://example.com/c",
      normalizedUrl := "https://example.com/c", title := "T",
      firstSeenAt := "2024-01-10T00:00:00.000Z",
      lastSeenAt := "2024-01-10T00:00:00.000Z",
      publishedAt := some "2024-01-09T00:00:00.000Z",
      dateConfidence := some .high, source := "s",
      titleHash := some "old", contentHash := none }
    rfl).1

/- ============================================================
   Theorems: C8 (abort-heavy source detection)
   ============================================================ -/

/-- Membership after a `Set.add`. -/
theorem mem_jsSetAdd (l : List String) (s x : String) :
    s ∈ jsSetAdd l x ↔ s ∈ l ∨ s = x := by
  unfold jsSetAdd
  split
  · constructor
    · exact Or.inl
    · rintro (h | rfl)
      · exact h
      · assumption
  · simp

/-- A `Set.add` keeps the spread duplicate-free. -/
theorem nodup_jsSetAdd (l : List String) (x : String) (h : l.Nodup) :
    (jsSetAdd l x).Nodup := by
  unfold jsSetAdd
  split
  · exact h
  · rw [List.nodup_append]
    refine ⟨h, List.nodup_singleton x, ?_⟩
    intro a ha hq
    simp only [List.mem_singleton] at hq
    subst hq
    exact absurd ha (by assumption)

/-- Membership after one loop step of `findAbortHeavySourceIds`. -/
theorem mem_abortHeavyStep (acc : List String) (e : CollectionError)
    (s : String) :
    s ∈ abortHeavyStep acc e ↔
      s ∈ acc ∨ (¬ e.retryCount < 1 ∧ abortMessageHit e = true ∧ e.sourceId = s) := by
  unfold abortHeavyStep
  split
  · simp_all
  · split
    · rw [mem_jsSetAdd]
      constructor
      · rintro (h | rfl)
        · exact Or.inl h
        · exact Or.inr ⟨by assumption, by assumption, rfl⟩
      · rintro (h | ⟨_, _, rfl⟩)
        · exact Or.inl h
        · exact Or.inr rfl
    · simp_all

/-- One loop step keeps the accumulator duplicate-free. -/
theorem nodup_abortHeavyStep (acc : List String) (e : CollectionError)
    (h : acc.Nodup) : (abortHeavyStep acc e).Nodup := by
  unfold abortHeavyStep
  split
  · exact h
  · split
    · exact nodup_jsSetAdd acc e.sourceId h
    · exact h

/-- Membership in the folded loop of `findAbortHeavySourceIds`. -/
theorem mem_foldl_abortHeavyStep (errors : List CollectionError)
    (acc : List String) (s : String) :
    s ∈ errors.foldl abortHeavyStep acc ↔
      s ∈ acc ∨ ∃ e ∈ errors,
        ¬ e.retryCount < 1 ∧ abortMessageHit e = true ∧ e.sourceId = s := by
  induction errors generalizing acc with
  | nil => simp
  | cons e rest ih =>
    rw [List.foldl_cons, ih, mem_abortHeavyStep]
    constructor
    · rintro ((h | h) | ⟨e2, he2, h2⟩)
      · exact Or.inl h
      · exact Or.inr ⟨e, List.mem_cons_self e rest, h⟩
      · exact Or.inr ⟨e2, List.mem_cons_of_mem e he2, h2⟩
    · rintro (h | ⟨e2, he2, h2⟩)
      · exact Or.inl (Or.inl h)
      · rcases List.mem_cons.mp he2 with rfl | hmem
        · exact Or.inl (Or.inr h2)
        · exact Or.inr ⟨e2, hmem, h2⟩

/-- The folded loop keeps the accumulator duplicate-free. -/
theorem nodup_foldl_abortHeavyStep (errors : List CollectionError)
    (acc : List String) (h : acc.Nodup) :
    (errors.foldl abortHeavyStep acc).Nodup := by
  induction errors generalizing acc with
  | nil => exact h
  | cons e rest ih =>
    rw [List.foldl_cons]
    exact ih _ (nodup_abortHeavyStep acc e h)

/-- C8: a source id is returned by `findAbortHeavySourceIds` iff some of its
errors has `retryCount ≥ 1` and a message whose lowercasing contains one of
the three abort phrases, and each qualifying id appears exactly once. -/
theorem C8_abort_heavy (errors : List CollectionError) (s : String) :
    (s ∈ findAbortHeavySourceIds errors ↔
      ∃ e ∈ errors, e.sourceId = s ∧ 1 ≤ e.retryCount ∧
        (strIncludes (jsToLower e.message) "aborted by user" = true ∨
         strIncludes (jsToLower e.message) "process aborted" = true ∨
         strIncludes (jsToLower e.message) "operation aborted" = true)) ∧
    (findAbortHeavySourceIds errors).Nodup := by
  constructor
  · unfold findAbortHeavySourceIds
    rw [mem_foldl_abortHeavyStep]
    simp only [List.not_mem_nil, false_or]
    constructor
    · rintro ⟨e, he, hrc, hhit, rfl⟩
      refine ⟨e, he, rfl, by omega, ?_⟩
      simpa [abortMessageHit, Bool.or_eq_true, or_assoc] using hhit
    · rintro ⟨e, he, rfl, hrc, hhit⟩
      refine ⟨e, he, by omega, ?_, rfl⟩
      simpa [abortMessageHit, Bool.or_eq_true, or_assoc] using hhit
  · exact nodup_foldl_abortHeavyStep errors [] List.nodup_nil

/- ============================================================
   Theorems: C7 (collection-result normalisation)
   ============================================================ -/

/-- Any articles array the candidate loop yields is a `normalizeArticles`
image. -/
theorem parseCollectionLoop_inl (sourceId nowIso : String)
    (outcomes : List CandidateOutcome) :
    ∀ (err : String) (arts : List RawArticle),
      parseCollectionLoop sourceId nowIso err outcomes = Sum.inl arts →
      ∃ items, arts = normalizeArticles items sourceId nowIso := by
  induction outcomes with
  | nil =>
    intro err arts h
    exact Sum.noConfusion h
  | cons o rest ih =>
    intro err arts h
    cases o with
    | parseFail msg => exact ih _ _ h
    | noArticlesArray => exact ih _ _ h
    | articlesArray items =>
      refine ⟨items, ?_⟩
      injection h with h2
      exact h2.symm

/-- Membership in `normalizeArticles`: exactly the coerced object entries
whose title and url are non-empty. -/
theorem mem_normalizeArticles (items : List (Option JsonArticleFields))
    (sourceId nowIso : String) (art : RawArticle) :
    art ∈ normalizeArticles items sourceId nowIso ↔
      ∃ f, some f ∈ items ∧ art = coerceArticle sourceId nowIso f ∧
        ¬ art.title = "" ∧ ¬ art.url = "" := by
  unfold normalizeArticles
  rw [List.mem_filter]
  simp only [List.mem_map, List.mem_filterMap, id_eq, Bool.and_eq_true,
    Bool.not_eq_eq_eq_not, Bool.not_true, beq_eq_false_iff_ne, ne_eq]
  constructor
  · rintro ⟨⟨f, ⟨of, hof, rfl⟩, rfl⟩, ht, hu⟩
    exact ⟨f, hof, rfl, ht, hu⟩
  · rintro ⟨f, hof, rfl, ht, hu⟩
    exact ⟨⟨f, ⟨some f, hof, rfl⟩, rfl⟩, ht, hu⟩

/-- C7: every article returned by `parseCollectionResult` has a non-empty
title and url, carries the given source id and the collection timestamp; and
an article is produced by `normalizeArticles` iff it is the coercion of an
object entry of the parsed array whose title and url are non-empty — entries
lacking either are dropped. -/
theorem C7_parse_collection (result : String) (outcomes : List CandidateOutcome)
    (sourceId nowIso : String) :
    (∀ art ∈ (parseCollectionResult result outcomes sourceId nowIso).articles,
      art.title ≠ "" ∧ art.url ≠ "" ∧ art.source = sourceId ∧
        art.collectedAt = some nowIso) ∧
    (∀ (items : List (Option JsonArticleFields)) (art : RawArticle),
      art ∈ normalizeArticles items sourceId nowIso ↔
        ∃ f, some f ∈ items ∧ art = coerceArticle sourceId nowIso f ∧
          ¬ art.title = "" ∧ ¬ art.url = "") := by
  refine ⟨?_, fun items art => mem_normalizeArticles items sourceId nowIso art⟩
  intro art hart
  unfold parseCollectionResult at hart
  cases hloop : parseCollectionLoop sourceId nowIso
      "Response does not contain parseable JSON" outcomes with
  | inr err =>
    rw [hloop] at hart
    simp at hart
  | inl arts =>
    rw [hloop] at hart
    simp only at hart
    obtain ⟨items, rfl⟩ := parseCollectionLoop_inl sourceId nowIso outcomes _ _ hloop
    obtain ⟨f, _, harteq, ht, hu⟩ :=
      (mem_normalizeArticles items sourceId nowIso art).mp hart
    refine ⟨ht, hu, ?_, ?_⟩
    · rw [harteq]
      rfl
    · rw [harteq]
      rfl

/- ============================================================
   Theorems: C4 (freshness keep rule) and C9 (date fallback path)
   ============================================================ -/

/-- When the resolved date is absent, the assembled article is classified by
the all-unknown branch of `checkFreshness`. -/
theorem toFilteredArticle_noDate (jsDate : JsDateParse) (now ws : EpochMs)
    (dm : String → Option DateMethodConfig) (s : StagedArticle)
    (h : (resolveArticleDate jsDate now (dm s.source) s.toRawArticle).date = none) :
    (toFilteredArticle jsDate now ws dm s).isNew = true ∧
    (toFilteredArticle jsDate now ws dm s).freshnessPriority = .low := by
  unfold toFilteredArticle
  simp only [h, ite_self]
  exact ⟨rfl, rfl⟩

/-- C4: an article surviving the similarity stages is emitted by the
freshness stage iff its `isNew` flag is true or its `dateConfidence` is
`unknown`; when no date layer yields a parseable date, `checkFreshness`
returns `isFresh = true`, priority `low` and no date source, so the article
is kept. -/
theorem C4_freshness_stage (jsDate : JsDateParse) (now ws : EpochMs)
    (dm : String → Option DateMethodConfig) (articles : List StagedArticle)
    (a : FilteredArticle) :
    (a ∈ filterByFreshness jsDate now articles ws dm ↔
      (∃ s ∈ articles, toFilteredArticle jsDate now ws dm s = a) ∧
        (a.isNew = true ∨ a.dateConfidence = .unknown)) ∧
    checkFreshness none none none none ws =
      { isFresh := true, priority := .low, dateSource := none } ∧
    (∀ s ∈ articles,
      (resolveArticleDate jsDate now (dm s.source) s.toRawArticle).date = none →
        (toFilteredArticle jsDate now ws dm s).isNew = true ∧
        (toFilteredArticle jsDate now ws dm s).freshnessPriority = .low ∧
        toFilteredArticle jsDate now ws dm s ∈
          filterByFreshness jsDate now articles ws dm) := by
  have hmem : ∀ (b : FilteredArticle),
      b ∈ filterByFreshness jsDate now articles ws dm ↔
        (∃ s ∈ articles, toFilteredArticle jsDate now ws dm s = b) ∧
          (b.isNew = true ∨ b.dateConfidence = .unknown) := by
    intro b
    unfold filterByFreshness
    rw [List.mem_filter]
    simp only [List.mem_map, Bool.or_eq_true, decide_eq_true_eq]
  refine ⟨hmem a, rfl, fun s hs hdate => ?_⟩
  obtain ⟨hnew, hprio⟩ := toFilteredArticle_noDate jsDate now ws dm s hdate
  refine ⟨hnew, hprio, ?_⟩
  exact (hmem _).mpr ⟨⟨s, hs, rfl⟩, Or.inl hnew⟩

/-- C9: for an article with no `publishedAt` whose source has no entry in the
date-method map, the date is resolved by the multi-layer parse with the
published-at and relative-time inputs absent (so only the URL can produce a
date); `dateMetaContent` is never consulted on that path; and when the URL
matches no recognised date pattern the article gets
`dateConfidence = unknown`. -/
theorem C9_no_method_fallback (jsDate : JsDateParse) (now : EpochMs)
    (dm : String → Option DateMethodConfig) (a : RawArticle)
    (hpub : truthy a.publishedAt = false) (hdm : dm a.source = none) :
    resolveArticleDate jsDate now (dm a.source) a =
      parseDateMultiLayer jsDate
        { publishedAt := none, url := some a.url, relativeTimeText := none,
          urlDatePattern := none, referenceDate := now } ∧
    (∀ x, resolveArticleDate jsDate now (dm a.source)
        { a with dateMetaContent := x } =
      resolveArticleDate jsDate now (dm a.source) a) ∧
    ((parseDateFromUrl a.url none).date = none →
      (resolveArticleDate jsDate now (dm a.source) a).confidence = .unknown) := by
  have hres : resolveArticleDate jsDate now (dm a.source) a =
      parseDateMultiLayer jsDate
        { publishedAt := none, url := some a.url, relativeTimeText := none,
          urlDatePattern := none, referenceDate := now } := by
    unfold resolveArticleDate
    rw [hdm, hpub]
    simp
  refine ⟨hres, fun x => ?_, fun hfail => ?_⟩
  · unfold resolveArticleDate
    rw [hdm, hpub]
  · rw [hres]
    unfold parseDateMultiLayer
    simp only [truthy, Bool.not_eq_true', if_false]
    by_cases hurl : a.url = ""
    · simp [hurl]
    · have : truthy (some a.url) = true := by
        simp [truthy, hurl]
      simp only [this, if_true, Option.getD_some, hfail, Option.isSome_none,
        Bool.false_eq_true, if_false, ite_self]

/-- Witness for `C9_no_method_fallback` on a concrete article with no
published date and a URL without a date pattern. -/
theorem C9_no_method_fallback_witness :
    resolveArticleDate (fun _ => none) 0
        ((fun _ => none) ("src" : String))
        { url := "https://example.com/about", title := "t", summary := none,
          source := "src", fetchedAt := none, collectedAt := none,
          publishedAt := none, rawContent := none,
          dateMetaContent := some "m" } =
      parseDateMultiLayer (fun _ => none)
        { publishedAt := none, url := some "https://example.com/about",
          relativeTimeText := none, urlDatePattern := none,
          referenceDate := 0 } ∧
    (∀ x, resolveArticleDate (fun _ => none) 0
        ((fun _ => none) ("src" : String))
        { url := "https://example.com/about", title := "t", summary := none,
          source := "src", fetchedAt := none, collectedAt := none,
          publishedAt := none, rawContent := none,
          dateMetaContent := x } =
      resolveArticleDate (fun _ => none) 0
        ((fun _ => none) ("src" : String))
        { url := "https://example.com/about", title := "t", summary := none,
          source := "src", fetchedAt := none, collectedAt := none,
          publishedAt := none, rawContent := none,
          dateMetaContent := some "m" }) ∧
    ((parseDateFromUrl "https://example.com/about" none).date = none →
      (resolveArticleDate (fun _ => none) 0
        ((fun _ => none) ("src" : String))
        { url := "https://example.com/about", title := "t", summary := none,
          source := "src", fetchedAt := none, collectedAt := none,
          publishedAt := none, rawContent := none,
          dateMetaContent := some "m" }).confidence = .unknown) :=
  C9_no_method_fallback (fun _ => none) 0 (fun _ => none)
    { url := "https://example.com/about", title := "t", summary := none,
      source := "src", fetchedAt := none, collectedAt := none,
      publishedAt := none, rawContent := none,
      dateMetaContent := some "m" }
    rfl rfl

/- ============================================================
   Theorems: C6 (Jaccard similarity)
   ============================================================ -/

/-- The branch structure of `calculateJaccardSimilarity`, written out. -/
theorem calcJaccard_eq (a b : String) :
    calculateJaccardSimilarity a b =
      if tokenize a = ∅ ∧ tokenize b = ∅ then 1
      else if tokenize a = ∅ ∨ tokenize b = ∅ then 0
      else ((tokenize a ∩ tokenize b).card : ℚ) /
        ((tokenize a ∪ tokenize b).card : ℚ) := rfl

/-- The token-overlap ratio never exceeds 1. -/
theorem jaccard_ratio_le_one (A B : Finset String) (hA : A.Nonempty) :
    ((A ∩ B).card : ℚ) / ((A ∪ B).card : ℚ) ≤ 1 := by
  have hpos : 0 < ((A ∪ B).card : ℚ) := by
    have h1 : 0 < (A ∪ B).card :=
      Finset.card_pos.mpr (hA.mono Finset.subset_union_left)
    exact_mod_cast h1
  rw [div_le_one hpos]
  exact_mod_cast Finset.card_le_card Finset.inter_subset_union

/-- The token-overlap ratio is 1 exactly for equal sets. -/
theorem jaccard_ratio_eq_one_iff (A B : Finset String) (hA : A.Nonempty) :
    ((A ∩ B).card : ℚ) / ((A ∪ B).card : ℚ) = 1 ↔ A = B := by
  have hposn : 0 < (A ∪ B).card :=
    Finset.card_pos.mpr (hA.mono Finset.subset_union_left)
  have hne : ((A ∪ B).card : ℚ) ≠ 0 := by
    exact_mod_cast Nat.pos_iff_ne_zero.mp hposn
  rw [div_eq_one_iff_eq hne]
  constructor
  · intro h
    have hcard : (A ∪ B).card ≤ (A ∩ B).card := by
      have h2 : ((A ∩ B).card : ℚ) = ((A ∪ B).card : ℚ) := h
      exact_mod_cast le_of_eq h2.symm
    have heq : A ∩ B = A ∪ B :=
      Finset.eq_of_subset_of_card_le Finset.inter_subset_union hcard
    apply Finset.Subset.antisymm
    · intro x hx
      have hxu : x ∈ A ∪ B := Finset.mem_union_left _ hx
      rw [← heq] at hxu
      exact (Finset.mem_inter.mp hxu).2
    · intro x hx
      have hxu : x ∈ A ∪ B := Finset.mem_union_right _ hx
      rw [← heq] at hxu
      exact (Finset.mem_inter.mp hxu).1
  · intro h
    subst h
    rw [Finset.inter_self, Finset.union_self]

/-- C6: Jaccard similarity is symmetric, lies in `[0, 1]`, equals 1 exactly
when the token sets are equal (in particular when both are empty), and equals
0 when exactly one token set is empty. -/
theorem C6_jaccard (a b : String) :
    calculateJaccardSimilarity a b = calculateJaccardSimilarity b a ∧
    0 ≤ calculateJaccardSimilarity a b ∧
    calculateJaccardSimilarity a b ≤ 1 ∧
    (calculateJaccardSimilarity a b = 1 ↔ tokenize a = tokenize b) ∧
    (tokenize a = ∅ ∧ tokenize b = ∅ → calculateJaccardSimilarity a b = 1) ∧
    ((tokenize a = ∅ ∧ tokenize b ≠ ∅) ∨ (tokenize a ≠ ∅ ∧ tokenize b = ∅) →
      calculateJaccardSimilarity a b = 0) := by
  rw [calcJaccard_eq a b, calcJaccard_eq b a]
  generalize tokenize a = A
  generalize tokenize b = B
  by_cases hA : A = ∅ <;> by_cases hB : B = ∅
  · rw [if_pos ⟨hA, hB⟩, if_pos ⟨hB, hA⟩]
    refine ⟨rfl, by norm_num, le_refl 1,
      ⟨fun _ => hA.trans hB.symm, fun _ => rfl⟩, fun _ => rfl, ?_⟩
    rintro (⟨_, h2⟩ | ⟨h1, _⟩)
    · exact absurd hB h2
    · exact absurd hA h1
  · rw [if_neg (fun h => hB h.2), if_pos (Or.inl hA),
      if_neg (fun h => hB h.1), if_pos (Or.inr hA)]
    refine ⟨rfl, le_refl 0, by norm_num,
      ⟨fun h1 => absurd h1 (by norm_num), fun heq => absurd (hA ▸ heq.symm) hB⟩,
      fun h => absurd h.2 hB, fun _ => rfl⟩
  · rw [if_neg (fun h => hA h.1), if_pos (Or.inr hB),
      if_neg (fun h => hA h.2), if_pos (Or.inl hB)]
    refine ⟨rfl, le_refl 0, by norm_num,
      ⟨fun h1 => absurd h1 (by norm_num), fun heq => absurd (hB ▸ heq) hA⟩,
      fun h => absurd h.1 hA, fun _ => rfl⟩
  · have hAne : A.Nonempty := Finset.nonempty_iff_ne_empty.mpr hA
    rw [if_neg (fun h => hA h.1), if_neg (fun h => h.elim hA hB),
      if_neg (fun h => hB h.1), if_neg (fun h => h.elim hB hA)]
    refine ⟨?_, ?_, ?_, ?_, ?_, ?_⟩
    · rw [Finset.inter_comm, Finset.union_comm]
    · positivity
    · exact jaccard_ratio_le_one _ _ hAne
    · exact jaccard_ratio_eq_one_iff _ _ hAne
    · intro h
      exact absurd h.1 hA
    · rintro (⟨h1, _⟩ | ⟨_, h2⟩)
      · exact absurd h1 hA
      · exact absurd h2 hB

/- ============================================================
   Theorems: C5 (URL normalisation) — counterexample
   ============================================================ -/

/-- C5 as stated is false: normalising `https://www.www.example.com/x` gives
`https://www.example.com/x`, and normalising that output again strips a
second `www.`, giving a different string. -/
theorem C5_counterexample :
    normalizeUrl "https://www.www.example.com/x" DEFAULT_NORMALIZATION_OPTIONS =
      some "https://www.example.com/x" ∧
    normalizeUrl "https://www.example.com/x" DEFAULT_NORMALIZATION_OPTIONS =
      some "https://example.com/x" ∧
    ("https://example.com/x" : String) ≠ "https://www.example.com/x" := by
  refine ⟨by decide, by decide, by decide⟩

/- ============================================================
   Theorems: C5 — character and percent-coding lemmas
   ============================================================ -/

/-- `Char.ofNat` round-trips on valid scalar values. -/
theorem toNat_ofNat_valid (n : Nat)
    (h : n < 0xD800 ∨ (0xDFFF < n ∧ n < 0x110000)) :
    (Char.ofNat n).toNat = n := by
  have hv : n.isValidChar := h
  simp [Char.ofNat, hv, Char.toNat, Char.ofNatAux, Nat.toUInt32]
  rfl

/-- Character equality is scalar-value equality. -/
theorem char_eq_iff_toNat (c d : Char) : c = d ↔ c.toNat = d.toNat := by
  constructor
  · exact fun h => congrArg Char.toNat h
  · intro h
    have h1 := Char.ofNat_toNat c
    have h2 := Char.ofNat_toNat d
    rw [← h1, ← h2, h]

/-- A character's scalar value is valid. -/
theorem char_toNat_valid (c : Char) :
    c.toNat < 0xD800 ∨ (0xDFFF < c.toNat ∧ c.toNat < 0x110000) := by
  rcases c.valid with h | h
  · exact Or.inl h
  · exact Or.inr h

/-- Lowercasing a character is idempotent. -/
theorem jsToLowerChar_idem (c : Char) :
    jsToLowerChar (jsToLowerChar c) = jsToLowerChar c := by
  unfold jsToLowerChar
  split
  · have h1 : (Char.ofNat (c.toNat + 0x20)).toNat = c.toNat + 0x20 :=
      toNat_ofNat_valid _ (Or.inl (by omega))
    rw [if_neg (by omega), if_neg (by omega)]
  · split
    · have h1 : (Char.ofNat (c.toNat + 0x20)).toNat = c.toNat + 0x20 :=
        toNat_ofNat_valid _ (Or.inr (by omega))
      rw [if_neg (by omega), if_neg (by omega)]
    · rfl

/-- Lowercasing a list of characters is idempotent. -/
theorem jsToLower_map_idem (l : List Char) :
    (l.map jsToLowerChar).map jsToLowerChar = l.map jsToLowerChar := by
  rw [List.map_map]
  exact List.map_congr_left (fun c _ => jsToLowerChar_idem c)

/-- Hexadecimal digits round-trip. -/
theorem hexVal_hexUpper : ∀ n, n < 16 → hexVal (hexUpper n) = some n := by
  decide

/-- UTF-8 bytes stay below 256. -/
theorem utf8Bytes_lt (n : Nat) (hn : n < 0x110000) :
    ∀ b ∈ utf8Bytes n, b < 256 := by
  intro b hb
  unfold utf8Bytes at hb
  split at hb
  · simp at hb
    omega
  · split at hb
    · simp at hb
      rcases hb with h | h <;> omega
    · split at hb
      · simp at hb
        rcases hb with h | h | h <;> omega
      · simp at hb
        rcases hb with h | h | h | h <;> omega

/-- Tokenising a non-percent character. -/
theorem percentTokens_cons_ne (c : Char) (rest : List Char) (h : ¬ c = '%') :
    percentTokens (c :: rest) =
      (percentTokens rest).map (fun ts => Sum.inr c :: ts) := by
  conv_lhs => rw [percentTokens.eq_def]
  simp only []
  rw [if_neg h]

/-- Tokenising a `%XX` escape yields its byte. -/
theorem percentTokens_percentByte (b : Nat) (hb : b < 256) (rest : List Char) :
    percentTokens (percentByte b ++ rest) =
      (percentTokens rest).map (fun ts => Sum.inl b :: ts) := by
  show percentTokens ('%' :: hexUpper (b / 16) :: hexUpper (b % 16) :: rest) = _
  simp only [percentTokens, if_true]
  rw [hexVal_hexUpper (b / 16) (by omega), hexVal_hexUpper (b % 16) (by omega)]
  show Option.map (fun ts => Sum.inl (b / 16 * 16 + b % 16) :: ts)
    (percentTokens rest) = _
  have h2 : b / 16 * 16 + b % 16 = b := by omega
  rw [h2]

/-- Tokenising a run of `%XX` escapes yields the byte run. -/
theorem percentTokens_bytes (bs : List Nat) (hb : ∀ b ∈ bs, b < 256)
    (rest : List Char) :
    percentTokens ((bs.map percentByte).flatten ++ rest) =
      (percentTokens rest).map (fun ts => bs.map Sum.inl ++ ts) := by
  induction bs with
  | nil =>
    simp only [List.map_nil, List.flatten_nil, List.nil_append]
    cases percentTokens rest <;> rfl
  | cons b bs ih =>
    simp only [List.map_cons, List.flatten_cons, List.append_assoc]
    rw [percentTokens_percentByte b (hb b (by simp)) _,
      ih (fun x hx => hb x (by simp [hx]))]
    cases percentTokens rest <;> rfl

/-- Tokenising one encoded character. -/
theorem percentTokens_encodeChar (c : Char) (rest : List Char) :
    percentTokens (encodeURIComponentChar c ++ rest) =
      (percentTokens rest).map (fun ts => uriTokens c ++ ts) := by
  unfold encodeURIComponentChar uriTokens
  by_cases h : isUriUnreserved c = true
  · rw [if_pos h, if_pos h]
    have hc : ¬ c = '%' := by
      intro he
      subst he
      exact absurd h (by decide)
    simp only [List.cons_append, List.nil_append]
    rw [percentTokens_cons_ne c rest hc]
  · rw [if_neg h, if_neg h]
    have hlt : c.toNat < 0x110000 := by
      rcases char_toNat_valid c with hv | hv <;> omega
    exact percentTokens_bytes _ (utf8Bytes_lt c.toNat hlt) rest

/-- Tokenising an encoded list. -/
theorem percentTokens_encodeList (l : List Char) (rest : List Char) :
    percentTokens (encodeURIComponentList l ++ rest) =
      (percentTokens rest).map (fun ts => (l.map uriTokens).flatten ++ ts) := by
  induction l with
  | nil =>
    simp only [encodeURIComponentList, List.map_nil, List.flatten_nil,
      List.nil_append]
    cases percentTokens rest <;> rfl
  | cons c l ih =>
    simp only [encodeURIComponentList, List.map_cons, List.flatten_cons,
      List.append_assoc] at *
    rw [percentTokens_encodeChar c _, ih]
    cases percentTokens rest <;> simp

/-- A byte below `0x80` is not a continuation byte (and similar). -/
theorem isContByte_eq_false (b : Nat) (h : ¬ (0x80 ≤ b ∧ b ≤ 0xBF)) :
    isContByte b = false := by
  simp only [isContByte, Bool.decide_and]
  rcases Nat.lt_or_ge b 0x80 with h1 | h1
  · simp [Nat.not_le.mpr h1]
  · have h2 : ¬ b ≤ 0xBF := fun hb => h ⟨h1, hb⟩
    simp [h2]

/-- A byte in `0x80..0xBF` is a continuation byte. -/
theorem isContByte_eq_true (b : Nat) (h1 : 0x80 ≤ b) (h2 : b ≤ 0xBF) :
    isContByte b = true := by
  simp [isContByte, h1, h2]

/-- Folding the decoder over the byte run of one valid scalar value emits
exactly that character. -/
theorem foldr_utf8Bytes (n : Nat)
    (hval : n < 0xD800 ∨ (0xDFFF < n ∧ n < 0x110000)) (out : List Char) :
    ((utf8Bytes n).map Sum.inl).foldr utf8Step (some ([], out)) =
      some ([], Char.ofNat n :: out) := by
  have hlt : n < 0x110000 := by rcases hval with h | h <;> omega
  unfold utf8Bytes
  split_ifs with h1 h2 h3
  · simp only [List.map_cons, List.map_nil, List.foldr_cons, List.foldr_nil]
    unfold utf8Step
    simp only [isContByte_eq_false n (by omega), Bool.false_eq_true, if_false,
      if_pos h1, List.isEmpty_nil, if_true]
  · simp only [List.map_cons, List.map_nil, List.foldr_cons, List.foldr_nil]
    unfold utf8Step
    simp only [isContByte_eq_true (0x80 + n % 64) (by omega) (by omega), if_true,
      isContByte_eq_false (0xC0 + n / 64) (by omega), Bool.false_eq_true,
      if_false]
    rw [if_neg (by omega), if_pos (⟨by omega, by omega⟩ :
      0xC2 ≤ 0xC0 + n / 64 ∧ 0xC0 + n / 64 ≤ 0xDF)]
    have harith : (0xC0 + n / 64 - 0xC0) * 64 + (0x80 + n % 64 - 0x80) = n := by
      omega
    rw [harith]
  · have hc3 : cont3Ok (0xE0 + n / 4096) (0x80 + n / 64 % 64) = true := by
      unfold cont3Ok
      split_ifs with he0 hed
      · simp only [decide_eq_true_eq]
        omega
      · have hn2 : n < 0xD800 := by
          have hn : 0xD000 ≤ n ∧ n < 0xE000 := by omega
          rcases hval with hv | hv <;> omega
        simp only [decide_eq_true_eq]
        omega
      · exact isContByte_eq_true _ (by omega) (by omega)
    simp only [List.map_cons, List.map_nil, List.foldr_cons, List.foldr_nil]
    unfold utf8Step
    simp only [isContByte_eq_true (0x80 + n % 64) (by omega) (by omega),
      isContByte_eq_true (0x80 + n / 64 % 64) (by omega) (by omega), if_true,
      isContByte_eq_false (0xE0 + n / 4096) (by omega), Bool.false_eq_true,
      if_false, hc3]
    rw [if_neg (by omega), if_neg (fun hx => by omega),
      if_pos (⟨by omega, by omega⟩ :
        0xE0 ≤ 0xE0 + n / 4096 ∧ 0xE0 + n / 4096 ≤ 0xEF)]
    have harith : (0xE0 + n / 4096 - 0xE0) * 4096 +
        (0x80 + n / 64 % 64 - 0x80) * 64 + (0x80 + n % 64 - 0x80) = n := by omega
    rw [harith]
  · have hc4 : cont4Ok (0xF0 + n / 262144) (0x80 + n / 4096 % 64) = true := by
      unfold cont4Ok
      split_ifs with hf0 hf4
      · simp only [decide_eq_true_eq]
        omega
      · simp only [decide_eq_true_eq]
        omega
      · exact isContByte_eq_true _ (by omega) (by omega)
    simp only [List.map_cons, List.map_nil, List.foldr_cons, List.foldr_nil]
    unfold utf8Step
    simp only [isContByte_eq_true (0x80 + n % 64) (by omega) (by omega),
      isContByte_eq_true (0x80 + n / 64 % 64) (by omega) (by omega),
      isContByte_eq_true (0x80 + n / 4096 % 64) (by omega) (by omega), if_true,
      isContByte_eq_false (0xF0 + n / 262144) (by omega), Bool.false_eq_true,
      if_false, hc4]
    rw [if_neg (by omega), if_neg (fun hx => by omega),
      if_neg (fun hx => by omega),
      if_pos (⟨by omega, by omega⟩ :
        0xF0 ≤ 0xF0 + n / 262144 ∧ 0xF0 + n / 262144 ≤ 0xF4)]
    have harith : (0xF0 + n / 262144 - 0xF0) * 262144 +
        (0x80 + n / 4096 % 64 - 0x80) * 4096 +
        (0x80 + n / 64 % 64 - 0x80) * 64 + (0x80 + n % 64 - 0x80) = n := by omega
    rw [harith]

/-- Folding the decoder over one character's token run. -/
theorem foldr_uriTokens (c : Char) (out : List Char) :
    (uriTokens c).foldr utf8Step (some ([], out)) = some ([], c :: out) := by
  unfold uriTokens
  by_cases h : isUriUnreserved c = true
  · rw [if_pos h]
    rfl
  · rw [if_neg h, foldr_utf8Bytes c.toNat (char_toNat_valid c) out,
      Char.ofNat_toNat]

/-- Folding the decoder over the token runs of a whole list. -/
theorem foldr_uriFlatten (l : List Char) (out : List Char) :
    ((l.map uriTokens).flatten).foldr utf8Step (some ([], out)) =
      some ([], l ++ out) := by
  induction l generalizing out with
  | nil => rfl
  | cons c l ih =>
    simp only [List.map_cons, List.flatten_cons, List.foldr_append]
    rw [ih out, foldr_uriTokens c (l ++ out)]
    rfl

/-- Round trip: decoding the tokens of an encoded list. -/
theorem decodeTokens_uriFlatten (l : List Char) :
    decodeTokens ((l.map uriTokens).flatten) = some l := by
  unfold decodeTokens
  rw [show ((l.map uriTokens).flatten).foldr utf8Step (some ([], [])) =
    some ([], l ++ []) from foldr_uriFlatten l [], List.append_nil]

/-- Round trip: decoding an encoded list. -/
theorem decodeURI_encode (l : List Char) :
    decodeURIComponentList (encodeURIComponentList l) = some l := by
  unfold decodeURIComponentList
  have h0 : percentTokens (encodeURIComponentList l ++ []) =
      (percentTokens []).map (fun ts => (l.map uriTokens).flatten ++ ts) :=
    percentTokens_encodeList l []
  rw [List.append_nil] at h0
  rw [h0]
  show decodeTokens ((l.map uriTokens).flatten ++ []) = some l
  rw [List.append_nil]
  exact decodeTokens_uriFlatten l

/-- Round trip on a `/`-joined list of encoded segments. -/
theorem decode_join_enc (segs : List (List Char)) (hne : segs ≠ []) :
    decodeURIComponentList (joinChar '/' (segs.map encodeURIComponentList)) =
      some (joinChar '/' segs) := by
  obtain ⟨s, rest, rfl⟩ : ∃ s rest, segs = s :: rest := by
    cases segs with
    | nil => exact absurd rfl hne
    | cons s rest => exact ⟨s, rest, rfl⟩
  clear hne
  induction rest generalizing s with
  | nil =>
    show decodeURIComponentList (encodeURIComponentList s) = some s
    exact decodeURI_encode s
  | cons s2 rest2 ih =>
    have hjoin : joinChar '/' ((s :: s2 :: rest2).map encodeURIComponentList) =
        encodeURIComponentList s ++
          '/' :: joinChar '/' ((s2 :: rest2).map encodeURIComponentList) := rfl
    have hjoin2 : joinChar '/' (s :: s2 :: rest2) =
        s ++ '/' :: joinChar '/' (s2 :: rest2) := rfl
    rw [hjoin, hjoin2]
    unfold decodeURIComponentList
    rw [percentTokens_encodeList s _, percentTokens_cons_ne '/' _ (by decide)]
    have ih2 := ih s2
    unfold decodeURIComponentList at ih2
    cases hpt : percentTokens
        (joinChar '/' ((s2 :: rest2).map encodeURIComponentList)) with
    | none =>
      rw [hpt] at ih2
      exact absurd ih2 (by simp)
    | some ts =>
      rw [hpt] at ih2
      show decodeTokens ((s.map uriTokens).flatten ++ Sum.inr '/' :: ts) =
        some (s ++ '/' :: joinChar '/' (s2 :: rest2))
      have ih3 : decodeTokens ts = some (joinChar '/' (s2 :: rest2)) := ih2
      unfold decodeTokens at ih3 ⊢
      cases hfold : ts.foldr utf8Step (some ([], [])) with
      | none =>
        rw [hfold] at ih3
        exact absurd ih3 (by simp)
      | some pr =>
        rw [hfold] at ih3
        obtain ⟨pending, outv⟩ := pr
        cases pending with
        | cons p ps =>
          exact absurd ih3 (by simp)
        | nil =>
          have hout : outv = joinChar '/' (s2 :: rest2) := by
            simpa using ih3
          subst hout
          rw [List.foldr_append]
          simp only [List.foldr_cons]
          rw [hfold]
          rw [show utf8Step (Sum.inr '/')
              (some ([], joinChar '/' (s2 :: rest2))) =
            some ([], '/' :: joinChar '/' (s2 :: rest2)) from rfl]
          rw [foldr_uriFlatten s ('/' :: joinChar '/' (s2 :: rest2))]

/-- A nonempty list never compares below the empty list. -/
theorem charListLe_cons_nil (x : Char) (xs : List Char) :
    charListLe (x :: xs) [] = false := rfl

/-- Code-unit comparison unfolded on two nonempty lists. -/
theorem charListLe_cons_cons (x y : Char) (xs ys : List Char) :
    charListLe (x :: xs) (y :: ys) =
      (if x.toNat < y.toNat then true
       else if y.toNat < x.toNat then false
       else charListLe xs ys) := rfl

/-- Code-unit comparison is total. -/
theorem charListLe_total (a b : List Char) :
    charListLe a b = true ∨ charListLe b a = true := by
  induction a generalizing b with
  | nil => exact Or.inl rfl
  | cons x xs ih =>
    cases b with
    | nil => exact Or.inr rfl
    | cons y ys =>
      rw [charListLe_cons_cons, charListLe_cons_cons]
      rcases Nat.lt_trichotomy x.toNat y.toNat with h | h | h
      · exact Or.inl (by rw [if_pos h])
      · rw [if_neg (by omega), if_neg (by omega), if_neg (by omega),
          if_neg (by omega)]
        exact ih ys
      · exact Or.inr (by rw [if_pos h])

/-- Code-unit comparison is transitive. -/
theorem charListLe_trans (a : List Char) : ∀ b c, charListLe a b = true →
    charListLe b c = true → charListLe a c = true := by
  induction a with
  | nil => intro b c _ _; rfl
  | cons x xs ih =>
    intro b c h1 h2
    cases b with
    | nil => rw [charListLe_cons_nil] at h1; cases h1
    | cons y ys =>
      cases c with
      | nil => rw [charListLe_cons_nil] at h2; cases h2
      | cons z zs =>
        rw [charListLe_cons_cons] at h1 h2 ⊢
        by_cases hxy : x.toNat < y.toNat
        · by_cases hyz : y.toNat < z.toNat
          · rw [if_pos (by omega)]
          · by_cases hzy : z.toNat < y.toNat
            · rw [if_neg hyz, if_pos hzy] at h2; cases h2
            · rw [if_pos (by omega)]
        · by_cases hyx : y.toNat < x.toNat
          · rw [if_neg hxy, if_pos hyx] at h1; cases h1
          · rw [if_neg hxy, if_neg hyx] at h1
            by_cases hyz : y.toNat < z.toNat
            · rw [if_pos (by omega)]
            · by_cases hzy : z.toNat < y.toNat
              · rw [if_neg hyz, if_pos hzy] at h2; cases h2
              · rw [if_neg hyz, if_neg hzy] at h2
                rw [if_neg (by omega), if_neg (by omega)]
                exact ih ys zs h1 h2

/-- The entry comparison is total. -/
theorem pairLe_total (p q : FormPair) :
    pairLe p q = true ∨ pairLe q p = true :=
  charListLe_total _ _

/-- The entry comparison is transitive. -/
theorem pairLe_trans (p q s : FormPair) (h1 : pairLe p q = true)
    (h2 : pairLe q s = true) : pairLe p s = true :=
  charListLe_trans _ _ _ h1 h2

/-- `insertPair` is Mathlib's `orderedInsert` for the entry comparison. -/
theorem insertPair_eq (x : FormPair) (l : List FormPair) :
    insertPair x l = List.orderedInsert (fun p q => pairLe p q = true) x l := by
  induction l with
  | nil => rfl
  | cons y rest ih =>
    by_cases h : pairLe x y = true <;>
      simp [insertPair, List.orderedInsert, h, ih]

/-- `sortPairs` is Mathlib's `insertionSort` for the entry comparison. -/
theorem sortPairs_eq (l : List FormPair) :
    sortPairs l = List.insertionSort (fun p q => pairLe p q = true) l := by
  induction l with
  | nil => rfl
  | cons x rest ih => simp [sortPairs, List.insertionSort, ih, insertPair_eq]

/-- Membership is preserved by the entry sort. -/
theorem mem_sortPairs {a : FormPair} {l : List FormPair} :
    a ∈ sortPairs l ↔ a ∈ l := by
  rw [sortPairs_eq]
  exact List.mem_insertionSort _

/-- Sorting the entries twice equals sorting once. -/
theorem sortPairs_idem (l : List FormPair) :
    sortPairs (sortPairs l) = sortPairs l := by
  rw [sortPairs_eq l, sortPairs_eq]
  refine List.Sorted.insertionSort_eq ?_
  haveI : IsTotal FormPair (fun p q => pairLe p q = true) := ⟨pairLe_total⟩
  haveI : IsTrans FormPair (fun p q => pairLe p q = true) :=
    ⟨fun a b c h1 h2 => pairLe_trans a b c h1 h2⟩
  exact List.sorted_insertionSort _ l

/-- The parameter-deletion loop is a single filter. -/
theorem deleteParams_eq_filter (ps : List FormPair) (names : List String) :
    deleteParams ps names =
      ps.filter (fun kv => !(names.any (fun n => kv.1 == n.data))) := by
  induction names generalizing ps with
  | nil =>
    show ps = _
    rw [List.filter_eq_self.mpr]
    intro kv _
    rfl
  | cons n ns ih =>
    rw [show deleteParams ps (n :: ns) =
      deleteParams (ps.filter fun kv => !(kv.1 == n.data)) ns from rfl, ih,
      List.filter_filter]
    congr 1
    funext kv
    cases h1 : kv.1 == n.data <;> cases h2 : ns.any (fun n => kv.1 == n.data) <;>
      simp [h1, h2]

/-- Deleting parameters from the empty entry list. -/
theorem deleteParams_nil (names : List String) : deleteParams [] names = [] := by
  rw [deleteParams_eq_filter]
  rfl

/-- Deleting parameters twice equals deleting once. -/
theorem deleteParams_idem (ps : List FormPair) (names : List String) :
    deleteParams (deleteParams ps names) names = deleteParams ps names := by
  rw [deleteParams_eq_filter ps, deleteParams_eq_filter, List.filter_filter]
  congr 1
  funext kv
  cases h : names.any (fun n => kv.1 == n.data) <;> simp [h]

/-- Deleting parameters is the identity on a sort of its own output. -/
theorem deleteParams_sortPairs (ps : List FormPair) (names : List String) :
    deleteParams (sortPairs (deleteParams ps names)) names =
      sortPairs (deleteParams ps names) := by
  rw [deleteParams_eq_filter (sortPairs _)]
  refine List.filter_eq_self.mpr ?_
  intro kv hkv
  have hmem : kv ∈ deleteParams ps names := mem_sortPairs.mp hkv
  rw [deleteParams_eq_filter] at hmem
  exact (List.mem_filter.mp hmem).2

/-- Folding the total decoder over the byte run of one valid scalar value
emits exactly that character. -/
theorem foldr_utf8BytesTotal (n : Nat)
    (hval : n < 0xD800 ∨ (0xDFFF < n ∧ n < 0x110000)) (out : List Char) :
    ((utf8Bytes n).map Sum.inl).foldr utf8StepTotal ([], out) =
      ([], Char.ofNat n :: out) := by
  unfold utf8Bytes
  split_ifs with h1 h2 h3
  · simp only [List.map_cons, List.map_nil, List.foldr_cons, List.foldr_nil]
    unfold utf8StepTotal
    simp only [isContByte_eq_false n (by omega), Bool.false_eq_true, if_false,
      if_pos h1, List.isEmpty_nil, if_true]
  · simp only [List.map_cons, List.map_nil, List.foldr_cons, List.foldr_nil]
    unfold utf8StepTotal
    simp only [isContByte_eq_true (0x80 + n % 64) (by omega) (by omega), if_true,
      isContByte_eq_false (0xC0 + n / 64) (by omega), Bool.false_eq_true,
      if_false]
    rw [if_neg (by omega), if_pos (⟨by omega, by omega⟩ :
      0xC2 ≤ 0xC0 + n / 64 ∧ 0xC0 + n / 64 ≤ 0xDF)]
    have harith : (0xC0 + n / 64 - 0xC0) * 64 + (0x80 + n % 64 - 0x80) = n := by
      omega
    rw [harith]
  · have hc3 : cont3Ok (0xE0 + n / 4096) (0x80 + n / 64 % 64) = true := by
      unfold cont3Ok
      split_ifs with he0 hed
      · simp only [decide_eq_true_eq]
        omega
      · have hn2 : n < 0xD800 := by
          have hn : 0xD000 ≤ n ∧ n < 0xE000 := by omega
          rcases hval with hv | hv <;> omega
        simp only [decide_eq_true_eq]
        omega
      · exact isContByte_eq_true _ (by omega) (by omega)
    simp only [List.map_cons, List.map_nil, List.foldr_cons, List.foldr_nil]
    unfold utf8StepTotal
    simp only [isContByte_eq_true (0x80 + n % 64) (by omega) (by omega),
      isContByte_eq_true (0x80 + n / 64 % 64) (by omega) (by omega), if_true,
      isContByte_eq_false (0xE0 + n / 4096) (by omega), Bool.false_eq_true,
      if_false, hc3]
    rw [if_neg (by omega), if_neg (fun hx => by omega),
      if_pos (⟨by omega, by omega⟩ :
        0xE0 ≤ 0xE0 + n / 4096 ∧ 0xE0 + n / 4096 ≤ 0xEF)]
    have harith : (0xE0 + n / 4096 - 0xE0) * 4096 +
        (0x80 + n / 64 % 64 - 0x80) * 64 + (0x80 + n % 64 - 0x80) = n := by omega
    rw [harith]
  · have hc4 : cont4Ok (0xF0 + n / 262144) (0x80 + n / 4096 % 64) = true := by
      unfold cont4Ok
      split_ifs with hf0 hf4
      · simp only [decide_eq_true_eq]
        omega
      · simp only [decide_eq_true_eq]
        omega
      · exact isContByte_eq_true _ (by omega) (by omega)
    simp only [List.map_cons, List.map_nil, List.foldr_cons, List.foldr_nil]
    unfold utf8StepTotal
    simp only [isContByte_eq_true (0x80 + n % 64) (by omega) (by omega),
      isContByte_eq_true (0x80 + n / 64 % 64) (by omega) (by omega),
      isContByte_eq_true (0x80 + n / 4096 % 64) (by omega) (by omega), if_true,
      isContByte_eq_false (0xF0 + n / 262144) (by omega), Bool.false_eq_true,
      if_false, hc4]
    rw [if_neg (by omega), if_neg (fun hx => by omega),
      if_neg (fun hx => by omega),
      if_pos (⟨by omega, by omega⟩ :
        0xF0 ≤ 0xF0 + n / 262144 ∧ 0xF0 + n / 262144 ≤ 0xF4)]
    have harith : (0xF0 + n / 262144 - 0xF0) * 262144 +
        (0x80 + n / 4096 % 64 - 0x80) * 4096 +
        (0x80 + n / 64 % 64 - 0x80) * 64 + (0x80 + n % 64 - 0x80) = n := by omega
    rw [harith]

/-- Urlencoded tokenisation of a valid `%XX` escape. -/
theorem formTokens_pct (h1 h2 : Char) (rest2 : List Char)
    (hh1 : (hexVal h1).isSome = true) (hh2 : (hexVal h2).isSome = true) :
    formTokens ('%' :: h1 :: h2 :: rest2) =
      Sum.inl ((hexVal h1).getD 0 * 16 + (hexVal h2).getD 0) ::
        formTokens rest2 := by
  have hpair : isHexPairStart (h1 :: h2 :: rest2) = true := by
    simp [isHexPairStart, hh1, hh2]
  conv_lhs => rw [formTokens.eq_def]
  simp only []
  rw [if_pos ⟨trivial, hpair⟩]

/-- Urlencoded tokenisation of a run of `%XX` escapes. -/
theorem formTokens_bytes (bs : List Nat) (hb : ∀ b ∈ bs, b < 256)
    (rest : List Char) :
    formTokens ((bs.map percentByte).flatten ++ rest) =
      bs.map Sum.inl ++ formTokens rest := by
  induction bs with
  | nil => rfl
  | cons b bs ih =>
    have hblt : b < 256 := hb b (by simp)
    simp only [List.map_cons, List.flatten_cons, List.append_assoc]
    show formTokens ('%' :: hexUpper (b / 16) :: hexUpper (b % 16) ::
      ((bs.map percentByte).flatten ++ rest)) = _
    rw [formTokens_pct _ _ _
      (by rw [hexVal_hexUpper (b / 16) (by omega)]; rfl)
      (by rw [hexVal_hexUpper (b % 16) (by omega)]; rfl),
      hexVal_hexUpper (b / 16) (by omega), hexVal_hexUpper (b % 16) (by omega),
      ih (fun x hx => hb x (by simp [hx]))]
    have hbb : b / 16 * 16 + b % 16 = b := by omega
    show Sum.inl (b / 16 * 16 + b % 16) :: _ = _
    rw [hbb]
    rfl

/-- Urlencoded tokenisation of one serialised character. -/
theorem formTokens_encChar (c : Char) (rest : List Char) :
    formTokens (formEncodeChar c ++ rest) =
      (if isFormSafe c then [Sum.inr c]
       else if c = ' ' then [Sum.inr ' ']
       else (utf8Bytes c.toNat).map Sum.inl) ++ formTokens rest := by
  unfold formEncodeChar
  split_ifs with hsafe hspace
  · have hc : ¬ c = '%' := by
      intro he
      subst he
      exact absurd hsafe (by decide)
    have hp : ¬ c = '+' := by
      intro he
      subst he
      exact absurd hsafe (by decide)
    show formTokens (c :: rest) = _
    conv_lhs => rw [formTokens.eq_def]
    simp only []
    rw [if_neg (fun hx => hc hx.1), if_neg hc, if_neg hp]
    rfl
  · show formTokens ('+' :: rest) = _
    conv_lhs => rw [formTokens.eq_def]
    simp only []
    rw [if_neg (fun hx => (by cases hx.1 : False)), if_neg (by decide),
      if_pos trivial]
    rfl
  · have hlt : c.toNat < 0x110000 := by
      rcases char_toNat_valid c with hv | hv <;> omega
    exact formTokens_bytes _ (utf8Bytes_lt c.toNat hlt) rest

/-- Folding the total decoder over an urlencoded-serialised list recovers
the list. -/
theorem foldr_formTokens_enc (l : List Char) (out : List Char) :
    (formTokens (formEncodeList l)).foldr utf8StepTotal ([], out) =
      ([], l ++ out) := by
  induction l generalizing out with
  | nil => rfl
  | cons c t ih =>
    have henc : formEncodeList (c :: t) = formEncodeChar c ++ formEncodeList t :=
      rfl
    rw [henc, formTokens_encChar c (formEncodeList t), List.foldr_append, ih out]
    split_ifs with hsafe hspace
    · rfl
    · rw [hspace]
      rfl
    · rw [show ((utf8Bytes c.toNat).map Sum.inl).foldr utf8StepTotal
        ([], t ++ out) = ([], Char.ofNat c.toNat :: (t ++ out)) from
        foldr_utf8BytesTotal c.toNat (char_toNat_valid c) (t ++ out),
        Char.ofNat_toNat]
      rfl

/-- Urlencoded round trip on one component. -/
theorem formDecode_formEncode (l : List Char) :
    formDecodeList (formEncodeList l) = l := by
  unfold formDecodeList
  rw [show (formTokens (formEncodeList l)).foldr utf8StepTotal ([], []) =
    ([], l ++ []) from foldr_formTokens_enc l []]
  simp

/-- Scalar-value ranges of an ASCII alphanumeric character. -/
theorem alnum_toNat (c : Char) (h : isAsciiAlnum c = true) :
    (0x30 ≤ c.toNat ∧ c.toNat ≤ 0x39) ∨ (0x41 ≤ c.toNat ∧ c.toNat ≤ 0x5A) ∨
    (0x61 ≤ c.toNat ∧ c.toNat ≤ 0x7A) := by
  simp only [isAsciiAlnum, decide_eq_true_eq, Char.le_def] at h
  rcases h with ⟨h1, h2⟩ | ⟨h1, h2⟩ | ⟨h1, h2⟩
  · exact Or.inr (Or.inr ⟨h1, h2⟩)
  · exact Or.inr (Or.inl ⟨h1, h2⟩)
  · exact Or.inl ⟨h1, h2⟩

/-- Scalar values of the urlencoded-safe characters. -/
theorem formSafe_toNat (c : Char) (h : isFormSafe c = true) :
    (0x30 ≤ c.toNat ∧ c.toNat ≤ 0x39) ∨ (0x41 ≤ c.toNat ∧ c.toNat ≤ 0x5A) ∨
    (0x61 ≤ c.toNat ∧ c.toNat ≤ 0x7A) ∨ c.toNat = 0x2A ∨ c.toNat = 0x2D ∨
    c.toNat = 0x2E ∨ c.toNat = 0x5F := by
  simp only [isFormSafe, Bool.or_eq_true, decide_eq_true_eq] at h
  rcases h with h | h | h | h | h
  · rcases alnum_toNat c h with h1 | h1 | h1
    · exact Or.inl h1
    · exact Or.inr (Or.inl h1)
    · exact Or.inr (Or.inr (Or.inl h1))
  · subst h; exact Or.inr (Or.inr (Or.inr (Or.inl (by decide))))
  · subst h; exact Or.inr (Or.inr (Or.inr (Or.inr (Or.inl (by decide)))))
  · subst h
    exact Or.inr (Or.inr (Or.inr (Or.inr (Or.inr (Or.inl (by decide))))))
  · subst h
    exact Or.inr (Or.inr (Or.inr (Or.inr (Or.inr (Or.inr (by decide))))))

/-- Scalar values of the `encodeURIComponent`-unreserved characters. -/
theorem uriUnreserved_toNat (c : Char) (h : isUriUnreserved c = true) :
    (0x30 ≤ c.toNat ∧ c.toNat ≤ 0x39) ∨ (0x41 ≤ c.toNat ∧ c.toNat ≤ 0x5A) ∨
    (0x61 ≤ c.toNat ∧ c.toNat ≤ 0x7A) ∨ c.toNat = 0x2D ∨ c.toNat = 0x5F ∨
    c.toNat = 0x2E ∨ c.toNat = 0x21 ∨ c.toNat = 0x7E ∨ c.toNat = 0x2A ∨
    c.toNat = 0x28 ∨ c.toNat = 0x29 ∨ c.toNat = 0x27 := by
  simp only [isUriUnreserved, Bool.or_eq_true, decide_eq_true_eq] at h
  rcases h with h | h | h | h | h | h | h | h | h | h
  · rcases alnum_toNat c h with h1 | h1 | h1
    · exact Or.inl h1
    · exact Or.inr (Or.inl h1)
    · exact Or.inr (Or.inr (Or.inl h1))
  all_goals first
    | (subst h; decide)
    | omega

/-- Membership test for the query percent-encode set via scalar values. -/
theorem inQueryEncodeSet_eq_false (c : Char) (h1 : 0x20 < c.toNat)
    (h2 : c.toNat ≤ 0x7E) (h3 : c.toNat ≠ 0x22) (h4 : c.toNat ≠ 0x23)
    (h5 : c.toNat ≠ 0x3C) (h6 : c.toNat ≠ 0x3E) (h7 : c.toNat ≠ 0x27) :
    inQueryEncodeSet c = false := by
  simp only [inQueryEncodeSet]
  rw [decide_eq_false_iff_not]
  rintro (h | h | h | h | h | h | h | h)
  · omega
  · omega
  · rw [char_eq_iff_toNat, show (' ' : Char).toNat = 0x20 by decide] at h; omega
  · rw [char_eq_iff_toNat, show ('"' : Char).toNat = 0x22 by decide] at h; omega
  · rw [char_eq_iff_toNat, show ('#' : Char).toNat = 0x23 by decide] at h; omega
  · rw [char_eq_iff_toNat, show ('<' : Char).toNat = 0x3C by decide] at h; omega
  · rw [char_eq_iff_toNat, show ('>' : Char).toNat = 0x3E by decide] at h; omega
  · omega

/-- Membership test for the path percent-encode set via scalar values. -/
theorem inPathEncodeSet_eq_false (c : Char) (h1 : 0x20 < c.toNat)
    (h2 : c.toNat ≤ 0x7E) (h3 : c.toNat ≠ 0x22) (h4 : c.toNat ≠ 0x23)
    (h5 : c.toNat ≠ 0x3C) (h6 : c.toNat ≠ 0x3E) (h7 : c.toNat ≠ 0x3F)
    (h8 : c.toNat ≠ 0x60) (h9 : c.toNat ≠ 0x7B) (h10 : c.toNat ≠ 0x7D) :
    inPathEncodeSet c = false := by
  simp only [inPathEncodeSet]
  rw [decide_eq_false_iff_not]
  rintro (h | h | h | h | h | h | h | h | h | h | h)
  · omega
  · omega
  · rw [char_eq_iff_toNat, show (' ' : Char).toNat = 0x20 by decide] at h; omega
  · rw [char_eq_iff_toNat, show ('"' : Char).toNat = 0x22 by decide] at h; omega
  · rw [char_eq_iff_toNat, show ('#' : Char).toNat = 0x23 by decide] at h; omega
  · rw [char_eq_iff_toNat, show ('<' : Char).toNat = 0x3C by decide] at h; omega
  · rw [char_eq_iff_toNat, show ('>' : Char).toNat = 0x3E by decide] at h; omega
  · rw [char_eq_iff_toNat, show ('?' : Char).toNat = 0x3F by decide] at h; omega
  · rw [char_eq_iff_toNat, show ('`' : Char).toNat = 0x60 by decide] at h; omega
  · rw [char_eq_iff_toNat, show ('{' : Char).toNat = 0x7B by decide] at h; omega
  · rw [char_eq_iff_toNat, show ('}' : Char).toNat = 0x7D by decide] at h; omega

/-- Splitting at a separator never yields the empty group list. -/
theorem splitChar_ne_nil (sep : Char) (l : List Char) : splitChar sep l ≠ [] := by
  induction l with
  | nil => simp [splitChar]
  | cons c rest ih =>
    by_cases h : c = sep
    · simp [splitChar, h]
    · cases hr : splitChar sep rest <;> simp [splitChar, h, hr]

/-- Splitting on a leading separator. -/
theorem splitChar_cons_sep (sep : Char) (rest : List Char) :
    splitChar sep (sep :: rest) = [] :: splitChar sep rest := by
  simp [splitChar]

/-- Splitting with a non-separator head. -/
theorem splitChar_cons_ne (sep c : Char) (rest : List Char) (h : ¬ c = sep)
    (g : List Char) (gs : List (List Char)) (hr : splitChar sep rest = g :: gs) :
    splitChar sep (c :: rest) = (c :: g) :: gs := by
  simp [splitChar, h, hr]

/-- Joining the groups of a split recovers the list. -/
theorem joinChar_splitChar (sep : Char) (l : List Char) :
    joinChar sep (splitChar sep l) = l := by
  induction l with
  | nil => rfl
  | cons c rest ih =>
    obtain ⟨g, gs, hr⟩ : ∃ g gs, splitChar sep rest = g :: gs := by
      cases hh : splitChar sep rest with
      | nil => exact absurd hh (splitChar_ne_nil sep rest)
      | cons g gs => exact ⟨g, gs, rfl⟩
    rw [hr] at ih
    by_cases h : c = sep
    · subst h
      rw [splitChar_cons_sep, hr]
      show c :: joinChar c (g :: gs) = c :: rest
      rw [ih]
    · rw [splitChar_cons_ne sep c rest h g gs hr]
      cases gs with
      | nil =>
        show c :: g = c :: rest
        rw [show joinChar sep [g] = g from rfl] at ih
        rw [ih]
      | cons g2 gs2 =>
        show (c :: g) ++ sep :: joinChar sep (g2 :: gs2) = c :: rest
        rw [show joinChar sep (g :: g2 :: gs2) =
          g ++ sep :: joinChar sep (g2 :: gs2) from rfl] at ih
        rw [← ih]
        rfl

/-- A separator-free list splits into itself. -/
theorem splitChar_no_sep (sep : Char) (g : List Char) (h : sep ∉ g) :
    splitChar sep g = [g] := by
  induction g with
  | nil => rfl
  | cons c t ih =>
    have hc : ¬ c = sep := fun he => h (he ▸ List.mem_cons_self c t)
    exact splitChar_cons_ne sep c t hc t []
      (ih (fun hm => h (List.mem_cons_of_mem c hm)))

/-- Splitting a list with a known separator-free prefix. -/
theorem splitChar_sep_append (sep : Char) (g t : List Char) (h : sep ∉ g) :
    splitChar sep (g ++ sep :: t) = g :: splitChar sep t := by
  induction g with
  | nil => exact splitChar_cons_sep sep t
  | cons c g2 ih =>
    have hc : ¬ c = sep := fun he => h (he ▸ List.mem_cons_self c g2)
    have hg2 : sep ∉ g2 := fun hm => h (List.mem_cons_of_mem c hm)
    obtain ⟨x, xs, hr⟩ : ∃ x xs, splitChar sep (g2 ++ sep :: t) = x :: xs := by
      cases hh : splitChar sep (g2 ++ sep :: t) with
      | nil => exact absurd hh (splitChar_ne_nil sep _)
      | cons x xs => exact ⟨x, xs, rfl⟩
    have hr2 := ih hg2
    rw [hr] at hr2
    injection hr2 with hx hxs
    subst hx
    subst hxs
    exact splitChar_cons_ne sep c _ hc _ _ hr

/-- Splitting the join of separator-free groups recovers the groups. -/
theorem splitChar_joinChar (sep : Char) (xs : List (List Char))
    (hsep : ∀ x ∈ xs, sep ∉ x) (hne : xs ≠ []) :
    splitChar sep (joinChar sep xs) = xs := by
  obtain ⟨x, rest, rfl⟩ : ∃ x rest, xs = x :: rest := by
    cases xs with
    | nil => exact absurd rfl hne
    | cons x rest => exact ⟨x, rest, rfl⟩
  clear hne
  induction rest generalizing x with
  | nil => exact splitChar_no_sep sep x (hsep x (by simp))
  | cons y rest2 ih =>
    rw [show joinChar sep (x :: y :: rest2) =
      x ++ sep :: joinChar sep (y :: rest2) from rfl,
      splitChar_sep_append sep x _ (hsep x (by simp)),
      ih y (fun z hz => hsep z (by simp at hz ⊢; tauto))]

/-- Characters of a join come from the separator or a group. -/
theorem mem_joinChar (sep c : Char) (xs : List (List Char))
    (h : c ∈ joinChar sep xs) : c = sep ∨ ∃ x ∈ xs, c ∈ x := by
  induction xs with
  | nil => cases h
  | cons g rest ih =>
    cases rest with
    | nil => exact Or.inr ⟨g, by simp, h⟩
    | cons g2 gs2 =>
      rw [show joinChar sep (g :: g2 :: gs2) =
        g ++ sep :: joinChar sep (g2 :: gs2) from rfl] at h
      rcases List.mem_append.mp h with hg | hrest
      · exact Or.inr ⟨g, by simp, hg⟩
      · rcases List.mem_cons.mp hrest with rfl | hjoin
        · exact Or.inl rfl
        · rcases ih hjoin with hc | ⟨x, hx, hcx⟩
          · exact Or.inl hc
          · exact Or.inr ⟨x, by simp at hx ⊢; tauto, hcx⟩

/-- Character classes of `encodeURIComponent` output. -/
theorem mem_encodeURIComponentList (c : Char) (l : List Char)
    (h : c ∈ encodeURIComponentList l) :
    isUriUnreserved c = true ∨ c = '%' ∨ ∃ n, n < 16 ∧ c = hexUpper n := by
  unfold encodeURIComponentList at h
  simp only [List.mem_flatten, List.mem_map] at h
  obtain ⟨blk, ⟨d, hd, rfl⟩, hc⟩ := h
  unfold encodeURIComponentChar at hc
  split_ifs at hc with h1
  · simp only [List.mem_cons, List.not_mem_nil, or_false] at hc
    subst hc
    exact Or.inl h1
  · simp only [List.mem_flatten, List.mem_map] at hc
    obtain ⟨pb, ⟨b, hb, rfl⟩, hcpb⟩ := hc
    have hb256 : b < 256 := utf8Bytes_lt d.toNat
      (by rcases char_toNat_valid d with hv | hv <;> omega) b hb
    unfold percentByte at hcpb
    simp only [List.mem_cons, List.not_mem_nil, or_false] at hcpb
    rcases hcpb with rfl | rfl | rfl
    · exact Or.inr (Or.inl rfl)
    · exact Or.inr (Or.inr ⟨b / 16, by omega, rfl⟩)
    · exact Or.inr (Or.inr ⟨b % 16, by omega, rfl⟩)

/-- Character classes of urlencoded-serialiser output for one component. -/
theorem mem_formEncodeList (c : Char) (l : List Char)
    (h : c ∈ formEncodeList l) :
    isFormSafe c = true ∨ c = '+' ∨ c = '%' ∨ ∃ n, n < 16 ∧ c = hexUpper n := by
  unfold formEncodeList at h
  simp only [List.mem_flatten, List.mem_map] at h
  obtain ⟨blk, ⟨d, hd, rfl⟩, hc⟩ := h
  unfold formEncodeChar at hc
  split_ifs at hc with h1 h2
  · simp only [List.mem_cons, List.not_mem_nil, or_false] at hc
    subst hc
    exact Or.inl h1
  · simp only [List.mem_cons, List.not_mem_nil, or_false] at hc
    subst hc
    exact Or.inr (Or.inl rfl)
  · simp only [List.mem_flatten, List.mem_map] at hc
    obtain ⟨pb, ⟨b, hb, rfl⟩, hcpb⟩ := hc
    have hb256 : b < 256 := utf8Bytes_lt d.toNat
      (by rcases char_toNat_valid d with hv | hv <;> omega) b hb
    unfold percentByte at hcpb
    simp only [List.mem_cons, List.not_mem_nil, or_false] at hcpb
    rcases hcpb with rfl | rfl | rfl
    · exact Or.inr (Or.inr (Or.inl rfl))
    · exact Or.inr (Or.inr (Or.inr ⟨b / 16, by omega, rfl⟩))
    · exact Or.inr (Or.inr (Or.inr ⟨b % 16, by omega, rfl⟩))

/-- Hexadecimal digits are unreserved and urlencoded-safe. -/
theorem hexUpper_class : ∀ n, n < 16 →
    isUriUnreserved (hexUpper n) = true ∧ isFormSafe (hexUpper n) = true := by
  decide

/-- Character classes of the whole urlencoded serialiser output. -/
theorem mem_serializeUrlencoded (c : Char) (ps : List FormPair)
    (h : c ∈ serializeUrlencoded ps) :
    c = '&' ∨ c = '=' ∨ isFormSafe c = true ∨ c = '+' ∨ c = '%' ∨
      ∃ n, n < 16 ∧ c = hexUpper n := by
  unfold serializeUrlencoded at h
  rcases mem_joinChar '&' c _ h with rfl | ⟨x, hx, hcx⟩
  · exact Or.inl rfl
  · simp only [List.mem_map] at hx
    obtain ⟨p, hp, rfl⟩ := hx
    rcases List.mem_append.mp hcx with hk | hv
    · rcases mem_formEncodeList c _ hk with h1 | h1 | h1 | h1
      · exact Or.inr (Or.inr (Or.inl h1))
      · exact Or.inr (Or.inr (Or.inr (Or.inl h1)))
      · exact Or.inr (Or.inr (Or.inr (Or.inr (Or.inl h1))))
      · exact Or.inr (Or.inr (Or.inr (Or.inr (Or.inr h1))))
    · rcases List.mem_cons.mp hv with rfl | hv2
      · exact Or.inr (Or.inl rfl)
      · rcases mem_formEncodeList c _ hv2 with h1 | h1 | h1 | h1
        · exact Or.inr (Or.inr (Or.inl h1))
        · exact Or.inr (Or.inr (Or.inr (Or.inl h1)))
        · exact Or.inr (Or.inr (Or.inr (Or.inr (Or.inl h1))))
        · exact Or.inr (Or.inr (Or.inr (Or.inr (Or.inr h1))))

/-- Query-set encoding is the identity on query-safe characters. -/
theorem encodeQueryList_id (l : List Char)
    (h : ∀ c ∈ l, inQueryEncodeSet c = false) : encodeQueryList l = l := by
  induction l with
  | nil => rfl
  | cons c t ih =>
    have hc : ¬ inQueryEncodeSet c = true := by
      rw [h c (by simp)]
      simp
    show (if inQueryEncodeSet c then ((utf8Bytes c.toNat).map percentByte).flatten
      else [c]) ++ encodeQueryList t = c :: t
    rw [if_neg hc, ih (fun d hd => h d (by simp [hd]))]
    rfl

/-- Path-set encoding is the identity on path-safe characters. -/
theorem encodePathSeg_id (l : List Char)
    (h : ∀ c ∈ l, inPathEncodeSet c = false) : encodePathSeg l = l := by
  induction l with
  | nil => rfl
  | cons c t ih =>
    have hc : ¬ inPathEncodeSet c = true := by
      rw [h c (by simp)]
      simp
    show (if inPathEncodeSet c then ((utf8Bytes c.toNat).map percentByte).flatten
      else [c]) ++ encodePathSeg t = c :: t
    rw [if_neg hc, ih (fun d hd => h d (by simp [hd]))]
    rfl

/-- Urlencoded serialiser output is query-safe. -/
theorem serializeUrlencoded_query_safe (ps : List FormPair) :
    ∀ c ∈ serializeUrlencoded ps, inQueryEncodeSet c = false := by
  intro c hc
  rcases mem_serializeUrlencoded c ps hc with rfl | rfl | h | rfl | rfl |
    ⟨n, hn, rfl⟩
  · decide
  · decide
  · have ht := formSafe_toNat c h
    exact inQueryEncodeSet_eq_false c (by omega) (by omega) (by omega)
      (by omega) (by omega) (by omega) (by omega)
  · decide
  · decide
  · have ht := formSafe_toNat _ (hexUpper_class n hn).2
    exact inQueryEncodeSet_eq_false _ (by omega) (by omega) (by omega)
      (by omega) (by omega) (by omega) (by omega)

/-- Urlencoded serialiser output contains neither `#` nor `?`. -/
theorem serializeUrlencoded_ne_hash_q (ps : List FormPair) :
    ∀ c ∈ serializeUrlencoded ps, ¬ c = '#' ∧ ¬ c = '?' := by
  intro c hc
  rcases mem_serializeUrlencoded c ps hc with rfl | rfl | h | rfl | rfl |
    ⟨n, hn, rfl⟩
  · exact ⟨by decide, by decide⟩
  · exact ⟨by decide, by decide⟩
  · constructor <;> (rintro rfl; exact absurd h (by decide))
  · exact ⟨by decide, by decide⟩
  · exact ⟨by decide, by decide⟩
  · constructor
    · intro heq
      have hf := (hexUpper_class n hn).2
      rw [heq] at hf
      exact absurd hf (by decide)
    · intro heq
      have hf := (hexUpper_class n hn).2
      rw [heq] at hf
      exact absurd hf (by decide)

/-- Urlencoded component output contains neither `=` nor `&`. -/
theorem formEncodeList_ne_eq_amp (k : List Char) :
    '=' ∉ formEncodeList k ∧ '&' ∉ formEncodeList k := by
  constructor <;> intro hm <;>
    rcases mem_formEncodeList _ _ hm with h | h | h | ⟨n, hn, h⟩ <;>
    first
      | exact absurd h (by decide)
      | (have hf := (hexUpper_class n hn).2;
         rw [← h] at hf; exact absurd hf (by decide))

/-- Splitting a piece with an `=`-free name part at its first `=`. -/
theorem splitFirstEq_append (a b : List Char) (ha : '=' ∉ a) :
    splitFirstEq (a ++ '=' :: b) = (a, b) := by
  induction a with
  | nil => rfl
  | cons c a2 ih =>
    have hc : ¬ c = '=' := fun he => ha (he ▸ List.mem_cons_self c a2)
    show (if c = '=' then (([] : List Char), a2 ++ '=' :: b)
      else ((c :: (splitFirstEq (a2 ++ '=' :: b)).1),
        (splitFirstEq (a2 ++ '=' :: b)).2)) = (c :: a2, b)
    rw [if_neg hc, ih (fun hm => ha (List.mem_cons_of_mem c hm))]

/-- Parsing the empty query yields no entries. -/
theorem parseUrlencoded_nil : parseUrlencoded [] = [] := rfl

/-- A serialised query parses back to exactly its entries. -/
theorem parseUrlencoded_serializeUrlencoded (ps : List FormPair) :
    parseUrlencoded (serializeUrlencoded ps) = ps := by
  cases ps with
  | nil => rfl
  | cons p ps2 =>
    unfold parseUrlencoded serializeUrlencoded
    rw [splitChar_joinChar '&' _ ?hsep (by simp)]
    case hsep =>
      intro x hx
      simp only [List.mem_map] at hx
      obtain ⟨q, hq, rfl⟩ := hx
      intro hmem
      rcases List.mem_append.mp hmem with hk | hv
      · exact (formEncodeList_ne_eq_amp q.1).2 hk
      · rcases List.mem_cons.mp hv with he | hv2
        · exact absurd he (by decide)
        · exact (formEncodeList_ne_eq_amp q.2).2 hv2
    rw [List.filter_eq_self.mpr ?hne]
    case hne =>
      intro x hx
      simp only [List.mem_map] at hx
      obtain ⟨q, hq, rfl⟩ := hx
      cases hk : formEncodeList q.1 <;> simp [hk]
    rw [List.map_map]
    have hpt : ∀ q : FormPair,
        ((fun piece => (formDecodeList (splitFirstEq piece).1,
            formDecodeList (splitFirstEq piece).2)) ∘
          (fun q => formEncodeList q.1 ++ '=' :: formEncodeList q.2)) q = q := by
      intro q
      show (formDecodeList
          (splitFirstEq (formEncodeList q.1 ++ '=' :: formEncodeList q.2)).1,
        formDecodeList
          (splitFirstEq (formEncodeList q.1 ++ '=' :: formEncodeList q.2)).2) = q
      rw [splitFirstEq_append _ _ (formEncodeList_ne_eq_amp q.1).1]
      show (formDecodeList (formEncodeList q.1),
        formDecodeList (formEncodeList q.2)) = q
      rw [formDecode_formEncode, formDecode_formEncode]
    rw [List.map_congr_left (fun q _ => hpt q)]
    exact List.map_id' _

/-- `encodeURIComponent` output is path-safe. -/
theorem enc_path_safe (l : List Char) :
    ∀ c ∈ encodeURIComponentList l, inPathEncodeSet c = false := by
  intro c hc
  rcases mem_encodeURIComponentList c l hc with h | rfl | ⟨n, hn, rfl⟩
  · have ht := uriUnreserved_toNat c h
    exact inPathEncodeSet_eq_false c (by omega) (by omega) (by omega) (by omega)
      (by omega) (by omega) (by omega) (by omega) (by omega) (by omega)
  · decide
  · have ht := uriUnreserved_toNat _ (hexUpper_class n hn).1
    exact inPathEncodeSet_eq_false _ (by omega) (by omega) (by omega) (by omega)
      (by omega) (by omega) (by omega) (by omega) (by omega) (by omega)

/-- `encodeURIComponent` output contains no separator, query or fragment
delimiters. -/
theorem enc_ne_delims (l : List Char) :
    ∀ c ∈ encodeURIComponentList l,
      ¬ c = '/' ∧ ¬ c = '\\' ∧ ¬ c = '?' ∧ ¬ c = '#' := by
  intro c hc
  rcases mem_encodeURIComponentList c l hc with h | rfl | ⟨n, hn, rfl⟩
  · refine ⟨?_, ?_, ?_, ?_⟩ <;> (rintro rfl; exact absurd h (by decide))
  · exact ⟨by decide, by decide, by decide, by decide⟩
  · have hu := (hexUpper_class n hn).1
    refine ⟨?_, ?_, ?_, ?_⟩ <;>
      (intro heq; rw [heq] at hu; exact absurd hu (by decide))

/-- Slash-collapsing walks through a slash-free nonempty block. -/
theorem collapse_block (g : List Char) (hg : ('/' : Char) ∉ g) (hne : g ≠ []) :
    ∀ (b : Bool) (t : List Char),
      collapseSlashesAux b (g ++ t) = g ++ collapseSlashesAux false t := by
  induction g with
  | nil => exact absurd rfl hne
  | cons c g2 ih =>
    intro b t
    have hc : ¬ c = '/' := fun he => hg (he ▸ List.mem_cons_self c g2)
    show (if c = '/' then _ else c :: collapseSlashesAux false (g2 ++ t)) = _
    rw [if_neg hc]
    cases g2 with
    | nil => rfl
    | cons c2 g3 =>
      rw [ih (fun hm => hg (List.mem_cons_of_mem c hm)) (by simp) false t]
      rfl

/-- Slash-collapsing is the identity on a join of slash-free nonempty
groups. -/
theorem collapse_join (xs : List (List Char))
    (hx : ∀ x ∈ xs, x ≠ [] ∧ ('/' : Char) ∉ x) (hne : xs ≠ []) :
    collapseSlashesAux true (joinChar '/' xs) = joinChar '/' xs := by
  obtain ⟨x, rest, rfl⟩ : ∃ x rest, xs = x :: rest := by
    cases xs with
    | nil => exact absurd rfl hne
    | cons x rest => exact ⟨x, rest, rfl⟩
  clear hne
  induction rest generalizing x with
  | nil =>
    show collapseSlashesAux true x = x
    have hb := collapse_block x (hx x (by simp)).2 (hx x (by simp)).1 true []
    rw [List.append_nil, show collapseSlashesAux false [] = [] from rfl,
      List.append_nil] at hb
    exact hb
  | cons y rest2 ih =>
    show collapseSlashesAux true (x ++ '/' :: joinChar '/' (y :: rest2)) = _
    rw [collapse_block x (hx x (by simp)).2 (hx x (by simp)).1 true _]
    show x ++ '/' :: collapseSlashesAux true (joinChar '/' (y :: rest2)) = _
    rw [ih y (fun z hz => hx z (by simp at hz ⊢; tauto))]
    rfl

/-- Trailing-slash stripping is the identity when the last character is not a
slash. -/
theorem strip_append_last (l : List Char) (c : Char) (hc : ¬ c = '/') :
    stripTrailingSlashes (l ++ [c]) = l ++ [c] := by
  unfold stripTrailingSlashes
  rw [List.reverse_append]
  show ((c :: l.reverse).dropWhile (fun d => d == '/')).reverse = l ++ [c]
  rw [List.dropWhile_cons_of_neg (by simp [hc])]
  simp

/-- A join of nonempty slash-free groups ends in a non-slash character. -/
theorem join_concat_shape (xs : List (List Char))
    (hx : ∀ x ∈ xs, x ≠ [] ∧ ('/' : Char) ∉ x) (hne : xs ≠ []) :
    ∃ t c, joinChar '/' xs = t ++ [c] ∧ ¬ c = '/' := by
  obtain ⟨x, rest, rfl⟩ : ∃ x rest, xs = x :: rest := by
    cases xs with
    | nil => exact absurd rfl hne
    | cons x rest => exact ⟨x, rest, rfl⟩
  clear hne
  induction rest generalizing x with
  | nil =>
    have hxne := (hx x (by simp)).1
    refine ⟨x.dropLast, x.getLast hxne, ?_, ?_⟩
    · show x = _
      rw [List.dropLast_append_getLast hxne]
    · intro he
      exact (hx x (by simp)).2 (he ▸ List.getLast_mem hxne)
  | cons y rest2 ih =>
    obtain ⟨t, c, hj, hc⟩ := ih y (fun z hz => hx z (by simp at hz ⊢; tauto))
    refine ⟨x ++ '/' :: t, c, ?_, hc⟩
    show x ++ '/' :: joinChar '/' (y :: rest2) = _
    rw [hj]
    simp

/-- Splitting on path separators never yields the empty group list. -/
theorem splitSeps_ne_nil (l : List Char) : splitSeps l ≠ [] := by
  induction l with
  | nil => simp [splitSeps]
  | cons c rest ih =>
    by_cases h : c = '/' ∨ c = '\\'
    · simp [splitSeps, h]
    · cases hr : splitSeps rest <;> simp [splitSeps, h, hr]

/-- Splitting on a leading path separator. -/
theorem splitSeps_cons_sep (c : Char) (rest : List Char)
    (h : c = '/' ∨ c = '\\') :
    splitSeps (c :: rest) = [] :: splitSeps rest := by
  simp [splitSeps, h]

/-- Splitting with a non-separator head. -/
theorem splitSeps_cons_ne (c : Char) (rest : List Char)
    (h : ¬ (c = '/' ∨ c = '\\')) (g : List Char) (gs : List (List Char))
    (hr : splitSeps rest = g :: gs) :
    splitSeps (c :: rest) = (c :: g) :: gs := by
  simp [splitSeps, h, hr]

/-- A separator-free list splits into itself. -/
theorem splitSeps_no_sep (g : List Char)
    (h : ('/' : Char) ∉ g ∧ ('\\' : Char) ∉ g) : splitSeps g = [g] := by
  induction g with
  | nil => rfl
  | cons c t ih =>
    have hc : ¬ (c = '/' ∨ c = '\\') := by
      rintro (rfl | rfl)
      · exact h.1 (List.mem_cons_self _ _)
      · exact h.2 (List.mem_cons_self _ _)
    exact splitSeps_cons_ne c t hc t []
      (ih ⟨fun hm => h.1 (List.mem_cons_of_mem c hm),
        fun hm => h.2 (List.mem_cons_of_mem c hm)⟩)

/-- Splitting a list with a known separator-free prefix. -/
theorem splitSeps_sep_append (g t : List Char)
    (h : ('/' : Char) ∉ g ∧ ('\\' : Char) ∉ g) :
    splitSeps (g ++ '/' :: t) = g :: splitSeps t := by
  induction g with
  | nil => exact splitSeps_cons_sep '/' t (Or.inl rfl)
  | cons c g2 ih =>
    have hc : ¬ (c = '/' ∨ c = '\\') := by
      rintro (rfl | rfl)
      · exact h.1 (List.mem_cons_self _ _)
      · exact h.2 (List.mem_cons_self _ _)
    obtain ⟨x, xs, hr⟩ : ∃ x xs, splitSeps (g2 ++ '/' :: t) = x :: xs := by
      cases hh : splitSeps (g2 ++ '/' :: t) with
      | nil => exact absurd hh (splitSeps_ne_nil _)
      | cons x xs => exact ⟨x, xs, rfl⟩
    have hr2 := ih ⟨fun hm => h.1 (List.mem_cons_of_mem c hm),
      fun hm => h.2 (List.mem_cons_of_mem c hm)⟩
    rw [hr] at hr2
    injection hr2 with hx hxs
    subst hx
    subst hxs
    exact splitSeps_cons_ne c _ hc _ _ hr

/-- Splitting the join of separator-free groups recovers the groups. -/
theorem splitSeps_joinChar (xs : List (List Char))
    (hsep : ∀ x ∈ xs, ('/' : Char) ∉ x ∧ ('\\' : Char) ∉ x) (hne : xs ≠ []) :
    splitSeps (joinChar '/' xs) = xs := by
  obtain ⟨x, rest, rfl⟩ : ∃ x rest, xs = x :: rest := by
    cases xs with
    | nil => exact absurd rfl hne
    | cons x rest => exact ⟨x, rest, rfl⟩
  clear hne
  induction rest generalizing x with
  | nil => exact splitSeps_no_sep x (hsep x (by simp))
  | cons y rest2 ih =>
    rw [show joinChar '/' (x :: y :: rest2) =
      x ++ '/' :: joinChar '/' (y :: rest2) from rfl,
      splitSeps_sep_append x _ (hsep x (by simp)),
      ih y (fun z hz => hsep z (by simp at hz ⊢; tauto))]

/-- The path state on a dot-free segment list appends the encoded segments. -/
theorem processSegs_no_dots (segs : List (List Char))
    (h : ∀ s ∈ segs, isDoubleDotSeg s = false ∧ isSingleDotSeg s = false) :
    ∀ acc, processSegs acc segs = acc ++ segs.map encodePathSeg := by
  induction segs with
  | nil => intro acc; simp [processSegs]
  | cons s rest ih =>
    intro acc
    have hs := h s (by simp)
    show (if isDoubleDotSeg s then _ else if isSingleDotSeg s then _
      else processSegs (acc ++ [encodePathSeg s]) rest) = _
    rw [if_neg (by rw [hs.1]; simp), if_neg (by rw [hs.2]; simp),
      ih (fun z hz => h z (by simp [hz])) (acc ++ [encodePathSeg s])]
    simp

/-- Flattening slash-prefixed groups is a slash-leading join. -/
theorem flatten_slash_cons (xs : List (List Char)) (hne : xs ≠ []) :
    (xs.map (fun s => '/' :: s)).flatten = '/' :: joinChar '/' xs := by
  obtain ⟨x, rest, rfl⟩ : ∃ x rest, xs = x :: rest := by
    cases xs with
    | nil => exact absurd rfl hne
    | cons x rest => exact ⟨x, rest, rfl⟩
  clear hne
  induction rest generalizing x with
  | nil => simp [joinChar]
  | cons y rest2 ih =>
    show ('/' :: x) ++ ((y :: rest2).map (fun s => '/' :: s)).flatten = _
    rw [ih y]
    show '/' :: (x ++ '/' :: joinChar '/' (y :: rest2)) = _
    rfl

/-- Group membership of a split never contains the separator. -/
theorem mem_splitChar_no_sep (sep : Char) (l : List Char) :
    ∀ x ∈ splitChar sep l, sep ∉ x := by
  induction l with
  | nil =>
    intro x hx
    simp only [splitChar, List.mem_cons, List.not_mem_nil, or_false] at hx
    subst hx
    simp
  | cons c rest ih =>
    intro x hx
    by_cases h : c = sep
    · rw [h, splitChar_cons_sep] at hx
      rcases List.mem_cons.mp hx with rfl | hx2
      · simp
      · exact ih x hx2
    · obtain ⟨g, gs, hr⟩ : ∃ g gs, splitChar sep rest = g :: gs := by
        cases hh : splitChar sep rest with
        | nil => exact absurd hh (splitChar_ne_nil sep rest)
        | cons g gs => exact ⟨g, gs, rfl⟩
      rw [splitChar_cons_ne sep c rest h g gs hr] at hx
      rcases List.mem_cons.mp hx with rfl | hx2
      · intro hm
        rcases List.mem_cons.mp hm with rfl | hm2
        · exact h rfl
        · exact ih g (hr ▸ List.mem_cons_self g gs) hm2
      · exact ih x (hr ▸ List.mem_cons_of_mem g hx2)

/-- Preimages of the lowercase map. -/
theorem jsLower_preimage (a x : Char) (h : jsToLowerChar a = x) :
    a = x ∨ (0x61 ≤ x.toNat ∧ x.toNat ≤ 0x7A ∧ a.toNat = x.toNat - 0x20) ∨
    (0xFF41 ≤ x.toNat ∧ x.toNat ≤ 0xFF5A ∧ a.toNat = x.toNat - 0x20) := by
  unfold jsToLowerChar at h
  split_ifs at h with hr1 hr2
  · have ht : (Char.ofNat (a.toNat + 0x20)).toNat = a.toNat + 0x20 :=
      toNat_ofNat_valid _ (Or.inl (by omega))
    rw [char_eq_iff_toNat, ht] at h
    exact Or.inr (Or.inl ⟨by omega, by omega, by omega⟩)
  · have ht : (Char.ofNat (a.toNat + 0x20)).toNat = a.toNat + 0x20 :=
      toNat_ofNat_valid _ (Or.inr ⟨by omega, by omega⟩)
    rw [char_eq_iff_toNat, ht] at h
    exact Or.inr (Or.inr ⟨by omega, by omega, by omega⟩)
  · exact Or.inl h

/-- Only `.` lowers to `.`. -/
theorem jsLower_dot (a : Char) (h : jsToLowerChar a = '.') : a = '.' := by
  rcases jsLower_preimage a _ h with h1 | ⟨h1, _, _⟩ | ⟨h1, _, _⟩
  · exact h1
  · rw [show ('.' : Char).toNat = 0x2E by decide] at h1; omega
  · rw [show ('.' : Char).toNat = 0x2E by decide] at h1; omega

/-- Only `%` lowers to `%`. -/
theorem jsLower_pct (a : Char) (h : jsToLowerChar a = '%') : a = '%' := by
  rcases jsLower_preimage a _ h with h1 | ⟨h1, _, _⟩ | ⟨h1, _, _⟩
  · exact h1
  · rw [show ('%' : Char).toNat = 0x25 by decide] at h1; omega
  · rw [show ('%' : Char).toNat = 0x25 by decide] at h1; omega

/-- Only `2` lowers to `2`. -/
theorem jsLower_two (a : Char) (h : jsToLowerChar a = '2') : a = '2' := by
  rcases jsLower_preimage a _ h with h1 | ⟨h1, _, _⟩ | ⟨h1, _, _⟩
  · exact h1
  · rw [show ('2' : Char).toNat = 0x32 by decide] at h1; omega
  · rw [show ('2' : Char).toNat = 0x32 by decide] at h1; omega

/-- Only `e` and `E` lower to `e`. -/
theorem jsLower_e (a : Char) (h : jsToLowerChar a = 'e') : a = 'e' ∨ a = 'E' := by
  rcases jsLower_preimage a _ h with h1 | ⟨h1, h2, h3⟩ | ⟨h1, _, _⟩
  · exact Or.inl h1
  · rw [show ('e' : Char).toNat = 0x65 by decide] at h3
    right
    rw [char_eq_iff_toNat, show ('E' : Char).toNat = 0x45 by decide]
    omega
  · rw [show ('e' : Char).toNat = 0x65 by decide] at h1; omega

/-- The encoding of a non-dot segment is not a single-dot segment. -/
theorem enc_not_singleDot (s : List Char) (h1 : s ≠ ['.']) :
    isSingleDotSeg (encodeURIComponentList s) = false := by
  have hd := decodeURI_encode s
  simp only [isSingleDotSeg]
  rw [decide_eq_false_iff_not]
  rintro (hm | hm)
  · obtain ⟨a1, t1, he1, hf1, hm1⟩ := List.map_eq_cons_iff.mp hm
    have ht1 : t1 = [] := List.map_eq_nil_iff.mp hm1
    subst ht1
    rw [jsLower_dot a1 hf1] at he1
    rw [he1, show decodeURIComponentList ['.'] = some ['.'] by decide] at hd
    injection hd with hs
    exact h1 hs.symm
  · obtain ⟨a1, t1, he1, hf1, hm1⟩ := List.map_eq_cons_iff.mp hm
    obtain ⟨a2, t2, he2, hf2, hm2⟩ := List.map_eq_cons_iff.mp hm1
    obtain ⟨a3, t3, he3, hf3, hm3⟩ := List.map_eq_cons_iff.mp hm2
    have ht3 : t3 = [] := List.map_eq_nil_iff.mp hm3
    subst ht3
    rw [jsLower_pct a1 hf1] at he1
    rw [jsLower_two a2 hf2] at he2
    subst he2
    subst he3
    rcases jsLower_e a3 hf3 with rfl | rfl
    · rw [he1, show decodeURIComponentList ['%', '2', 'e'] = some ['.'] by
        decide] at hd
      injection hd with hs
      exact h1 hs.symm
    · rw [he1, show decodeURIComponentList ['%', '2', 'E'] = some ['.'] by
        decide] at hd
      injection hd with hs
      exact h1 hs.symm

/-- The encoding of a non-double-dot segment is not a double-dot segment. -/
theorem enc_not_doubleDot (s : List Char) (h2 : s ≠ ['.', '.']) :
    isDoubleDotSeg (encodeURIComponentList s) = false := by
  have hd := decodeURI_encode s
  simp only [isDoubleDotSeg]
  rw [decide_eq_false_iff_not]
  rintro (hm | hm | hm | hm)
  · obtain ⟨a1, t1, he1, hf1, hm1⟩ := List.map_eq_cons_iff.mp hm
    obtain ⟨a2, t2, he2, hf2, hm2⟩ := List.map_eq_cons_iff.mp hm1
    have ht2 : t2 = [] := List.map_eq_nil_iff.mp hm2
    subst ht2
    rw [jsLower_dot a1 hf1] at he1
    rw [jsLower_dot a2 hf2] at he2
    subst he2
    rw [he1, show decodeURIComponentList ['.', '.'] = some ['.', '.'] by
      decide] at hd
    injection hd with hs
    exact h2 hs.symm
  · obtain ⟨a1, t1, he1, hf1, hm1⟩ := List.map_eq_cons_iff.mp hm
    obtain ⟨a2, t2, he2, hf2, hm2⟩ := List.map_eq_cons_iff.mp hm1
    obtain ⟨a3, t3, he3, hf3, hm3⟩ := List.map_eq_cons_iff.mp hm2
    obtain ⟨a4, t4, he4, hf4, hm4⟩ := List.map_eq_cons_iff.mp hm3
    have ht4 : t4 = [] := List.map_eq_nil_iff.mp hm4
    subst ht4
    rw [jsLower_dot a1 hf1] at he1
    rw [jsLower_pct a2 hf2] at he2
    rw [jsLower_two a3 hf3] at he3
    subst he2
    subst he3
    subst he4
    rcases jsLower_e a4 hf4 with rfl | rfl
    · rw [he1, show decodeURIComponentList ['.', '%', '2', 'e'] =
        some ['.', '.'] by decide] at hd
      injection hd with hs
      exact h2 hs.symm
    · rw [he1, show decodeURIComponentList ['.', '%', '2', 'E'] =
        some ['.', '.'] by decide] at hd
      injection hd with hs
      exact h2 hs.symm
  · obtain ⟨a1, t1, he1, hf1, hm1⟩ := List.map_eq_cons_iff.mp hm
    obtain ⟨a2, t2, he2, hf2, hm2⟩ := List.map_eq_cons_iff.mp hm1
    obtain ⟨a3, t3, he3, hf3, hm3⟩ := List.map_eq_cons_iff.mp hm2
    obtain ⟨a4, t4, he4, hf4, hm4⟩ := List.map_eq_cons_iff.mp hm3
    have ht4 : t4 = [] := List.map_eq_nil_iff.mp hm4
    subst ht4
    rw [jsLower_pct a1 hf1] at he1
    rw [jsLower_two a2 hf2] at he2
    rw [jsLower_dot a4 hf4] at he4
    subst he2
    subst he3
    subst he4
    rcases jsLower_e a3 hf3 with rfl | rfl
    · rw [he1, show decodeURIComponentList ['%', '2', 'e', '.'] =
        some ['.', '.'] by decide] at hd
      injection hd with hs
      exact h2 hs.symm
    · rw [he1, show decodeURIComponentList ['%', '2', 'E', '.'] =
        some ['.', '.'] by decide] at hd
      injection hd with hs
      exact h2 hs.symm
  · obtain ⟨a1, t1, he1, hf1, hm1⟩ := List.map_eq_cons_iff.mp hm
    obtain ⟨a2, t2, he2, hf2, hm2⟩ := List.map_eq_cons_iff.mp hm1
    obtain ⟨a3, t3, he3, hf3, hm3⟩ := List.map_eq_cons_iff.mp hm2
    obtain ⟨a4, t4, he4, hf4, hm4⟩ := List.map_eq_cons_iff.mp hm3
    obtain ⟨a5, t5, he5, hf5, hm5⟩ := List.map_eq_cons_iff.mp hm4
    obtain ⟨a6, t6, he6, hf6, hm6⟩ := List.map_eq_cons_iff.mp hm5
    have ht6 : t6 = [] := List.map_eq_nil_iff.mp hm6
    subst ht6
    rw [jsLower_pct a1 hf1] at he1
    rw [jsLower_two a2 hf2] at he2
    rw [jsLower_pct a4 hf4] at he4
    rw [jsLower_two a5 hf5] at he5
    subst he2
    subst he3
    subst he4
    subst he5
    subst he6
    rcases jsLower_e a3 hf3 with rfl | rfl <;>
      rcases jsLower_e a6 hf6 with rfl | rfl
    · rw [he1, show decodeURIComponentList ['%', '2', 'e', '%', '2', 'e'] =
        some ['.', '.'] by decide] at hd
      injection hd with hs
      exact h2 hs.symm
    · rw [he1, show decodeURIComponentList ['%', '2', 'e', '%', '2', 'E'] =
        some ['.', '.'] by decide] at hd
      injection hd with hs
      exact h2 hs.symm
    · rw [he1, show decodeURIComponentList ['%', '2', 'E', '%', '2', 'e'] =
        some ['.', '.'] by decide] at hd
      injection hd with hs
      exact h2 hs.symm
    · rw [he1, show decodeURIComponentList ['%', '2', 'E', '%', '2', 'E'] =
        some ['.', '.'] by decide] at hd
      injection hd with hs
      exact h2 hs.symm

/-- The encoding of a nonempty list is nonempty. -/
theorem enc_ne_nil (s : List Char) (hs : s ≠ []) :
    encodeURIComponentList s ≠ [] := by
  obtain ⟨c, t, rfl⟩ : ∃ c t, s = c :: t := by
    cases s with
    | nil => exact absurd rfl hs
    | cons c t => exact ⟨c, t, rfl⟩
  show encodeURIComponentChar c ++ encodeURIComponentList t ≠ []
  intro he
  rw [List.append_eq_nil] at he
  have hc := he.1
  unfold encodeURIComponentChar at hc
  split_ifs at hc with h1
  simp at hc
  obtain ⟨b, hb⟩ : ∃ b, b ∈ utf8Bytes c.toNat := by
    unfold utf8Bytes
    split_ifs <;> simp
  have hpb := hc b hb
  simp [percentByte] at hpb

/-- Encoded groups of nonempty segments are nonempty and slash-free. -/
theorem enc_groups_good (rest : List (List Char))
    (hsegs : ∀ s ∈ rest, s ≠ []) :
    ∀ x ∈ rest.map encodeURIComponentList, x ≠ [] ∧ ('/' : Char) ∉ x := by
  intro x hx
  simp only [List.mem_map] at hx
  obtain ⟨s, hsm, rfl⟩ := hx
  refine ⟨enc_ne_nil s (hsegs s hsm), ?_⟩
  intro hm
  exact (enc_ne_delims s '/' hm).1 rfl

/-- The path parser on a slash-led raw path. -/
theorem parsePath_slash (t : List Char) :
    parsePath ('/' :: t) =
      ((processSegs [] (splitSeps t)).map (fun s => '/' :: s)).flatten := by
  have h : (if ('/' : Char) = '/' ∨ ('/' : Char) = '\\' then t else '/' :: t) =
      t := if_pos (Or.inl rfl)
  calc parsePath ('/' :: t)
      = ((processSegs [] (splitSeps
          (if ('/' : Char) = '/' ∨ ('/' : Char) = '\\' then t
           else '/' :: t))).map (fun s => '/' :: s)).flatten := rfl
    _ = _ := by rw [h]

/-- The canonical path of a good segment list is a parser fixpoint. -/
theorem parsePath_fix (rest : List (List Char)) (hne : rest ≠ [])
    (hdots : ∀ s ∈ rest, s ≠ ['.'] ∧ s ≠ ['.', '.'])
    (hsegs : ∀ s ∈ rest, s ≠ []) :
    parsePath ('/' :: joinChar '/' (rest.map encodeURIComponentList)) =
      '/' :: joinChar '/' (rest.map encodeURIComponentList) := by
  have hfree : ∀ x ∈ rest.map encodeURIComponentList,
      ('/' : Char) ∉ x ∧ ('\\' : Char) ∉ x := by
    intro x hx
    simp only [List.mem_map] at hx
    obtain ⟨s, hsm, rfl⟩ := hx
    constructor
    · intro hm
      exact (enc_ne_delims s '/' hm).1 rfl
    · intro hm
      exact (enc_ne_delims s '\\' hm).2.1 rfl
  have hnodot : ∀ x ∈ rest.map encodeURIComponentList,
      isDoubleDotSeg x = false ∧ isSingleDotSeg x = false := by
    intro x hx
    simp only [List.mem_map] at hx
    obtain ⟨s, hsm, rfl⟩ := hx
    exact ⟨enc_not_doubleDot s (hdots s hsm).2,
      enc_not_singleDot s (hdots s hsm).1⟩
  have hid : (rest.map encodeURIComponentList).map
      ((fun s => '/' :: s) ∘ encodePathSeg) =
      (rest.map encodeURIComponentList).map (fun s => '/' :: s) := by
    refine List.map_congr_left ?_
    intro x hx
    simp only [List.mem_map] at hx
    obtain ⟨s, hsm, rfl⟩ := hx
    show '/' :: encodePathSeg (encodeURIComponentList s) =
      '/' :: encodeURIComponentList s
    rw [encodePathSeg_id _ (enc_path_safe s)]
  rw [parsePath_slash, splitSeps_joinChar _ hfree (by simp [hne]),
    processSegs_no_dots _ hnodot [], List.nil_append, List.map_map, hid,
    flatten_slash_cons _ (by simp [hne])]

/-- Slash-collapsing fixes the canonical path of a good segment list. -/
theorem collapse_fix (rest : List (List Char)) (hne : rest ≠ [])
    (hsegs : ∀ s ∈ rest, s ≠ []) :
    collapseSlashesAux false
        ('/' :: joinChar '/' (rest.map encodeURIComponentList)) =
      '/' :: joinChar '/' (rest.map encodeURIComponentList) := by
  show (if ('/' : Char) = '/' then
    '/' :: collapseSlashesAux true (joinChar '/' (rest.map encodeURIComponentList))
    else _) = _
  rw [if_pos rfl,
    collapse_join _ (enc_groups_good rest hsegs) (by simp [hne])]

/-- Trailing-slash stripping fixes the canonical path of a good segment
list. -/
theorem strip_fix (rest : List (List Char)) (hne : rest ≠ [])
    (hsegs : ∀ s ∈ rest, s ≠ []) :
    stripTrailingSlashes
        ('/' :: joinChar '/' (rest.map encodeURIComponentList)) =
      '/' :: joinChar '/' (rest.map encodeURIComponentList) := by
  obtain ⟨t, c, hj, hc⟩ :=
    join_concat_shape _ (enc_groups_good rest hsegs) (by simp [hne])
  rw [hj, show ('/' :: (t ++ [c])) = ('/' :: t) ++ [c] from rfl,
    strip_append_last _ c hc]

/-- Decode-and-reencode fixes the canonical path of slash-free segments. -/
theorem dar_fix (rest : List (List Char)) (hne : rest ≠ [])
    (hfree : ∀ s ∈ rest, ('/' : Char) ∉ s) :
    decodeAndReencode
        ('/' :: joinChar '/' (rest.map encodeURIComponentList)) =
      '/' :: joinChar '/' (rest.map encodeURIComponentList) := by
  obtain ⟨s0, rest2, rfl⟩ : ∃ s0 rest2, rest = s0 :: rest2 := by
    cases rest with
    | nil => exact absurd rfl hne
    | cons s0 rest2 => exact ⟨s0, rest2, rfl⟩
  clear hne
  have hP : ('/' :: joinChar '/' ((s0 :: rest2).map encodeURIComponentList)) =
      joinChar '/'
        ((([] : List Char) :: s0 :: rest2).map encodeURIComponentList) := rfl
  unfold decodeAndReencode
  rw [hP, decode_join_enc _ (by simp)]
  show joinChar '/'
      ((splitChar '/' (joinChar '/' ([] :: s0 :: rest2))).map
        encodeURIComponentList) = _
  rw [splitChar_joinChar '/' _ ?hsf (by simp)]
  case hsf =>
    intro x hx
    rcases List.mem_cons.mp hx with rfl | hx2
    · simp
    · exact hfree x hx2

/-- Scalar-value decomposition of a host-legal character. -/
theorem hostCharOk_toNat (c : Char) (h : hostCharOk c = true) :
    0x21 ≤ c.toNat ∧ c.toNat ≤ 0x7E ∧ c.toNat ≠ 0x23 ∧ c.toNat ≠ 0x25 ∧
    c.toNat ≠ 0x2F ∧ c.toNat ≠ 0x3A ∧ c.toNat ≠ 0x3C ∧ c.toNat ≠ 0x3E ∧
    c.toNat ≠ 0x3F ∧ c.toNat ≠ 0x40 ∧ c.toNat ≠ 0x5B ∧ c.toNat ≠ 0x5C ∧
    c.toNat ≠ 0x5D ∧ c.toNat ≠ 0x5E ∧ c.toNat ≠ 0x7C := by
  simp only [hostCharOk, Bool.and_eq_true, decide_eq_true_eq,
    Bool.not_eq_true'] at h
  obtain ⟨h1, h2, h3⟩ := h
  rw [decide_eq_false_iff_not] at h3
  refine ⟨h1, h2, ?_, ?_, ?_, ?_, ?_, ?_, ?_, ?_, ?_, ?_, ?_, ?_, ?_⟩ <;>
    intro he <;> apply h3
  · exact Or.inl (by rw [char_eq_iff_toNat]; rw [he]; decide)
  · exact Or.inr (Or.inl (by rw [char_eq_iff_toNat]; rw [he]; decide))
  · exact Or.inr (Or.inr (Or.inl
      (by rw [char_eq_iff_toNat]; rw [he]; decide)))
  · exact Or.inr (Or.inr (Or.inr (Or.inl
      (by rw [char_eq_iff_toNat]; rw [he]; decide))))
  · exact Or.inr (Or.inr (Or.inr (Or.inr (Or.inl
      (by rw [char_eq_iff_toNat]; rw [he]; decide)))))
  · exact Or.inr (Or.inr (Or.inr (Or.inr (Or.inr (Or.inl
      (by rw [char_eq_iff_toNat]; rw [he]; decide))))))
  · exact Or.inr (Or.inr (Or.inr (Or.inr (Or.inr (Or.inr (Or.inl
      (by rw [char_eq_iff_toNat]; rw [he]; decide)))))))
  · exact Or.inr (Or.inr (Or.inr (Or.inr (Or.inr (Or.inr (Or.inr (Or.inl
      (by rw [char_eq_iff_toNat]; rw [he]; decide))))))))
  · exact Or.inr (Or.inr (Or.inr (Or.inr (Or.inr (Or.inr (Or.inr (Or.inr
      (Or.inl (by rw [char_eq_iff_toNat]; rw [he]; decide)))))))))
  · exact Or.inr (Or.inr (Or.inr (Or.inr (Or.inr (Or.inr (Or.inr (Or.inr
      (Or.inr (Or.inl (by rw [char_eq_iff_toNat]; rw [he]; decide))))))))))
  · exact Or.inr (Or.inr (Or.inr (Or.inr (Or.inr (Or.inr (Or.inr (Or.inr
      (Or.inr (Or.inr (Or.inl
        (by rw [char_eq_iff_toNat]; rw [he]; decide)))))))))))
  · exact Or.inr (Or.inr (Or.inr (Or.inr (Or.inr (Or.inr (Or.inr (Or.inr
      (Or.inr (Or.inr (Or.inr (Or.inl
        (by rw [char_eq_iff_toNat]; rw [he]; decide))))))))))))
  · exact Or.inr (Or.inr (Or.inr (Or.inr (Or.inr (Or.inr (Or.inr (Or.inr
      (Or.inr (Or.inr (Or.inr (Or.inr
        (by rw [char_eq_iff_toNat]; rw [he]; decide))))))))))))

/-- Host legality from scalar-value facts. -/
theorem hostCharOk_of_toNat (c : Char) (h1 : 0x21 ≤ c.toNat)
    (h2 : c.toNat ≤ 0x7E) (h3 : c.toNat ≠ 0x23) (h4 : c.toNat ≠ 0x25)
    (h5 : c.toNat ≠ 0x2F) (h6 : c.toNat ≠ 0x3A) (h7 : c.toNat ≠ 0x3C)
    (h8 : c.toNat ≠ 0x3E) (h9 : c.toNat ≠ 0x3F) (h10 : c.toNat ≠ 0x40)
    (h11 : c.toNat ≠ 0x5B) (h12 : c.toNat ≠ 0x5C) (h13 : c.toNat ≠ 0x5D)
    (h14 : c.toNat ≠ 0x5E) (h15 : c.toNat ≠ 0x7C) : hostCharOk c = true := by
  simp only [hostCharOk, Bool.and_eq_true, decide_eq_true_eq,
    Bool.not_eq_true']
  refine ⟨h1, h2, ?_⟩
  rw [decide_eq_false_iff_not]
  rintro (he | he | he | he | he | he | he | he | he | he | he | he | he) <;>
    rw [char_eq_iff_toNat] at he <;>
    first
      | (rw [show ('#' : Char).toNat = 0x23 by decide] at he; exact h3 he)
      | (rw [show ('%' : Char).toNat = 0x25 by decide] at he; exact h4 he)
      | (rw [show ('/' : Char).toNat = 0x2F by decide] at he; exact h5 he)
      | (rw [show (':' : Char).toNat = 0x3A by decide] at he; exact h6 he)
      | (rw [show ('<' : Char).toNat = 0x3C by decide] at he; exact h7 he)
      | (rw [show ('>' : Char).toNat = 0x3E by decide] at he; exact h8 he)
      | (rw [show ('?' : Char).toNat = 0x3F by decide] at he; exact h9 he)
      | (rw [show ('@' : Char).toNat = 0x40 by decide] at he; exact h10 he)
      | (rw [show ('[' : Char).toNat = 0x5B by decide] at he; exact h11 he)
      | (rw [show ('\\' : Char).toNat = 0x5C by decide] at he; exact h12 he)
      | (rw [show (']' : Char).toNat = 0x5D by decide] at he; exact h13 he)
      | (rw [show ('^' : Char).toNat = 0x5E by decide] at he; exact h14 he)
      | (rw [show ('|' : Char).toNat = 0x7C by decide] at he; exact h15 he)

/-- Lowercasing preserves host legality. -/
theorem hostCharOk_lower (a : Char) (h : hostCharOk a = true) :
    hostCharOk (jsToLowerChar a) = true := by
  have ht := hostCharOk_toNat a h
  unfold jsToLowerChar
  split_ifs with h1 h2
  · have htn : (Char.ofNat (a.toNat + 0x20)).toNat = a.toNat + 0x20 :=
      toNat_ofNat_valid _ (Or.inl (by omega))
    refine hostCharOk_of_toNat _ ?_ ?_ ?_ ?_ ?_ ?_ ?_ ?_ ?_ ?_ ?_ ?_ ?_ ?_ ?_
      <;> rw [htn] <;> omega
  · exact absurd h2 (by omega)
  · exact h

/-- Boolean predicates of the parser evaluated on host-legal characters. -/
theorem hostChar_preds (c : Char) (h : hostCharOk c = true) :
    (!(c == '/' || c == '\\' || c == '?' || c == '#')) = true ∧
    (c == '/' || c == '\\') = false ∧
    (!hostCharOk c) = false := by
  have ht := hostCharOk_toNat c h
  have hne : ∀ (d : Char) (n : Nat), d.toNat = n → c.toNat ≠ n →
      (c == d) = false := by
    intro d n hd hcn
    rw [beq_eq_false_iff_ne]
    intro he
    rw [char_eq_iff_toNat, hd] at he
    exact hcn he
  refine ⟨?_, ?_, ?_⟩
  · rw [hne '/' 0x2F (by decide) (by omega),
      hne '\\' 0x5C (by decide) (by omega),
      hne '?' 0x3F (by decide) (by omega),
      hne '#' 0x23 (by decide) (by omega)]
    rfl
  · rw [hne '/' 0x2F (by decide) (by omega),
      hne '\\' 0x5C (by decide) (by omega)]
    rfl
  · rw [h]
    rfl

/-- Unfolding the URL parser past a literal `https:` scheme. -/
theorem jsParseUrl_https (rest0 : List Char) :
    jsParseUrl (String.mk ('h' :: 't' :: 't' :: 'p' :: 's' :: ':' :: rest0)) =
      (let afterSlashes := rest0.dropWhile (fun c => c == '/' || c == '\\')
       let authority := afterSlashes.takeWhile
         (fun c => !(c == '/' || c == '\\' || c == '?' || c == '#'))
       let afterAuth := afterSlashes.drop authority.length
       if authority.isEmpty || authority.any (fun c => !hostCharOk c) then none
       else
         let host := String.mk (authority.map jsToLowerChar)
         let rawPath := afterAuth.takeWhile (fun c => !(c == '?' || c == '#'))
         let afterPath := afterAuth.drop rawPath.length
         let path := String.mk (parsePath rawPath)
         match afterPath with
         | '?' :: qf =>
           let rawQuery := qf.takeWhile (fun c => !(c == '#'))
           let afterQ := qf.drop rawQuery.length
           let fragment :=
             match afterQ with
             | _ :: f => some (String.mk f)
             | [] => none
           some { scheme := "https", host := host, path := path,
                  query := some (String.mk (encodeQueryList rawQuery)),
                  fragment := fragment }
         | '#' :: f =>
           some { scheme := "https", host := host, path := path,
                  query := none, fragment := some (String.mk f) }
         | _ =>
           some { scheme := "https", host := host, path := path,
                  query := none, fragment := none }) := rfl

/-- Parsing the serialisation of a well-formed record recovers the record. -/
theorem jsParseUrl_serializeUrl (host P : List Char) (q : Option (List Char))
    (hh1 : host ≠ []) (hh2 : ∀ c ∈ host, hostCharOk c = true)
    (hh3 : host.map jsToLowerChar = host)
    (hP0 : ∃ t, P = '/' :: t)
    (hPc : ∀ c ∈ P, (!(c == '?' || c == '#')) = true)
    (hPfix : parsePath P = P)
    (hq : ∀ x, q = some x → (∀ c ∈ x, (!(c == '#')) = true) ∧
      encodeQueryList x = x) :
    jsParseUrl (serializeUrl
      { scheme := "https", host := String.mk host, path := String.mk P,
        query := q.map String.mk, fragment := none }) =
      some
        { scheme := "https", host := String.mk host, path := String.mk P,
          query := q.map String.mk, fragment := none } := by
  obtain ⟨h0, host2, rfl⟩ : ∃ h0 host2, host = h0 :: host2 := by
    cases host with
    | nil => exact absurd rfl hh1
    | cons h0 host2 => exact ⟨h0, host2, rfl⟩
  obtain ⟨t0, rfl⟩ := hP0
  have hpred0 := hostChar_preds h0 (hh2 h0 (by simp))
  have hdropW : ∀ (tl : List Char),
      List.dropWhile (fun c => c == '/' || c == '\\')
        ('/' :: '/' :: ((h0 :: host2) ++ tl)) = (h0 :: host2) ++ tl := by
    intro tl
    rw [List.dropWhile_cons_of_pos (by decide),
      List.dropWhile_cons_of_pos (by decide), List.cons_append,
      List.dropWhile_cons_of_neg (by rw [hpred0.2.1]; simp)]
  have hauth : ∀ (tl : List Char),
      List.takeWhile (fun c => !(c == '/' || c == '\\' || c == '?' || c == '#'))
        ((h0 :: host2) ++ ('/' :: tl)) = h0 :: host2 := by
    intro tl
    rw [List.takeWhile_append_of_pos
      (fun a ha => (hostChar_preds a (hh2 a ha)).1),
      List.takeWhile_cons_of_neg (by decide), List.append_nil]
  have hanyf : ((h0 :: host2).any fun c => !hostCharOk c) = false := by
    rw [List.any_eq_false]
    intro x hx
    rw [(hostChar_preds x (hh2 x hx)).2.2]
    simp
  have hcond : ¬ (((h0 :: host2).isEmpty ||
      (h0 :: host2).any fun c => !hostCharOk c) = true) := by
    rw [show (h0 :: host2).isEmpty = false from rfl, hanyf]
    simp
  have hrp : List.takeWhile (fun c => !(c == '?' || c == '#')) ('/' :: t0) =
      '/' :: t0 := by
    have h2 := @List.takeWhile_append_of_pos _
      (fun c => !(c == '?' || c == '#')) ('/' :: t0) [] hPc
    rw [show List.takeWhile (fun c => !(c == '?' || c == '#'))
        ([] : List Char) = [] from rfl, List.append_nil] at h2
    exact h2
  cases q with
  | none =>
    have hser : serializeUrl
        { scheme := "https", host := String.mk (h0 :: host2),
          path := String.mk ('/' :: t0),
          query := Option.map String.mk (none : Option (List Char)),
          fragment := none } =
        String.mk ('h' :: 't' :: 't' :: 'p' :: 's' :: ':' :: '/' :: '/' ::
          ((h0 :: host2) ++ ('/' :: t0))) := by
      show String.mk _ = String.mk _
      simp [List.append_assoc]
    rw [hser, jsParseUrl_https]
    simp only []
    rw [hdropW ('/' :: t0), hauth t0, if_neg hcond, List.drop_left, hrp,
      List.drop_length, hh3, hPfix]
    rfl
  | some x =>
    obtain ⟨hxc, hxenc⟩ := hq x rfl
    have hser : serializeUrl
        { scheme := "https", host := String.mk (h0 :: host2),
          path := String.mk ('/' :: t0),
          query := Option.map String.mk (some x),
          fragment := none } =
        String.mk ('h' :: 't' :: 't' :: 'p' :: 's' :: ':' :: '/' :: '/' ::
          ((h0 :: host2) ++ ('/' :: (t0 ++ '?' :: x)))) := by
      show String.mk _ = String.mk _
      simp [List.append_assoc]
    rw [hser, jsParseUrl_https]
    simp only []
    rw [hdropW ('/' :: (t0 ++ '?' :: x)), hauth (t0 ++ '?' :: x), if_neg hcond,
      List.drop_left,
      show ('/' : Char) :: (t0 ++ '?' :: x) = ('/' :: t0) ++ '?' :: x from rfl,
      List.takeWhile_append_of_pos hPc,
      List.takeWhile_cons_of_neg (by decide), List.append_nil, List.drop_left]
    have hrq : x.takeWhile (fun c => !(c == '#')) = x := by
      have h2 := @List.takeWhile_append_of_pos _
        (fun c => !(c == '#')) x [] hxc
      rw [show List.takeWhile (fun c => !(c == '#'))
          ([] : List Char) = [] from rfl, List.append_nil] at h2
      exact h2
    show some
        ({ scheme := "https",
           host := String.mk ((h0 :: host2).map jsToLowerChar),
           path := String.mk (parsePath ('/' :: t0)),
           query := some (String.mk (encodeQueryList
             (x.takeWhile (fun c => !(c == '#'))))),
           fragment :=
             match x.drop (x.takeWhile (fun c => !(c == '#'))).length with
             | _ :: f => some (String.mk f)
             | [] => none } : JsUrl) =
      some
        ({ scheme := "https", host := String.mk (h0 :: host2),
           path := String.mk ('/' :: t0),
           query := Option.map String.mk (some x), fragment := none } : JsUrl)
    rw [hrq, List.drop_length, hxenc, hh3, hPfix]
    rfl

/-- Facts guaranteed by a successful URL parse: the scheme is `http` or
`https`, and the stored host is nonempty, host-legal and lowercase-fixed. -/
theorem jsParseUrl_facts (u : String) (v : JsUrl) (h : jsParseUrl u = some v) :
    (v.scheme = "http" ∨ v.scheme = "https") ∧ v.host.data ≠ [] ∧
    (∀ c ∈ v.host.data, hostCharOk c = true) ∧
    v.host.data.map jsToLowerChar = v.host.data := by
  unfold jsParseUrl at h
  simp only [] at h
  split at h
  · split_ifs at h with h1 h2
    all_goals try exact Option.noConfusion h
    rw [Bool.or_eq_true, not_or] at h2
    obtain ⟨hem, hany⟩ := h2
    split at h <;>
    · injection h with hv
      subst hv
      refine ⟨?_, ?_, ?_, ?_⟩
      · rcases h1 with h1 | h1
        · exact Or.inl (by show String.mk _ = _; rw [h1])
        · exact Or.inr (by show String.mk _ = _; rw [h1])
      · show (List.map jsToLowerChar _) ≠ []
        rw [ne_eq, List.map_eq_nil_iff]
        intro hnil
        apply hem
        rw [hnil]
        rfl
      · intro c hc
        simp only [List.mem_map] at hc
        obtain ⟨a, ha, rfl⟩ := hc
        have hok : hostCharOk a = true := by
          cases hbb : hostCharOk a with
          | true => rfl
          | false =>
            exfalso
            apply hany
            rw [List.any_eq_true]
            exact ⟨a, ha, by rw [hbb]; rfl⟩
        exact hostCharOk_lower a hok
      · show (List.map jsToLowerChar _).map jsToLowerChar = _
        exact jsToLower_map_idem _
  · exact Option.noConfusion h

/-- The search setter on the empty string clears the query. -/
theorem setSearch_nil (U : JsUrl) : setSearch U [] = { U with query := none } :=
  rfl

/-- The search setter on a nonempty string that does not begin with `?`. -/
theorem setSearch_eval (U : JsUrl) (s : List Char) (hne : s ≠ [])
    (hhead : ∀ c t, s = c :: t → ¬ c = '?') :
    setSearch U s = { U with query := some (String.mk (encodeQueryList s)) } := by
  obtain ⟨c, t, rfl⟩ : ∃ c t, s = c :: t := by
    cases s with
    | nil => exact absurd rfl hne
    | cons c t => exact ⟨c, t, rfl⟩
  unfold setSearch
  rw [if_neg (by simp)]
  have hc := hhead c t rfl
  congr 1
  split
  · rename_i t2 heq
    injection heq with h1 h2
    exact absurd h1 hc
  · rfl

/-- The pathname setter runs the path parser. -/
theorem setPathname_eval (U : JsUrl) (p : List Char) :
    setPathname U p = { U with path := String.mk (parsePath p) } := rfl

/-- A nonempty entry list serialises to a nonempty string. -/
theorem serializeUrlencoded_ne_nil (p : FormPair) (ps : List FormPair) :
    serializeUrlencoded (p :: ps) ≠ [] := by
  unfold serializeUrlencoded
  cases hk : formEncodeList p.1 with
  | nil =>
    cases ps <;> simp [joinChar, hk]
  | cons c t =>
    cases ps <;> simp [joinChar, hk]

/-- The serialised entries never begin with `?`. -/
theorem serializeUrlencoded_head (p : FormPair) (ps : List FormPair) :
    ∀ c t, serializeUrlencoded (p :: ps) = c :: t → ¬ c = '?' := by
  intro c t heq hc
  subst hc
  have hm : '?' ∈ serializeUrlencoded (p :: ps) := by
    rw [heq]
    simp
  exact (serializeUrlencoded_ne_hash_q (p :: ps) '?' hm).2 rfl

/-- The hostname step never empties a nonempty host. -/
theorem wwwStepList_ne_nil (l : List Char) (h : l ≠ []) :
    wwwStepList l ≠ [] := by
  unfold wwwStepList
  split_ifs with h1 h2
  · exact h
  · intro hnil
    apply h2
    rw [hnil]
    rfl
  · exact h

/-- The hostname step keeps a subset of the original characters. -/
theorem mem_wwwStepList (l : List Char) (c : Char) (h : c ∈ wwwStepList l) :
    c ∈ l := by
  unfold wwwStepList at h
  split_ifs at h
  · exact h
  · exact List.drop_subset 4 l h
  · exact h

/-- The hostname step preserves lowercase-fixedness. -/
theorem wwwStepList_lower_fixed (l : List Char)
    (h : l.map jsToLowerChar = l) :
    (wwwStepList l).map jsToLowerChar = wwwStepList l := by
  unfold wwwStepList
  split_ifs
  · exact h
  · rw [List.map_drop, h]
  · exact h

/-- Characters of the canonical path pass the path-scan predicate. -/
theorem pathP_pred (rest : List (List Char)) :
    ∀ c ∈ ('/' :: joinChar '/' (rest.map encodeURIComponentList)),
      (!(c == '?' || c == '#')) = true := by
  intro c hc
  rcases List.mem_cons.mp hc with rfl | hj
  · decide
  · rcases mem_joinChar '/' c _ hj with rfl | ⟨x, hx, hcx⟩
    · decide
    · simp only [List.mem_map] at hx
      obtain ⟨s, hsm, rfl⟩ := hx
      have h4 := enc_ne_delims s c hcx
      rw [beq_eq_false_iff_ne.mpr h4.2.2.1, beq_eq_false_iff_ne.mpr h4.2.2.2]
      rfl

/-- Characters of the canonical path are never `?`. -/
theorem pathP_ne_q (rest : List (List Char)) :
    ∀ c ∈ ('/' :: joinChar '/' (rest.map encodeURIComponentList)),
      ¬ c = '?' := by
  intro c hc
  rcases List.mem_cons.mp hc with rfl | hj
  · decide
  · rcases mem_joinChar '/' c _ hj with rfl | ⟨x, hx, hcx⟩
    · decide
    · simp only [List.mem_map] at hx
      obtain ⟨s, hsm, rfl⟩ := hx
      exact (enc_ne_delims s c hcx).2.2.1

/-- Unfolding the normaliser on a successfully parsed URL. -/
theorem normalizeUrl_some (u : String) (o : UrlNormalizationOptions)
    (parsed0 : JsUrl) (h : jsParseUrl u = some parsed0) :
    normalizeUrl u o =
      (let u1 :=
        if parsed0.scheme == "http" then { parsed0 with scheme := "https" }
        else parsed0
       let u2 :=
        if o.lowercaseHost then { u1 with host := jsToLower u1.host } else u1
       let u3 := { u2 with host := String.mk (wwwStepList u2.host.data) }
       let searchParams := parseUrlencoded (u3.query.getD "").data
       let searchParams2 := deleteParams searchParams o.removeParams
       let sortedParams := sortPairs searchParams2
       let u4 := setSearch u3 (serializeUrlencoded sortedParams)
       let u5 := { u4 with fragment := none }
       let p1 := collapseSlashesAux false u5.path.data
       let p2 := decodeAndReencode p1
       let p3 :=
        if o.normalizeTrailingSlash then
          if hasExtension p2 then stripTrailingSlashes p2
          else if !(p2 == ['/']) then stripTrailingSlashes p2
          else p2
        else p2
       let u6 := setPathname u5 p3
       let result := serializeUrl u6
       some
         (if result.data.getLast? == some '?' then String.mk result.data.dropLast
          else result)) := by
  unfold normalizeUrl
  rw [h]

/-- The last element of an append with nonempty right part. -/
theorem getLast_append_ne_nil {α} (t l : List α) (h : l ≠ []) :
    (t ++ l).getLast? = l.getLast? := by
  obtain ⟨a, hg⟩ : ∃ a, l.getLast? = some a := by
    cases hg : l.getLast? with
    | none => exact absurd (List.getLast?_eq_none_iff.mp hg) h
    | some a => exact ⟨a, rfl⟩
  obtain ⟨ys, rfl⟩ := List.getLast?_eq_some_iff.mp hg
  rw [← List.append_assoc, List.getLast?_concat, List.getLast?_concat]

/-- The serialised normal form never ends in `?`. -/
theorem serializeUrl_getLast (hostW P : List Char) (q : Option (List Char))
    (hPne : P ≠ []) (hPq : ∀ c ∈ P, ¬ c = '?')
    (hq : ∀ x, q = some x → x ≠ [] ∧ ∀ c ∈ x, ¬ c = '?') :
    ((serializeUrl
      { scheme := "https", host := String.mk hostW, path := String.mk P,
        query := q.map String.mk, fragment := none }).data.getLast? ==
      some '?') = false := by
  cases q with
  | none =>
    have hdata : (serializeUrl
        { scheme := "https", host := String.mk hostW, path := String.mk P,
          query := Option.map String.mk (none : Option (List Char)),
          fragment := none }).data =
        "https://".data ++ (hostW ++ P) := by
      simp [serializeUrl]
    rw [hdata,
      getLast_append_ne_nil _ _ (by
        intro hx
        rw [List.append_eq_nil] at hx
        exact hPne hx.2),
      getLast_append_ne_nil _ _ hPne]
    cases hg : P.getLast? with
    | none => rfl
    | some a =>
      obtain ⟨ys, rfl⟩ := List.getLast?_eq_some_iff.mp hg
      rw [show ((some a == some '?') = (a == '?')) from rfl,
        beq_eq_false_iff_ne]
      exact hPq a (by simp)
  | some x =>
    obtain ⟨hxne, hxq⟩ := hq x rfl
    have hdata : (serializeUrl
        { scheme := "https", host := String.mk hostW, path := String.mk P,
          query := Option.map String.mk (some x),
          fragment := none }).data =
        "https://".data ++ (hostW ++ ((P ++ ['?']) ++ x)) := by
      simp [serializeUrl]
    rw [hdata, getLast_append_ne_nil _ _ (by simp),
      getLast_append_ne_nil _ _ (by simp),
      getLast_append_ne_nil _ _ hxne]
    cases hg : x.getLast? with
    | none => rfl
    | some a =>
      obtain ⟨ys, rfl⟩ := List.getLast?_eq_some_iff.mp hg
      rw [show ((some a == some '?') = (a == '?')) from rfl,
        beq_eq_false_iff_ne]
      exact hxq a (by simp)

/-- Straight-line evaluation of the normaliser on a successfully parsed URL:
providing the value of each intermediate step yields the result. -/
theorem normalizeUrl_eval (u : String) (o : UrlNormalizationOptions)
    (parsed0 : JsUrl) (h : jsParseUrl u = some parsed0)
    (u1 u2 u3 : JsUrl) (sp sp2 sorted : List FormPair) (u4 u5 : JsUrl)
    (p1 p2 p3 : List Char) (u6 : JsUrl) (result : String)
    (e1 : u1 = if parsed0.scheme == "http" then
      { parsed0 with scheme := "https" } else parsed0)
    (e2 : u2 = if o.lowercaseHost then { u1 with host := jsToLower u1.host }
      else u1)
    (e3 : u3 = { u2 with host := String.mk (wwwStepList u2.host.data) })
    (e4 : sp = parseUrlencoded (u3.query.getD "").data)
    (e5 : sp2 = deleteParams sp o.removeParams)
    (e6 : sorted = sortPairs sp2)
    (e7 : u4 = setSearch u3 (serializeUrlencoded sorted))
    (e8 : u5 = { u4 with fragment := none })
    (e9 : p1 = collapseSlashesAux false u5.path.data)
    (e10 : p2 = decodeAndReencode p1)
    (e11 : p3 = if o.normalizeTrailingSlash then
        (if hasExtension p2 then stripTrailingSlashes p2
         else if !(p2 == ['/']) then stripTrailingSlashes p2
         else p2)
      else p2)
    (e12 : u6 = setPathname u5 p3)
    (e13 : result = serializeUrl u6) :
    normalizeUrl u o =
      some (if result.data.getLast? == some '?' then
        String.mk result.data.dropLast else result) := by
  subst e13
  subst e12
  subst e11
  subst e10
  subst e9
  subst e8
  subst e7
  subst e6
  subst e5
  subst e4
  subst e3
  subst e2
  subst e1
  unfold normalizeUrl
  rw [h]

/-- C5 (amended): on a URL whose parse satisfies the three stability side
conditions — the hostname reaches a `www.`-stripping fixpoint in one step,
the collapsed path percent-decodes successfully, and the decoded path has no
empty, `.` or `..` interior segments (or is the root) — normalisation with
the default options is idempotent: a second `normalizeUrl` returns its input
unchanged. -/
theorem C5_normalize_idempotent (u r : String) (parsed : JsUrl) (d : List Char)
    (rest : List (List Char))
    (hparse : jsParseUrl u = some parsed)
    (hw : wwwStepList (wwwStepList (jsToLower parsed.host).data) =
      wwwStepList (jsToLower parsed.host).data)
    (hdec : decodeURIComponentList
      (collapseSlashesAux false parsed.path.data) = some d)
    (hsplit : splitChar '/' d = [] :: rest)
    (hsegs : (rest ≠ [] ∧ ∀ s ∈ rest, s ≠ [] ∧ s ≠ ['.'] ∧ s ≠ ['.', '.']) ∨
      rest = [[]])
    (hres : normalizeUrl u DEFAULT_NORMALIZATION_OPTIONS = some r) :
    normalizeUrl r DEFAULT_NORMALIZATION_OPTIONS = some r := by
  obtain ⟨psc, phost, ppath, pquery, pfrag⟩ := parsed
  obtain ⟨hsch0, hhne0, hhok0, hhlow0⟩ := jsParseUrl_facts u _ hparse
  have hsch : psc = "http" ∨ psc = "https" := hsch0
  have hhne : phost.data ≠ [] := hhne0
  have hhok : ∀ c ∈ phost.data, hostCharOk c = true := hhok0
  have hhlow : phost.data.map jsToLowerChar = phost.data := hhlow0
  clear hsch0 hhne0 hhok0 hhlow0
  have hw2 : wwwStepList (wwwStepList phost.data) = wwwStepList phost.data := by
    have hw3 : wwwStepList (wwwStepList (phost.data.map jsToLowerChar)) =
      wwwStepList (phost.data.map jsToLowerChar) := hw
    rw [hhlow] at hw3
    exact hw3
  have hdec2 : decodeURIComponentList
      (collapseSlashesAux false ppath.data) = some d := hdec
  clear hw hdec
  -- host facts
  have hW1 : wwwStepList phost.data ≠ [] := wwwStepList_ne_nil _ hhne
  have hW2 : ∀ c ∈ wwwStepList phost.data, hostCharOk c = true :=
    fun c hc => hhok c (mem_wwwStepList _ c hc)
  have hW3 : (wwwStepList phost.data).map jsToLowerChar =
      wwwStepList phost.data := wwwStepList_lower_fixed _ hhlow
  -- path facts
  obtain ⟨s0, rest', hrest0⟩ : ∃ s0 rest', rest = s0 :: rest' := by
    rcases hsegs with ⟨hne, _⟩ | hroot
    · cases rest with
      | nil => exact absurd rfl hne
      | cons s0 rest' => exact ⟨s0, rest', rfl⟩
    · exact ⟨[], [], hroot⟩
  have hrne : rest ≠ [] := by rw [hrest0]; simp
  have hfree : ∀ s ∈ rest, ('/' : Char) ∉ s := by
    intro s hs
    exact mem_splitChar_no_sep '/' d s
      (by rw [hsplit]; exact List.mem_cons_of_mem _ hs)
  have hP2 : decodeAndReencode (collapseSlashesAux false ppath.data) =
      '/' :: joinChar '/' (rest.map encodeURIComponentList) := by
    unfold decodeAndReencode
    rw [hdec2]
    show joinChar '/' ((splitChar '/' d).map encodeURIComponentList) = _
    rw [hsplit, hrest0]
    rfl
  have hstrip3 : (if hasExtension
        ('/' :: joinChar '/' (rest.map encodeURIComponentList)) then
      stripTrailingSlashes ('/' :: joinChar '/' (rest.map encodeURIComponentList))
      else if !(('/' :: joinChar '/' (rest.map encodeURIComponentList)) == ['/'])
      then stripTrailingSlashes
        ('/' :: joinChar '/' (rest.map encodeURIComponentList))
      else ('/' :: joinChar '/' (rest.map encodeURIComponentList))) =
      '/' :: joinChar '/' (rest.map encodeURIComponentList) := by
    rcases hsegs with ⟨hne, hsg⟩ | hroot
    · have hstrip := strip_fix rest hne (fun s hs => (hsg s hs).1)
      split_ifs with hx1 hx2
      · exact hstrip
      · exact hstrip
      · rfl
    · subst hroot
      decide
  have hpfix : parsePath ('/' :: joinChar '/' (rest.map encodeURIComponentList))
      = '/' :: joinChar '/' (rest.map encodeURIComponentList) := by
    rcases hsegs with ⟨hne, hsg⟩ | hroot
    · exact parsePath_fix rest hne
        (fun s hs => ⟨(hsg s hs).2.1, (hsg s hs).2.2⟩)
        (fun s hs => (hsg s hs).1)
    · subst hroot
      decide
  have hcoll : collapseSlashesAux false
      ('/' :: joinChar '/' (rest.map encodeURIComponentList)) =
      '/' :: joinChar '/' (rest.map encodeURIComponentList) := by
    rcases hsegs with ⟨hne, hsg⟩ | hroot
    · exact collapse_fix rest hne (fun s hs => (hsg s hs).1)
    · subst hroot
      decide
  have hdar : decodeAndReencode
      ('/' :: joinChar '/' (rest.map encodeURIComponentList)) =
      '/' :: joinChar '/' (rest.map encodeURIComponentList) :=
    dar_fix rest hrne hfree
  have hPne : ('/' :: joinChar '/' (rest.map encodeURIComponentList)) ≠ [] :=
    by simp
  have hPq := pathP_ne_q rest
  have hPc := pathP_pred rest
  -- scheme step
  have hu1 : (if psc == "http" then
      ({ scheme := "https", host := phost, path := ppath, query := pquery,
         fragment := pfrag } : JsUrl)
      else
      ({ scheme := psc, host := phost, path := ppath, query := pquery,
         fragment := pfrag } : JsUrl)) =
      ({ scheme := "https", host := phost, path := ppath, query := pquery,
         fragment := pfrag } : JsUrl) := by
    rcases hsch with h | h
    · rw [if_pos (by rw [h]; rfl)]
    · subst h
      rw [if_neg (by decide)]
  have hjsl : jsToLower phost = phost := by
    show String.mk _ = _
    rw [hhlow]
  have hjsl2 : jsToLower (String.mk (wwwStepList phost.data)) =
      String.mk (wwwStepList phost.data) := by
    show String.mk _ = _
    rw [show (String.mk (wwwStepList phost.data)).data =
      wwwStepList phost.data from rfl, hW3]
  cases hsp : sortPairs (deleteParams (parseUrlencoded ((pquery.getD "")).data)
      DEFAULT_NORMALIZATION_OPTIONS.removeParams) with
  | nil =>
    have hlast := serializeUrl_getLast (wwwStepList phost.data)
      ('/' :: joinChar '/' (rest.map encodeURIComponentList)) none hPne hPq
      (fun x hx => by cases hx)
    rw [show Option.map String.mk (none : Option (List Char)) = none from
      rfl] at hlast
    have he2 : (if DEFAULT_NORMALIZATION_OPTIONS.lowercaseHost then
        ({ scheme := "https", host := jsToLower phost, path := ppath,
           query := pquery, fragment := pfrag } : JsUrl)
        else
        ({ scheme := "https", host := phost, path := ppath, query := pquery,
           fragment := pfrag } : JsUrl)) =
        ({ scheme := "https", host := phost, path := ppath, query := pquery,
           fragment := pfrag } : JsUrl) := by
      rw [show DEFAULT_NORMALIZATION_OPTIONS.lowercaseHost = true from rfl,
        if_pos rfl, hjsl]
    have he7 : setSearch
        ({ scheme := "https", host := String.mk (wwwStepList phost.data),
           path := ppath, query := pquery, fragment := pfrag } : JsUrl)
        (serializeUrlencoded []) =
        ({ scheme := "https", host := String.mk (wwwStepList phost.data),
           path := ppath, query := none, fragment := pfrag } : JsUrl) := by
      rw [show serializeUrlencoded ([] : List FormPair) = [] from rfl,
        setSearch_nil]
    have he11 : (if DEFAULT_NORMALIZATION_OPTIONS.normalizeTrailingSlash then
        (if hasExtension
            ('/' :: joinChar '/' (rest.map encodeURIComponentList)) then
          stripTrailingSlashes
            ('/' :: joinChar '/' (rest.map encodeURIComponentList))
         else if !(('/' :: joinChar '/' (rest.map encodeURIComponentList)) ==
            ['/']) then
          stripTrailingSlashes
            ('/' :: joinChar '/' (rest.map encodeURIComponentList))
         else ('/' :: joinChar '/' (rest.map encodeURIComponentList)))
        else ('/' :: joinChar '/' (rest.map encodeURIComponentList))) =
        '/' :: joinChar '/' (rest.map encodeURIComponentList) := by
      rw [show DEFAULT_NORMALIZATION_OPTIONS.normalizeTrailingSlash = true from
        rfl, if_pos rfl]
      exact hstrip3
    have he12 : setPathname
        ({ scheme := "https", host := String.mk (wwwStepList phost.data),
           path := ppath, query := none, fragment := none } : JsUrl)
        ('/' :: joinChar '/' (rest.map encodeURIComponentList)) =
        ({ scheme := "https", host := String.mk (wwwStepList phost.data),
           path := String.mk
             ('/' :: joinChar '/' (rest.map encodeURIComponentList)),
           query := none, fragment := none } : JsUrl) := by
      rw [setPathname_eval, hpfix]
    have hmain0 := normalizeUrl_eval u DEFAULT_NORMALIZATION_OPTIONS _ hparse
      _ _ _ _ _ _ _ _ _ _ _ _ _
      hu1.symm he2.symm rfl rfl rfl hsp.symm he7.symm rfl rfl hP2.symm
      he11.symm he12.symm rfl
    have hcond : ¬ (((serializeUrl
        ({ scheme := "https", host := String.mk (wwwStepList phost.data),
           path := String.mk
             ('/' :: joinChar '/' (rest.map encodeURIComponentList)),
           query := none, fragment := none } : JsUrl)).data.getLast? ==
        some '?') = true) := by
      rw [hlast]
      simp
    have hmain : normalizeUrl u DEFAULT_NORMALIZATION_OPTIONS =
        some (serializeUrl
          ({ scheme := "https", host := String.mk (wwwStepList phost.data),
             path := String.mk
               ('/' :: joinChar '/' (rest.map encodeURIComponentList)),
             query := none, fragment := none } : JsUrl)) := by
      rw [hmain0, if_neg hcond]
    rw [hmain] at hres
    have hr := Option.some.inj hres
    subst hr
    have hrt := jsParseUrl_serializeUrl (wwwStepList phost.data)
      ('/' :: joinChar '/' (rest.map encodeURIComponentList)) none hW1 hW2 hW3
      ⟨_, rfl⟩ hPc hpfix (fun x hx => by cases hx)
    rw [show Option.map String.mk (none : Option (List Char)) = none from
      rfl] at hrt
    have hf1 : (if (("https" : String) == "http") then
        ({ scheme := "https", host := String.mk (wwwStepList phost.data),
           path := String.mk
             ('/' :: joinChar '/' (rest.map encodeURIComponentList)),
           query := none, fragment := none } : JsUrl)
        else
        ({ scheme := "https", host := String.mk (wwwStepList phost.data),
           path := String.mk
             ('/' :: joinChar '/' (rest.map encodeURIComponentList)),
           query := none, fragment := none } : JsUrl)) =
        ({ scheme := "https", host := String.mk (wwwStepList phost.data),
           path := String.mk
             ('/' :: joinChar '/' (rest.map encodeURIComponentList)),
           query := none, fragment := none } : JsUrl) := by
      rw [if_neg (by decide)]
    have hf2 : (if DEFAULT_NORMALIZATION_OPTIONS.lowercaseHost then
        ({ scheme := "https",
           host := jsToLower (String.mk (wwwStepList phost.data)),
           path := String.mk
             ('/' :: joinChar '/' (rest.map encodeURIComponentList)),
           query := none, fragment := none } : JsUrl)
        else
        ({ scheme := "https", host := String.mk (wwwStepList phost.data),
           path := String.mk
             ('/' :: joinChar '/' (rest.map encodeURIComponentList)),
           query := none, fragment := none } : JsUrl)) =
        ({ scheme := "https", host := String.mk (wwwStepList phost.data),
           path := String.mk
             ('/' :: joinChar '/' (rest.map encodeURIComponentList)),
           query := none, fragment := none } : JsUrl) := by
      rw [show DEFAULT_NORMALIZATION_OPTIONS.lowercaseHost = true from rfl,
        if_pos rfl, hjsl2]
    have hf3 :
        ({ scheme := "https",
           host := String.mk (wwwStepList (wwwStepList phost.data)),
           path := String.mk
             ('/' :: joinChar '/' (rest.map encodeURIComponentList)),
           query := none, fragment := none } : JsUrl) =
        ({ scheme := "https", host := String.mk (wwwStepList phost.data),
           path := String.mk
             ('/' :: joinChar '/' (rest.map encodeURIComponentList)),
           query := none, fragment := none } : JsUrl) := by
      rw [hw2]
    have hf5 : deleteParams ([] : List FormPair)
        DEFAULT_NORMALIZATION_OPTIONS.removeParams = [] :=
      deleteParams_nil _
    have hf7 : setSearch
        ({ scheme := "https", host := String.mk (wwwStepList phost.data),
           path := String.mk
             ('/' :: joinChar '/' (rest.map encodeURIComponentList)),
           query := none, fragment := none } : JsUrl)
        (serializeUrlencoded []) =
        ({ scheme := "https", host := String.mk (wwwStepList phost.data),
           path := String.mk
             ('/' :: joinChar '/' (rest.map encodeURIComponentList)),
           query := none, fragment := none } : JsUrl) := by
      rw [show serializeUrlencoded ([] : List FormPair) = [] from rfl,
        setSearch_nil]
    have hf12 : setPathname
        ({ scheme := "https", host := String.mk (wwwStepList phost.data),
           path := String.mk
             ('/' :: joinChar '/' (rest.map encodeURIComponentList)),
           query := none, fragment := none } : JsUrl)
        ('/' :: joinChar '/' (rest.map encodeURIComponentList)) =
        ({ scheme := "https", host := String.mk (wwwStepList phost.data),
           path := String.mk
             ('/' :: joinChar '/' (rest.map encodeURIComponentList)),
           query := none, fragment := none } : JsUrl) := by
      rw [setPathname_eval, hpfix]
    have hm2 := normalizeUrl_eval _ DEFAULT_NORMALIZATION_OPTIONS _ hrt
      _ _ _ _ _ _ _ _ _ _ _ _ _
      hf1.symm hf2.symm hf3.symm rfl hf5.symm rfl hf7.symm rfl hcoll.symm
      hdar.symm he11.symm hf12.symm rfl
    rw [hm2, if_neg hcond]
  | cons p0 ps0 =>
    have hqsafe := serializeUrlencoded_query_safe (p0 :: ps0)
    have hencq : encodeQueryList (serializeUrlencoded (p0 :: ps0)) =
        serializeUrlencoded (p0 :: ps0) := encodeQueryList_id _ hqsafe
    have hsne : serializeUrlencoded (p0 :: ps0) ≠ [] :=
      serializeUrlencoded_ne_nil p0 ps0
    have hshead := serializeUrlencoded_head p0 ps0
    have hsb : ∀ c ∈ serializeUrlencoded (p0 :: ps0), (!(c == '#')) = true := by
      intro c hc
      rw [beq_eq_false_iff_ne.mpr (serializeUrlencoded_ne_hash_q _ c hc).1]
      rfl
    have hsnq : ∀ c ∈ serializeUrlencoded (p0 :: ps0), ¬ c = '?' :=
      fun c hc => (serializeUrlencoded_ne_hash_q _ c hc).2
    have hlast := serializeUrl_getLast (wwwStepList phost.data)
      ('/' :: joinChar '/' (rest.map encodeURIComponentList))
      (some (serializeUrlencoded (p0 :: ps0))) hPne hPq
      (fun x hx => by
        injection hx with hxx
        subst hxx
        exact ⟨hsne, hsnq⟩)
    rw [show Option.map String.mk (some (serializeUrlencoded (p0 :: ps0))) =
      some (String.mk (serializeUrlencoded (p0 :: ps0))) from rfl] at hlast
    have he2 : (if DEFAULT_NORMALIZATION_OPTIONS.lowercaseHost then
        ({ scheme := "https", host := jsToLower phost, path := ppath,
           query := pquery, fragment := pfrag } : JsUrl)
        else
        ({ scheme := "https", host := phost, path := ppath, query := pquery,
           fragment := pfrag } : JsUrl)) =
        ({ scheme := "https", host := phost, path := ppath, query := pquery,
           fragment := pfrag } : JsUrl) := by
      rw [show DEFAULT_NORMALIZATION_OPTIONS.lowercaseHost = true from rfl,
        if_pos rfl, hjsl]
    have he7 : setSearch
        ({ scheme := "https", host := String.mk (wwwStepList phost.data),
           path := ppath, query := pquery, fragment := pfrag } : JsUrl)
        (serializeUrlencoded (p0 :: ps0)) =
        ({ scheme := "https", host := String.mk (wwwStepList phost.data),
           path := ppath,
           query := some (String.mk (serializeUrlencoded (p0 :: ps0))),
           fragment := pfrag } : JsUrl) := by
      rw [setSearch_eval _ _ hsne hshead, hencq]
    have he11 : (if DEFAULT_NORMALIZATION_OPTIONS.normalizeTrailingSlash then
        (if hasExtension
            ('/' :: joinChar '/' (rest.map encodeURIComponentList)) then
          stripTrailingSlashes
            ('/' :: joinChar '/' (rest.map encodeURIComponentList))
         else if !(('/' :: joinChar '/' (rest.map encodeURIComponentList)) ==
            ['/']) then
          stripTrailingSlashes
            ('/' :: joinChar '/' (rest.map encodeURIComponentList))
         else ('/' :: joinChar '/' (rest.map encodeURIComponentList)))
        else ('/' :: joinChar '/' (rest.map encodeURIComponentList))) =
        '/' :: joinChar '/' (rest.map encodeURIComponentList) := by
      rw [show DEFAULT_NORMALIZATION_OPTIONS.normalizeTrailingSlash = true from
        rfl, if_pos rfl]
      exact hstrip3
    have he12 : setPathname
        ({ scheme := "https", host := String.mk (wwwStepList phost.data),
           path := ppath,
           query := some (String.mk (serializeUrlencoded (p0 :: ps0))),
           fragment := none } : JsUrl)
        ('/' :: joinChar '/' (rest.map encodeURIComponentList)) =
        ({ scheme := "https", host := String.mk (wwwStepList phost.data),
           path := String.mk
             ('/' :: joinChar '/' (rest.map encodeURIComponentList)),
           query := some (String.mk (serializeUrlencoded (p0 :: ps0))),
           fragment := none } : JsUrl) := by
      rw [setPathname_eval, hpfix]
    have hmain0 := normalizeUrl_eval u DEFAULT_NORMALIZATION_OPTIONS _ hparse
      _ _ _ _ _ _ _ _ _ _ _ _ _
      hu1.symm he2.symm rfl rfl rfl hsp.symm he7.symm rfl rfl hP2.symm
      he11.symm he12.symm rfl
    have hcond : ¬ (((serializeUrl
        ({ scheme := "https", host := String.mk (wwwStepList phost.data),
           path := String.mk
             ('/' :: joinChar '/' (rest.map encodeURIComponentList)),
           query := some (String.mk (serializeUrlencoded (p0 :: ps0))),
           fragment := none } : JsUrl)).data.getLast? == some '?') = true) := by
      rw [hlast]
      simp
    have hmain : normalizeUrl u DEFAULT_NORMALIZATION_OPTIONS =
        some (serializeUrl
          ({ scheme := "https", host := String.mk (wwwStepList phost.data),
             path := String.mk
               ('/' :: joinChar '/' (rest.map encodeURIComponentList)),
             query := some (String.mk (serializeUrlencoded (p0 :: ps0))),
             fragment := none } : JsUrl)) := by
      rw [hmain0, if_neg hcond]
    rw [hmain] at hres
    have hr := Option.some.inj hres
    subst hr
    have hdel := deleteParams_sortPairs
      (parseUrlencoded ((pquery.getD "")).data)
      DEFAULT_NORMALIZATION_OPTIONS.removeParams
    rw [hsp] at hdel
    have hsort := sortPairs_idem (deleteParams
      (parseUrlencoded ((pquery.getD "")).data)
      DEFAULT_NORMALIZATION_OPTIONS.removeParams)
    rw [hsp] at hsort
    have hrt := jsParseUrl_serializeUrl (wwwStepList phost.data)
      ('/' :: joinChar '/' (rest.map encodeURIComponentList))
      (some (serializeUrlencoded (p0 :: ps0))) hW1 hW2 hW3
      ⟨_, rfl⟩ hPc hpfix
      (fun x hx => by
        injection hx with hxx
        subst hxx
        exact ⟨hsb, hencq⟩)
    rw [show Option.map String.mk (some (serializeUrlencoded (p0 :: ps0))) =
      some (String.mk (serializeUrlencoded (p0 :: ps0))) from rfl] at hrt
    have hf1 : (if (("https" : String) == "http") then
        ({ scheme := "https", host := String.mk (wwwStepList phost.data),
           path := String.mk
             ('/' :: joinChar '/' (rest.map encodeURIComponentList)),
           query := some (String.mk (serializeUrlencoded (p0 :: ps0))),
           fragment := none } : JsUrl)
        else
        ({ scheme := "https", host := String.mk (wwwStepList phost.data),
           path := String.mk
             ('/' :: joinChar '/' (rest.map encodeURIComponentList)),
           query := some (String.mk (serializeUrlencoded (p0 :: ps0))),
           fragment := none } : JsUrl)) =
        ({ scheme := "https", host := String.mk (wwwStepList phost.data),
           path := String.mk
             ('/' :: joinChar '/' (rest.map encodeURIComponentList)),
           query := some (String.mk (serializeUrlencoded (p0 :: ps0))),
           fragment := none } : JsUrl) := by
      rw [if_neg (by decide)]
    have hf2 : (if DEFAULT_NORMALIZATION_OPTIONS.lowercaseHost then
        ({ scheme := "https",
           host := jsToLower (String.mk (wwwStepList phost.data)),
           path := String.mk
             ('/' :: joinChar '/' (rest.map encodeURIComponentList)),
           query := some (String.mk (serializeUrlencoded (p0 :: ps0))),
           fragment := none } : JsUrl)
        else
        ({ scheme := "https", host := String.mk (wwwStepList phost.data),
           path := String.mk
             ('/' :: joinChar '/' (rest.map encodeURIComponentList)),
           query := some (String.mk (serializeUrlencoded (p0 :: ps0))),
           fragment := none } : JsUrl)) =
        ({ scheme := "https", host := String.mk (wwwStepList phost.data),
           path := String.mk
             ('/' :: joinChar '/' (rest.map encodeURIComponentList)),
           query := some (String.mk (serializeUrlencoded (p0 :: ps0))),
           fragment := none } : JsUrl) := by
      rw [show DEFAULT_NORMALIZATION_OPTIONS.lowercaseHost = true from rfl,
        if_pos rfl, hjsl2]
    have hf3 :
        ({ scheme := "https",
           host := String.mk (wwwStepList (wwwStepList phost.data)),
           path := String.mk
             ('/' :: joinChar '/' (rest.map encodeURIComponentList)),
           query := some (String.mk (serializeUrlencoded (p0 :: ps0))),
           fragment := none } : JsUrl) =
        ({ scheme := "https", host := String.mk (wwwStepList phost.data),
           path := String.mk
             ('/' :: joinChar '/' (rest.map encodeURIComponentList)),
           query := some (String.mk (serializeUrlencoded (p0 :: ps0))),
           fragment := none } : JsUrl) := by
      rw [hw2]
    have hf4 : parseUrlencoded (serializeUrlencoded (p0 :: ps0)) =
        p0 :: ps0 := parseUrlencoded_serializeUrlencoded (p0 :: ps0)
    have hf7 : setSearch
        ({ scheme := "https", host := String.mk (wwwStepList phost.data),
           path := String.mk
             ('/' :: joinChar '/' (rest.map encodeURIComponentList)),
           query := some (String.mk (serializeUrlencoded (p0 :: ps0))),
           fragment := none } : JsUrl)
        (serializeUrlencoded (p0 :: ps0)) =
        ({ scheme := "https", host := String.mk (wwwStepList phost.data),
           path := String.mk
             ('/' :: joinChar '/' (rest.map encodeURIComponentList)),
           query := some (String.mk (serializeUrlencoded (p0 :: ps0))),
           fragment := none } : JsUrl) := by
      rw [setSearch_eval _ _ hsne hshead, hencq]
    have hf12 : setPathname
        ({ scheme := "https", host := String.mk (wwwStepList phost.data),
           path := String.mk
             ('/' :: joinChar '/' (rest.map encodeURIComponentList)),
           query := some (String.mk (serializeUrlencoded (p0 :: ps0))),
           fragment := none } : JsUrl)
        ('/' :: joinChar '/' (rest.map encodeURIComponentList)) =
        ({ scheme := "https", host := String.mk (wwwStepList phost.data),
           path := String.mk
             ('/' :: joinChar '/' (rest.map encodeURIComponentList)),
           query := some (String.mk (serializeUrlencoded (p0 :: ps0))),
           fragment := none } : JsUrl) := by
      rw [setPathname_eval, hpfix]
    have hm2 := normalizeUrl_eval _ DEFAULT_NORMALIZATION_OPTIONS _ hrt
      _ _ _ _ _ _ _ _ _ _ _ _ _
      hf1.symm hf2.symm hf3.symm hf4.symm hdel.symm hsort.symm hf7.symm rfl
      hcoll.symm hdar.symm he11.symm hf12.symm rfl
    rw [hm2, if_neg hcond]

/-- Witness for `C5_normalize_idempotent`: the concrete URL
`http://www.example.com/a/b%20c?utm_source=x&b=2&a=1#frag` normalizes to
`https://example.com/a/b%20c?a=1&b=2`, and that normalized form is a fixed
point of `normalizeUrl`. -/
theorem C5_normalize_idempotent_witness :
    normalizeUrl "https://example.com/a/b%20c?a=1&b=2"
      DEFAULT_NORMALIZATION_OPTIONS =
      some "https://example.com/a/b%20c?a=1&b=2" :=
  C5_normalize_idempotent
    "http://www.example.com/a/b%20c?utm_source=x&b=2&a=1#frag"
    "https://example.com/a/b%20c?a=1&b=2"
    { scheme := "http", host := "www.example.com", path := "/a/b%20c",
      query := some "utm_source=x&b=2&a=1", fragment := some "frag" }
    ("/a/b c" : String).data
    [['a'], ['b', ' ', 'c']]
    (by decide) (by decide) (by decide) (by decide)
    (Or.inl (by decide)) (by decide)

end DailyReporter
